import Mathlib

/-!
Verification development for the KOpeningHours expression engine snapshot.

The sources available are: the bison grammar (openinghoursparser.y), the
selector implementation (rule.cpp), the Interval header (interval.h), and the
test suites (parsertest.cpp, intervaltest.cpp).  The flex scanner, the parse
driver (openinghours.cpp), the validator, the normalizer and interval.cpp are
not part of the snapshot; wherever one of those decides a property it is
modelled from the specification, and the corresponding definition carries a
doc comment starting with "Modelled from the spec:".

Machine integers of the source (int, uint32_t) are modelled as Nat/Int; the
linked selector chains (unique_ptr next/next2) are modelled as nested
Option-inductives with the same field layout.
-/

namespace KOpeningHours

/-- Time::Event from rule_p.h (header absent from the snapshot; the member
list is visible in rule.cpp's debug printers and in the grammar actions). -/
inductive TimeEvent where
  | NoEvent
  | Sunrise
  | Sunset
  | Dawn
  | Dusk
  deriving DecidableEq

/-- struct Time: an extended wall clock time (hour may exceed 24) or a sun
event.  The scanner payload for an event token carries hour = minute = 0. -/
structure Time where
  event : TimeEvent
  hour : Nat
  minute : Nat
  deriving DecidableEq

/-- struct Timespan: one element of the time-selector chain.  `end_` models
the C++ `end` member; `none` stands for the default-constructed (unset)
value left by the `Time '+'` production. -/
inductive Timespan where
  | mk (begin : Time) (end_ : Option Time) (next : Option Timespan)

def Timespan.begin : Timespan → Time
  | .mk b _ _ => b

def Timespan.end_ : Timespan → Option Time
  | .mk _ e _ => e

def Timespan.next : Timespan → Option Timespan
  | .mk _ _ n => n

/-- Replace the head's `next` pointer, as `timeSelector->next.reset(t)` does
in the grammar actions (note: this discards any previous tail). -/
def Timespan.withNext : Timespan → Option Timespan → Timespan
  | .mk b e _, nx => .mk b e nx

/-- WeekdayRange::Holiday. -/
inductive Holiday where
  | NoHoliday
  | PublicHoliday
  | SchoolHoliday
  deriving DecidableEq

/-- struct WeekdayRange with the members printed by rule.cpp's QDebug
operator: beginDay, endDay, nthMask, offset, holiday, next, next2.
`endDay = none` models the default-constructed (unset) member; the modelled
defaults for the absent header are nthMask = 0, offset = 0, beginDay = 0. -/
inductive WeekdayRange where
  | mk (beginDay : Nat) (endDay : Option Nat) (nthMask : Nat) (offset : Int)
       (holiday : Holiday) (next : Option WeekdayRange) (next2 : Option WeekdayRange)

def WeekdayRange.beginDay : WeekdayRange → Nat
  | .mk b _ _ _ _ _ _ => b

def WeekdayRange.endDay : WeekdayRange → Option Nat
  | .mk _ e _ _ _ _ _ => e

def WeekdayRange.nthMask : WeekdayRange → Nat
  | .mk _ _ m _ _ _ _ => m

def WeekdayRange.offset : WeekdayRange → Int
  | .mk _ _ _ o _ _ _ => o

def WeekdayRange.holiday : WeekdayRange → Holiday
  | .mk _ _ _ _ h _ _ => h

def WeekdayRange.next : WeekdayRange → Option WeekdayRange
  | .mk _ _ _ _ _ n _ => n

def WeekdayRange.next2 : WeekdayRange → Option WeekdayRange
  | .mk _ _ _ _ _ _ n => n

/-- Replace the head's `next` pointer (see Timespan.withNext). -/
def WeekdayRange.withNext : WeekdayRange → Option WeekdayRange → WeekdayRange
  | .mk b e m o h _ n2, nx => .mk b e m o h nx n2

/-- struct Week: beginWeek, endWeek, interval, next; unset members modelled
as none. -/
inductive Week where
  | mk (beginWeek : Nat) (endWeek : Option Nat) (interval : Option Nat) (next : Option Week)

def Week.beginWeek : Week → Nat
  | .mk b _ _ _ => b

def Week.endWeek : Week → Option Nat
  | .mk _ e _ _ => e

def Week.interval : Week → Option Nat
  | .mk _ _ i _ => i

def Week.next : Week → Option Week
  | .mk _ _ _ n => n

def Week.withNext : Week → Option Week → Week
  | .mk b e i _, nx => .mk b e i nx

/-- Date::VariableDate values used by the grammar: FixedDate and Easter. -/
inductive DateKind where
  | FixedDate
  | Easter
  deriving DecidableEq

/-- struct Date, aggregate-initialised by the grammar actions as
{ year, month, day, variableDate }; 0 is the "unset" sentinel. -/
structure Date where
  year : Nat
  month : Nat
  day : Nat
  variableDate : DateKind
  deriving DecidableEq

/-- struct MonthdayRange: begin, end (unset modelled as none), next. -/
inductive MonthdayRange where
  | mk (begin : Date) (end_ : Option Date) (next : Option MonthdayRange)

def MonthdayRange.begin : MonthdayRange → Date
  | .mk b _ _ => b

def MonthdayRange.end_ : MonthdayRange → Option Date
  | .mk _ e _ => e

def MonthdayRange.next : MonthdayRange → Option MonthdayRange
  | .mk _ _ n => n

def MonthdayRange.withNext : MonthdayRange → Option MonthdayRange → MonthdayRange
  | .mk b e _, nx => .mk b e nx

/-- Interval::State from interval.h. -/
inductive State where
  | Invalid
  | Open
  | Closed
  | Unknown
  deriving DecidableEq

/-- Model of QDateTime: an abstract calendar day number plus a wall time.
QDateTime(date, QTime(h, m)) becomes the record below; an invalid QDateTime
is Option.none wherever one can occur. -/
structure DateTime where
  date : Int
  hour : Nat
  minute : Nat
  deriving DecidableEq

/-- Linearisation of a DateTime for comparisons (QDateTime order). -/
def DateTime.toMin (dt : DateTime) : Int :=
  dt.date * 1440 + (dt.hour : Int) * 60 + (dt.minute : Int)

/-- KOpeningHours::Interval from interval.h: state, begin, end, comment.
An invalid (unset) begin or end is none; the declared default state is the
first enumerator, Invalid; the default comment is the empty string. -/
structure Interval where
  state : State := .Invalid
  begin : Option DateTime := none
  end_ : Option DateTime := none
  comment : String := ""
  deriving DecidableEq

def Interval.setBegin (i : Interval) (b : Option DateTime) : Interval :=
  { i with begin := b }

def Interval.setEnd (i : Interval) (e : Option DateTime) : Interval :=
  { i with end_ := e }

def Interval.setState (i : Interval) (s : State) : Interval :=
  { i with state := s }

def Interval.setComment (i : Interval) (c : String) : Interval :=
  { i with comment := c }

/-- Modelled from the spec: interval.cpp (Interval::contains) is absent from
the snapshot.  Per interval.h's doc comments, begin is "the first point in
time included in the interval, or invalid for an open begin" and end is "the
first point in time not included anymore, or invalid for open-ended
intervals"; so containment is begin ≤ dt < end with an unset bound imposing
no constraint. -/
def Interval.contains (i : Interval) (dt : DateTime) : Bool :=
  (match i.begin with
   | none => true
   | some b => decide (b.toMin ≤ dt.toMin)) &&
  (match i.end_ with
   | none => true
   | some e => decide (dt.toMin < e.toMin))

/-- Modelled from the spec: the Capability bit values live in the absent
private header; the spec lists the set {None, PublicHoliday, SchoolHoliday,
Location, NotImplemented}, modelled as distinct bits. -/
def capNone : Nat := 0

def capPublicHoliday : Nat := 1

def capSchoolHoliday : Nat := 2

def capLocation : Nat := 4

def capNotImplemented : Nat := 8

/-- Helper for Timespan::requiredCapabilities: the C++ reads `end.event`
unconditionally; an unset end is default-constructed, hence NoEvent. -/
def optEvent : Option Time → TimeEvent
  | some t => t.event
  | none => .NoEvent

/-- Timespan::requiredCapabilities from rule.cpp: Location as soon as begin
or end uses a sun event, otherwise recurse into the tail. -/
def Timespan.requiredCapabilities : Timespan → Nat
  | .mk b e none =>
      if b.event ≠ .NoEvent ∨ optEvent e ≠ .NoEvent then capLocation else capNone
  | .mk b e (some n) =>
      if b.event ≠ .NoEvent ∨ optEvent e ≠ .NoEvent then capLocation
      else n.requiredCapabilities

/-- WeekdayRange::requiredCapabilities from rule.cpp: a NoHoliday node folds
next and next2; a holiday node returns only its own capability (its tail is
not visited). -/
def WeekdayRange.requiredCapabilities : WeekdayRange → Nat
  | .mk _ _ _ _ .PublicHoliday _ _ => capPublicHoliday
  | .mk _ _ _ _ .SchoolHoliday _ _ => capSchoolHoliday
  | .mk _ _ _ _ .NoHoliday none none => capNone ||| capNone
  | .mk _ _ _ _ .NoHoliday (some n) none => n.requiredCapabilities ||| capNone
  | .mk _ _ _ _ .NoHoliday none (some n2) => capNone ||| n2.requiredCapabilities
  | .mk _ _ _ _ .NoHoliday (some n) (some n2) =>
      n.requiredCapabilities ||| n2.requiredCapabilities

/-- struct Rule (rule_p.h absent): comment, state, four selector heads.  The
modelled default state is Open, per the spec's "default Open when only a
selector is present". -/
structure Rule where
  m_comment : Option String := none
  m_state : State := .Open
  m_timeSelector : Option Timespan := none
  m_weekdaySelector : Option WeekdayRange := none
  m_weekSelector : Option Week := none
  m_monthdaySelector : Option MonthdayRange := none

/-- Rule::requiredCapabilities from rule.cpp: the union of the time-selector
and weekday-selector capabilities (week and monthday selectors are not
consulted). -/
def Rule.requiredCapabilities (r : Rule) : Nat :=
  (match r.m_timeSelector with
   | some t => t.requiredCapabilities
   | none => capNone) |||
  (match r.m_weekdaySelector with
   | some w => w.requiredCapabilities
   | none => capNone)

/-- The default-constructed Time used when rule.cpp reads an unset end. -/
def defaultTime : Time := ⟨.NoEvent, 0, 0⟩

/-- Timespan::nextInterval from rule.cpp: copies the interval and replaces
begin and end by the timespan's wall times on *the begin's calendar day*
(both on the same day; no wrap is performed). -/
def Timespan.nextInterval (ts : Timespan) (interval : Interval) : Interval :=
  let i := interval
  let i := i.setBegin (interval.begin.map fun b =>
    { date := b.date, hour := ts.begin.hour, minute := ts.begin.minute })
  let i := i.setEnd (interval.begin.map fun b =>
    { date := b.date, hour := (ts.end_.getD defaultTime).hour,
      minute := (ts.end_.getD defaultTime).minute })
  i

/-- Rule::nextInterval from rule.cpp (marked "### temporary" in the source):
seed the interval with the query day at 00:00, apply the time selector if
present, and stamp the rule's state. -/
def Rule.nextInterval (r : Rule) (dt : DateTime) : Interval :=
  let i : Interval := {}
  let i := i.setBegin (some ⟨dt.date, 0, 0⟩)
  let i := i.setEnd (some ⟨dt.date, 0, 0⟩)
  let i := match r.m_timeSelector with
    | some ts => ts.nextInterval i
    | none => i
  i.setState r.m_state

/-! ## Scanner

Modelled from the spec: the flex scanner is absent from the snapshot.  The
spec's lexer section (4.2) lists the token classes: `24/7`, state literal,
extended `HH:MM` (hour 0..=48, minute 0..=59 per the data model), integer,
weekday, month, `week`, `day`, `easter`, event name, `PH`, `SH`,
double-quoted comment, and the punctuation set; multi-character punctuation
is greedy; an invalid byte yields an INVALID token.  Canonical (ASCII,
canonically-cased) spellings are recognised; the tolerant preconditioner of
spec section 4.1 is out of the modelled pipeline's scope.  A `, ` (comma
followed by a space) is the additional-rule separator while a bare `,` is
the list comma; other spaces separate tokens and are skipped. -/

/-- Token stream elements, mirroring the %token declarations of the grammar.
Comment payloads are carried as character lists. -/
inductive Tok where
  | num (n : Nat)
  | thm (h m : Nat)
  | ev (e : TimeEvent)
  | state (s : State)
  | t247
  | plus
  | minus
  | slash
  | colon
  | comma
  | lbracket
  | rbracket
  | lparen
  | rparen
  | ph
  | sh
  | kwDay
  | kwWeek
  | easter
  | weekday (d : Nat)
  | month (m : Nat)
  | comment (s : List Char)
  | normalSep
  | additionalSep
  | fallbackSep
  | invalid
  deriving DecidableEq

/-- ASCII digit class of the scanner. -/
def isDigitC (c : Char) : Bool := 48 ≤ c.toNat && c.toNat ≤ 57

/-- ASCII letter class of the scanner. -/
def isAlphaC (c : Char) : Bool :=
  (65 ≤ c.toNat && c.toNat ≤ 90) || (97 ≤ c.toNat && c.toNat ≤ 122)

/-- Decimal value of a digit string (most significant first). -/
def valAux : Nat → List Char → Nat
  | acc, [] => acc
  | acc, c :: cs => valAux (acc * 10 + (c.toNat - 48)) cs

def valOf (cs : List Char) : Nat := valAux 0 cs

/-- Keyword table: canonical weekday/month/state/event/keyword spellings. -/
def wordTok (w : List Char) : Tok :=
  if w = ['M','o'] then .weekday 0
  else if w = ['T','u'] then .weekday 1
  else if w = ['W','e'] then .weekday 2
  else if w = ['T','h'] then .weekday 3
  else if w = ['F','r'] then .weekday 4
  else if w = ['S','a'] then .weekday 5
  else if w = ['S','u'] then .weekday 6
  else if w = ['J','a','n'] then .month 1
  else if w = ['F','e','b'] then .month 2
  else if w = ['M','a','r'] then .month 3
  else if w = ['A','p','r'] then .month 4
  else if w = ['M','a','y'] then .month 5
  else if w = ['J','u','n'] then .month 6
  else if w = ['J','u','l'] then .month 7
  else if w = ['A','u','g'] then .month 8
  else if w = ['S','e','p'] then .month 9
  else if w = ['O','c','t'] then .month 10
  else if w = ['N','o','v'] then .month 11
  else if w = ['D','e','c'] then .month 12
  else if w = ['P','H'] then .ph
  else if w = ['S','H'] then .sh
  else if w = ['o','p','e','n'] then .state .Open
  else if w = ['c','l','o','s','e','d'] then .state .Closed
  else if w = ['o','f','f'] then .state .Closed
  else if w = ['u','n','k','n','o','w','n'] then .state .Unknown
  else if w = ['w','e','e','k'] then .kwWeek
  else if w = ['d','a','y'] then .kwDay
  else if w = ['d','a','y','s'] then .kwDay
  else if w = ['e','a','s','t','e','r'] then .easter
  else if w = ['s','u','n','r','i','s','e'] then .ev .Sunrise
  else if w = ['s','u','n','s','e','t'] then .ev .Sunset
  else if w = ['d','a','w','n'] then .ev .Dawn
  else if w = ['d','u','s','k'] then .ev .Dusk
  else .invalid

def headIsDigit : List Char → Bool
  | [] => false
  | c :: _ => isDigitC c

/-- Whether the digit run ds followed by rest forms the greedy `24/7`
lexeme. -/
def t247Cond (ds rest : List Char) : Bool :=
  ds = ['2','4'] && (match rest with
    | '/' :: '7' :: rs => !headIsDigit rs
    | _ => false)

/-- The digit-run token: the greedy `24/7` lexeme, an extended hour:minute
when a valid `:MM` follows a short digit run, else a plain integer.
`ds` is the complete digit run, `rest` what follows it. -/
def numToken (ds rest : List Char) : Tok × List Char :=
  if t247Cond ds rest then
    (.t247, rest.drop 2)
  else
    match rest with
    | ':' :: m1 :: m2 :: rs =>
      if isDigitC m1 ∧ isDigitC m2 ∧ ds.length ≤ 2 ∧ valOf ds ≤ 48 ∧
          valOf [m1, m2] ≤ 59 then
        (.thm (valOf ds) (valOf [m1, m2]), rs)
      else (.num (valOf ds), rest)
    | _ => (.num (valOf ds), rest)

/-- A double-quoted comment: everything up to the closing quote. -/
def commentToken (cs : List Char) : Tok × List Char :=
  match cs.dropWhile (· != '"') with
  | '"' :: rs => (.comment (cs.takeWhile (· != '"')), rs)
  | _ => (.invalid, [])

/-- Longest-match recognition of one token starting at character c.
Returns the token and the unconsumed remainder. -/
def nextToken (c : Char) (cs : List Char) : Tok × List Char :=
  if isDigitC c then
    numToken (c :: cs.takeWhile isDigitC) (cs.dropWhile isDigitC)
  else if isAlphaC c then
    (wordTok (c :: cs.takeWhile isAlphaC), cs.dropWhile isAlphaC)
  else if c = '"' then commentToken cs
  else if c = ',' then
    match cs with
    | ' ' :: rs => (.additionalSep, rs)
    | _ => (.comma, cs)
  else if c = ';' then (.normalSep, cs)
  else if c = '|' then
    match cs with
    | '|' :: rs => (.fallbackSep, rs)
    | _ => (.invalid, cs)
  else if c = '-' then (.minus, cs)
  else if c = '+' then (.plus, cs)
  else if c = '/' then (.slash, cs)
  else if c = ':' then (.colon, cs)
  else if c = '[' then (.lbracket, cs)
  else if c = ']' then (.rbracket, cs)
  else if c = '(' then (.lparen, cs)
  else if c = ')' then (.rparen, cs)
  else (.invalid, cs)

/-- Fuelled scanning loop; spaces between tokens are skipped. -/
def tokenizeAux : Nat → List Char → List Tok
  | 0, _ => []
  | _, [] => []
  | fuel + 1, c :: cs =>
    if c = ' ' then tokenizeAux fuel cs
    else
      let (t, rest) := nextToken c cs
      t :: tokenizeAux fuel rest

def tokenize (s : String) : List Tok := tokenizeAux (s.data.length + 1) s.data

/-! ## Parser

Embedding of the bison grammar in openinghoursparser.y, production by
production, as a deterministic recursive-descent parser over the token
stream.  Ambiguities between productions are resolved the way an LALR
parser with shift preference does (longest alternative first); grammar
left recursion (`X := item | X ',' item`) becomes an iteration.  The stub
actions of the source are kept: the fallback alternative of Ruleset
consumes `|| comment` and adds nothing, YearSelector discards its integer,
DateOffset is consumed but not stored, and the chain-extension actions
overwrite the head's `next` pointer (discarding any previous tail), exactly
as `$$->next.reset(...)` does on the head node in the source. -/

/-- struct Selectors from the %code requires block. -/
structure Selectors where
  timeSelector : Option Timespan := none
  weekdaySelector : Option WeekdayRange := none
  weekSelector : Option Week := none
  monthdaySelector : Option MonthdayRange := none

/-- The Time produced by the parenthesised VariableTime alternatives, whose
bison actions are missing (the default action copies the `(` token's
uninitialised semantic value); modelled as the default-constructed Time. -/
def undefTime : Time := ⟨.NoEvent, 0, 0⟩

/-- Grammar nonterminal Time (with VariableTime inlined). -/
def parseTime : List Tok → Option (Time × List Tok)
  | .thm h m :: rs => some (⟨.NoEvent, h, m⟩, rs)
  | .ev e :: rs => some (⟨e, 0, 0⟩, rs)
  | .lparen :: .ev _ :: .plus :: .num _ :: .rparen :: rs => some (undefTime, rs)
  | .lparen :: .ev _ :: .minus :: .num _ :: .rparen :: rs => some (undefTime, rs)
  | _ => none

/-- Grammar nonterminal Timespan: `Time` (begin = end), `Time '+'` (end left
unset), `Time '-' Time`. -/
def parseTimespan (toks : List Tok) : Option (Timespan × List Tok) :=
  match parseTime toks with
  | none => none
  | some (t, rest) =>
    match rest with
    | .minus :: rest2 =>
      (match parseTime rest2 with
       | some (t2, rest3) => some (.mk t (some t2) none, rest3)
       | none => none)
    | .plus :: rest2 => some (.mk t none none, rest2)
    | _ => some (.mk t (some t) none, rest)

def timeStartsL : List Tok → Bool
  | .thm _ _ :: _ => true
  | .ev _ :: _ => true
  | .lparen :: _ => true
  | _ => false

/-- Iteration for `TimeSelector := Timespan | TimeSelector ',' Timespan`;
each step overwrites the head's next pointer, per the source action. -/
def parseTimeSelectorLoop : Nat → Timespan → List Tok → Option (Timespan × List Tok)
  | 0, _, _ => none
  | fuel + 1, head, toks =>
    match toks with
    | .comma :: rest =>
      if timeStartsL rest then
        match parseTimespan rest with
        | some (t2, rest2) => parseTimeSelectorLoop fuel (head.withNext (some t2)) rest2
        | none => none
      else some (head, toks)
    | _ => some (head, toks)

def parseTimeSelector (toks : List Tok) : Option (Timespan × List Tok) :=
  match parseTimespan toks with
  | some (h, rest) => parseTimeSelectorLoop (rest.length + 1) h rest
  | none => none

/-- Grammar nonterminal WeekdayRange: a single weekday or a weekday range. -/
def parseWeekdayRange : List Tok → Option (WeekdayRange × List Tok)
  | .weekday d :: .minus :: .weekday d2 :: rs =>
      some (.mk d (some d2) 0 0 .NoHoliday none none, rs)
  | .weekday d :: rs => some (.mk d none 0 0 .NoHoliday none none, rs)
  | _ => none

def weekdayStartsL : List Tok → Bool
  | .weekday _ :: _ => true
  | _ => false

def parseWeekdaySequenceLoop : Nat → WeekdayRange → List Tok → Option (WeekdayRange × List Tok)
  | 0, _, _ => none
  | fuel + 1, head, toks =>
    match toks with
    | .comma :: rest =>
      if weekdayStartsL rest then
        match parseWeekdayRange rest with
        | some (w, rest2) => parseWeekdaySequenceLoop fuel (head.withNext (some w)) rest2
        | none => none
      else some (head, toks)
    | _ => some (head, toks)

def parseWeekdaySequence (toks : List Tok) : Option (WeekdayRange × List Tok) :=
  match parseWeekdayRange toks with
  | some (w, rest) => parseWeekdaySequenceLoop (rest.length + 1) w rest
  | none => none

/-- Grammar nonterminal Holiday: PH with optional DayOffset, or SH. -/
def parseHoliday : List Tok → Option (WeekdayRange × List Tok)
  | .ph :: .plus :: .num n :: .kwDay :: rs =>
      some (.mk 0 none 0 (Int.ofNat n) .PublicHoliday none none, rs)
  | .ph :: .minus :: .num n :: .kwDay :: rs =>
      some (.mk 0 none 0 (-(Int.ofNat n)) .PublicHoliday none none, rs)
  | .ph :: rs => some (.mk 0 none 0 0 .PublicHoliday none none, rs)
  | .sh :: rs => some (.mk 0 none 0 0 .SchoolHoliday none none, rs)
  | _ => none

def holidayStartsL : List Tok → Bool
  | .ph :: _ => true
  | .sh :: _ => true
  | _ => false

def parseHolidaySequenceLoop : Nat → WeekdayRange → List Tok → Option (WeekdayRange × List Tok)
  | 0, _, _ => none
  | fuel + 1, head, toks =>
    match toks with
    | .comma :: rest =>
      if holidayStartsL rest then
        match parseHoliday rest with
        | some (h, rest2) => parseHolidaySequenceLoop fuel (head.withNext (some h)) rest2
        | none => none
      else some (head, toks)
    | _ => some (head, toks)

def parseHolidaySequence (toks : List Tok) : Option (WeekdayRange × List Tok) :=
  match parseHoliday toks with
  | some (h, rest) => parseHolidaySequenceLoop (rest.length + 1) h rest
  | none => none

/-- Grammar nonterminal WeekdaySelector.  The whitespace-joined alternative
`HolidySequence " " WeekdaySequence` needs a space token, which the scanner
never emits (spaces only separate tokens), so it is inert; the two
comma-joined alternatives link the second sequence into the head's next
pointer, per the source's `$$.weekdaySelector->next.reset(...)`. -/
def parseWeekdaySelector (toks : List Tok) : Option (WeekdayRange × List Tok) :=
  if weekdayStartsL toks then
    match parseWeekdaySequence toks with
    | none => none
    | some (w, rest) =>
      match rest with
      | .comma :: rest2 =>
        if holidayStartsL rest2 then
          match parseHolidaySequence rest2 with
          | some (h, rest3) => some (w.withNext (some h), rest3)
          | none => none
        else some (w, rest)
      | _ => some (w, rest)
  else if holidayStartsL toks then
    match parseHolidaySequence toks with
    | none => none
    | some (h, rest) =>
      match rest with
      | .comma :: rest2 =>
        if weekdayStartsL rest2 then
          match parseWeekdaySequence rest2 with
          | some (w, rest3) => some (h.withNext (some w), rest3)
          | none => none
        else some (h, rest)
      | _ => some (h, rest)
  else none

/-- Grammar nonterminal Week: single week, range, or range with interval. -/
def parseWeek : List Tok → Option (Week × List Tok)
  | .num n :: .minus :: .num n2 :: .slash :: .num i :: rs =>
      some (.mk n (some n2) (some i) none, rs)
  | .num n :: .minus :: .num n2 :: rs => some (.mk n (some n2) none none, rs)
  | .num n :: rs => some (.mk n none none none, rs)
  | _ => none

def numStartsL : List Tok → Bool
  | .num _ :: _ => true
  | _ => false

def parseWeekSelectorLoop : Nat → Week → List Tok → Option (Week × List Tok)
  | 0, _, _ => none
  | fuel + 1, head, toks =>
    match toks with
    | .comma :: rest =>
      if numStartsL rest then
        match parseWeek rest with
        | some (w, rest2) => parseWeekSelectorLoop fuel (head.withNext (some w)) rest2
        | none => none
      else some (head, toks)
    | _ => some (head, toks)

/-- Grammar nonterminal WeekSelector: `week` then a comma list of Weeks. -/
def parseWeekSelector : List Tok → Option (Week × List Tok)
  | .kwWeek :: rest =>
    (match parseWeek rest with
     | some (w, rest2) => parseWeekSelectorLoop (rest2.length + 1) w rest2
     | none => none)
  | _ => none

/-- Grammar nonterminal DateFrom. -/
def parseDateFrom : List Tok → Option (Date × List Tok)
  | .num y :: .month m :: .num d :: rs => some (⟨y, m, d, .FixedDate⟩, rs)
  | .month m :: .num d :: rs => some (⟨0, m, d, .FixedDate⟩, rs)
  | .num y :: .easter :: rs => some (⟨y, 0, 0, .Easter⟩, rs)
  | .easter :: rs => some (⟨0, 0, 0, .Easter⟩, rs)
  | _ => none

/-- Grammar nonterminal DateTo: a DateFrom or a bare day number. -/
def parseDateTo (toks : List Tok) : Option (Date × List Tok) :=
  match parseDateFrom toks with
  | some r => some r
  | none =>
    match toks with
    | .num n :: rs => some (⟨0, 0, n, .FixedDate⟩, rs)
    | _ => none

/-- Grammar nonterminal DateOffset: consumed but not stored (the source
action is "TODO offset"). -/
def parseDateOffset : List Tok → Option (List Tok)
  | .plus :: .weekday _ :: rs => some rs
  | .minus :: .weekday _ :: rs => some rs
  | .plus :: .num _ :: .kwDay :: rs => some rs
  | .minus :: .num _ :: .kwDay :: rs => some rs
  | _ => none

/-- Grammar nonterminal MonthdayRange: whole month, date (with optional
discarded offset), or date range.  A `-` followed by an offset shape is
taken as DateOffset, otherwise as a range, matching the LALR resolution. -/
def parseMonthdayRange (toks : List Tok) : Option (MonthdayRange × List Tok) :=
  match parseDateFrom toks with
  | some (d, rest) =>
    (match parseDateOffset rest with
     | some rest2 => some (.mk d none none, rest2)
     | none =>
       match rest with
       | .minus :: rest2 =>
         (match parseDateTo rest2 with
          | some (d2, rest3) => some (.mk d (some d2) none, rest3)
          | none => none)
       | _ => some (.mk d none none, rest))
  | none =>
    match toks with
    | .month m :: rs => some (.mk ⟨0, m, 0, .FixedDate⟩ none none, rs)
    | _ => none

def mdStartsL : List Tok → Bool
  | .month _ :: _ => true
  | .easter :: _ => true
  | .num _ :: .month _ :: .num _ :: _ => true
  | .num _ :: .easter :: _ => true
  | _ => false

def parseMonthdaySelectorLoop : Nat → MonthdayRange → List Tok → Option (MonthdayRange × List Tok)
  | 0, _, _ => none
  | fuel + 1, head, toks =>
    match toks with
    | .comma :: rest =>
      if mdStartsL rest then
        match parseMonthdayRange rest with
        | some (m, rest2) => parseMonthdaySelectorLoop fuel (head.withNext (some m)) rest2
        | none => none
      else some (head, toks)
    | _ => some (head, toks)

def parseMonthdaySelector (toks : List Tok) : Option (MonthdayRange × List Tok) :=
  match parseMonthdayRange toks with
  | some (m, rest) => parseMonthdaySelectorLoop (rest.length + 1) m rest
  | none => none

/-- A leading integer opens a date (not a year selector) when it is followed
by a month and a day or by `easter` — the shift-preferring resolution of the
grammar's year/monthday ambiguity. -/
def dateAheadL : List Tok → Bool
  | .num _ :: .month _ :: .num _ :: _ => true
  | .num _ :: .easter :: _ => true
  | _ => false

def kwWeekStartsL : List Tok → Bool
  | .kwWeek :: _ => true
  | _ => false

/-- Grammar nonterminal WideRangeSelector.  YearSelector is a bare integer
whose value the source action discards (a "TODO" stub), so a consumed year
contributes nothing; `Comment ':'` likewise discards the comment. -/
def parseWideRange (toks : List Tok) : Option (Selectors × List Tok) :=
  match toks with
  | .comment _ :: .colon :: rs => some ({}, rs)
  | _ =>
    let hasYear : Bool :=
      match toks with
      | .num _ :: _ => !dateAheadL toks
      | _ => false
    let t1 := if hasYear then toks.tail else toks
    if mdStartsL t1 then
      match parseMonthdaySelector t1 with
      | none => none
      | some (md, t2) =>
        if kwWeekStartsL t2 then
          match parseWeekSelector t2 with
          | none => none
          | some (w, t3) =>
            some ({ weekSelector := some w, monthdaySelector := some md }, t3)
        else some ({ monthdaySelector := some md }, t2)
    else if kwWeekStartsL t1 then
      match parseWeekSelector t1 with
      | none => none
      | some (w, t2) => some ({ weekSelector := some w }, t2)
    else if hasYear then some ({}, t1)
    else none

def smallStartsL (toks : List Tok) : Bool :=
  weekdayStartsL toks || holidayStartsL toks || timeStartsL toks

/-- Grammar nonterminal SmallRangeSelector. -/
def parseSmallRange (toks : List Tok) : Option (Selectors × List Tok) :=
  if weekdayStartsL toks || holidayStartsL toks then
    match parseWeekdaySelector toks with
    | none => none
    | some (w, rest) =>
      if timeStartsL rest then
        match parseTimeSelector rest with
        | none => none
        | some (t, rest2) =>
          some ({ timeSelector := some t, weekdaySelector := some w }, rest2)
      else some ({ weekdaySelector := some w }, rest)
  else if timeStartsL toks then
    match parseTimeSelector toks with
    | none => none
    | some (t, rest) => some ({ timeSelector := some t }, rest)
  else none

/-- Grammar nonterminal SelectorSequence.  In the `WideRangeSelector
SmallRangeSelector` alternative the source action copies the time and
weekday selectors from the small part and the week selector from the wide
part; the monthday selector is left unassigned there (an apparent slip), and
is modelled with the wide part's value, the propagation every sibling
alternative performs. -/
def parseSelectorSequence (toks : List Tok) : Option (Selectors × List Tok) :=
  match toks with
  | .t247 :: rs => some ({}, rs)
  | _ =>
    if smallStartsL toks then parseSmallRange toks
    else
      match parseWideRange toks with
      | none => none
      | some (w, rest) =>
        if smallStartsL rest then
          match parseSmallRange rest with
          | none => none
          | some (s, rest2) =>
            some ({ timeSelector := s.timeSelector,
                    weekdaySelector := s.weekdaySelector,
                    weekSelector := w.weekSelector,
                    monthdaySelector := w.monthdaySelector }, rest2)
        else some (w, rest)

/-- The body of WideRangeSelector after the `Comment ':'` and year checks
have been discharged (proof scaffolding; equal to the tail of
`parseWideRange` whenever the head token is neither a comment nor a bare
number). -/
def wideBody (toks : List Tok) : Option (Selectors × List Tok) :=
  if mdStartsL toks then
    match parseMonthdaySelector toks with
    | none => none
    | some (md, t2) =>
      if kwWeekStartsL t2 then
        match parseWeekSelector t2 with
        | none => none
        | some (w, t3) =>
          some ({ weekSelector := some w, monthdaySelector := some md }, t3)
      else some ({ monthdaySelector := some md }, t2)
  else if kwWeekStartsL toks then
    match parseWeekSelector toks with
    | none => none
    | some (w, t2) => some ({ weekSelector := some w }, t2)
  else none

/-- The body of SelectorSequence after the `24/7` check (proof scaffolding;
equal to the tail of `parseSelectorSequence` whenever the head token is not
`24/7`). -/
def smallWideBody (toks : List Tok) : Option (Selectors × List Tok) :=
  if smallStartsL toks then parseSmallRange toks
  else
    match parseWideRange toks with
    | none => none
    | some (w, rest) =>
      if smallStartsL rest then
        match parseSmallRange rest with
        | none => none
        | some (s, rest2) =>
          some ({ timeSelector := s.timeSelector,
                  weekdaySelector := s.weekdaySelector,
                  weekSelector := w.weekSelector,
                  monthdaySelector := w.monthdaySelector }, rest2)
      else some (w, rest)

/-- The Rule assembled by the four Rule productions: selectors applied via
applySelectors, optional explicit state, optional comment.  Without an
explicit state token the rule keeps the default state (modelled Open). -/
def buildRule (sels : Selectors) (st : Option State) (cm : Option String) : Rule :=
  { m_comment := cm
    m_state := st.getD State.Open
    m_timeSelector := sels.timeSelector
    m_weekdaySelector := sels.weekdaySelector
    m_weekSelector := sels.weekSelector
    m_monthdaySelector := sels.monthdaySelector }

/-- Grammar nonterminal Rule. -/
def parseRule (toks : List Tok) : Option (Rule × List Tok) :=
  match parseSelectorSequence toks with
  | none => none
  | some (sels, rest) =>
    let stRest : Option State × List Tok :=
      match rest with
      | .state s :: rs => (some s, rs)
      | _ => (none, rest)
    let cmRest : Option String × List Tok :=
      match stRest.2 with
      | .comment c :: rs => (some (String.mk c), rs)
      | _ => (none, stRest.2)
    some (buildRule sels stRest.1 cmRest.1, cmRest.2)

/-- Iteration for the Ruleset productions.  The fallback alternative is the
source's stub `Ruleset T_FALLBACK_SEPARATOR T_COMMENT { /* TODO */ }`: it
requires a comment after `||` and appends no rule. -/
def parseRulesetLoop : Nat → List Rule → List Tok → Option (List Rule)
  | 0, _, _ => none
  | fuel + 1, acc, toks =>
    match toks with
    | [] => some acc
    | .normalSep :: rest =>
      (match parseRule rest with
       | some (r, rest2) => parseRulesetLoop fuel (acc ++ [r]) rest2
       | none => none)
    | .additionalSep :: rest =>
      (match parseRule rest with
       | some (r, rest2) => parseRulesetLoop fuel (acc ++ [r]) rest2
       | none => none)
    | .fallbackSep :: .comment _ :: rest2 => parseRulesetLoop fuel acc rest2
    | _ => none

/-- Grammar start symbol Ruleset; the whole token stream must be consumed. -/
def parseRuleset (toks : List Tok) : Option (List Rule) :=
  match parseRule toks with
  | some (r, rest) => parseRulesetLoop (rest.length + 1) [r] rest
  | none => none

/-! ## Expression pipeline

Modelled from the spec: the OpeningHours driver (openinghours.cpp) is absent
from the snapshot.  Per the spec, `parse(text)` never throws; it returns an
Expression owning the rule list and a single error code, first error across
stages wins: a grammar rejection stores SyntaxError (as yyerror does in the
grammar file) and leaves an empty rule list, otherwise the validator may
store one capability error. -/

/-- OpeningHours::Error, the per-Expression error code. -/
inductive Error where
  | NoError
  | SyntaxError
  | MissingLocation
  | MissingRegion
  | MissingLocalTime
  | UnsupportedFeature
  | IncompatibleMode
  deriving DecidableEq

/-- The Expression: a sequence of Rules plus the terminal error code. -/
structure OpeningHours where
  m_rules : List Rule
  m_error : Error

/-- Modelled from the spec: the validator (spec section 4.5) is absent from
the snapshot.  It folds Rule::requiredCapabilities over the rules and maps
the bits to error codes: NotImplemented and SchoolHoliday (school holidays
are recognised but deliberately not implemented) give UnsupportedFeature, a
required holiday provider that is absent gives MissingRegion, a required
location gives MissingLocation. -/
def rulesCaps (rules : List Rule) : Nat :=
  rules.foldl (fun acc r => acc ||| r.requiredCapabilities) capNone

def validate (rules : List Rule) : Error :=
  if rulesCaps rules &&& capNotImplemented ≠ 0 then .UnsupportedFeature
  else if rulesCaps rules &&& capSchoolHoliday ≠ 0 then .UnsupportedFeature
  else if rulesCaps rules &&& capPublicHoliday ≠ 0 then .MissingRegion
  else if rulesCaps rules &&& capLocation ≠ 0 then .MissingLocation
  else .NoError

/-- `parse(text) → Expression`: scan, parse, then validate; total on every
input string.  A grammar rejection stores SyntaxError first (so no later
stage can overwrite it) and yields an empty rule list. -/
def parse (text : String) : OpeningHours :=
  match parseRuleset (tokenize text) with
  | none => { m_rules := [], m_error := .SyntaxError }
  | some rules => { m_rules := rules, m_error := validate rules }

/-! ## Normalizer

Modelled from the spec: the normalizer (spec section 4.4) is absent from the
snapshot.  It serialises the AST back to canonical text: two-letter weekday
tokens, three-letter month tokens, zero-padded `HH:MM` times, `,` joins
inside a selector chain, `; ` between rules, comments re-quoted verbatim.
Because the stub grammar stores a bare month and a month-with-day-0 date
identically, a fixed date always prints its (possibly zero-padded) day; week
numbers and week intervals are zero-padded (the latter also keeps the greedy
`24/7` lexeme from re-firing inside a serialised week range). -/

def digitChar : Nat → Char
  | 0 => '0'
  | 1 => '1'
  | 2 => '2'
  | 3 => '3'
  | 4 => '4'
  | 5 => '5'
  | 6 => '6'
  | 7 => '7'
  | 8 => '8'
  | _ => '9'

def digitsOfNatAux : Nat → Nat → List Char → List Char
  | 0, _, acc => acc
  | fuel + 1, n, acc =>
    if n < 10 then digitChar n :: acc
    else digitsOfNatAux fuel (n / 10) (digitChar (n % 10) :: acc)

/-- Decimal digits of n, most significant first. -/
def digitsOfNat (n : Nat) : List Char := digitsOfNatAux (n + 1) n []

/-- Zero-padded to (at least) two digits. -/
def pad2 (n : Nat) : List Char :=
  if n < 10 then '0' :: digitsOfNat n else digitsOfNat n

def monthChars : Nat → List Char
  | 1 => ['J','a','n']
  | 2 => ['F','e','b']
  | 3 => ['M','a','r']
  | 4 => ['A','p','r']
  | 5 => ['M','a','y']
  | 6 => ['J','u','n']
  | 7 => ['J','u','l']
  | 8 => ['A','u','g']
  | 9 => ['S','e','p']
  | 10 => ['O','c','t']
  | 11 => ['N','o','v']
  | 12 => ['D','e','c']
  | _ => []

def weekdayChars : Nat → List Char
  | 0 => ['M','o']
  | 1 => ['T','u']
  | 2 => ['W','e']
  | 3 => ['T','h']
  | 4 => ['F','r']
  | 5 => ['S','a']
  | 6 => ['S','u']
  | _ => []

def eventChars : TimeEvent → List Char
  | .NoEvent => []
  | .Sunrise => ['s','u','n','r','i','s','e']
  | .Sunset => ['s','u','n','s','e','t']
  | .Dawn => ['d','a','w','n']
  | .Dusk => ['d','u','s','k']

def serializeTime (t : Time) : List Char :=
  match t.event with
  | .NoEvent => pad2 t.hour ++ ':' :: pad2 t.minute
  | e => eventChars e

def Timespan.serialize : Timespan → List Char
  | .mk b e none =>
      serializeTime b ++ (match e with
        | some t2 => '-' :: serializeTime t2
        | none => ['+'])
  | .mk b e (some n) =>
      (serializeTime b ++ (match e with
        | some t2 => '-' :: serializeTime t2
        | none => ['+'])) ++ ',' :: n.serialize

/-- The characters of a single timespan node (same shape as the two arms of
`Timespan.serialize`), named so lemmas can state it without a bare match. -/
def tsNodeChars (b : Time) (e : Option Time) : List Char :=
  serializeTime b ++ (match e with
    | some t2 => '-' :: serializeTime t2
    | none => ['+'])

/-- Day offsets print as ` +N day` / ` -N day`; a zero offset (which the
grammar also produces from `+0 day`) prints as nothing. -/
def offsetChars (o : Int) : List Char :=
  if o = 0 then []
  else if 0 < o then ' ' :: '+' :: (digitsOfNat o.toNat ++ ' ' :: ['d','a','y'])
  else ' ' :: '-' :: (digitsOfNat (-o).toNat ++ ' ' :: ['d','a','y'])

def wdNodeChars (b : Nat) (e : Option Nat) (o : Int) (h : Holiday) : List Char :=
  match h with
  | .NoHoliday =>
      weekdayChars b ++ (match e with
        | some e2 => '-' :: weekdayChars e2
        | none => [])
  | .PublicHoliday => 'P' :: 'H' :: offsetChars o
  | .SchoolHoliday => 'S' :: 'H' :: offsetChars o

/-- Chains print comma-joined; next2 is only ever set by the inert
whitespace production, so reachable ASTs never carry it. -/
def WeekdayRange.serialize : WeekdayRange → List Char
  | .mk b e _ o h none _ => wdNodeChars b e o h
  | .mk b e _ o h (some n) _ => wdNodeChars b e o h ++ ',' :: n.serialize

def weekNodeChars (b : Nat) (e : Option Nat) (i : Option Nat) : List Char :=
  pad2 b ++
  (match e with
   | some e2 => '-' :: pad2 e2
   | none => []) ++
  (match i with
   | some i2 => '/' :: pad2 i2
   | none => [])

def Week.serialize : Week → List Char
  | .mk b e i none => weekNodeChars b e i
  | .mk b e i (some n) => weekNodeChars b e i ++ ',' :: n.serialize

def Date.serialize (d : Date) : List Char :=
  (if d.year ≠ 0 then digitsOfNat d.year ++ [' '] else []) ++
  (match d.variableDate with
   | .Easter => ['e','a','s','t','e','r']
   | .FixedDate =>
     if d.month ≠ 0 then monthChars d.month ++ ' ' :: pad2 d.day
     else pad2 d.day)

def MonthdayRange.serialize : MonthdayRange → List Char
  | .mk b e none =>
      b.serialize ++ (match e with
        | some d2 => '-' :: d2.serialize
        | none => [])
  | .mk b e (some n) =>
      (b.serialize ++ (match e with
        | some d2 => '-' :: d2.serialize
        | none => [])) ++ ',' :: n.serialize

/-- One monthday node's characters (same shape as both arms of
`MonthdayRange.serialize`). -/
def mdNodeChars (b : Date) (e : Option Date) : List Char :=
  b.serialize ++ (match e with
    | some d2 => '-' :: d2.serialize
    | none => [])

def joinParts : List (List Char) → List Char
  | [] => []
  | [p] => p
  | p :: rest => p ++ ' ' :: joinParts rest

/-- The selector parts of a rule in canonical order: monthday, week,
weekday, time (the year selector stores nothing). -/
def Rule.selectorParts (r : Rule) : List (List Char) :=
  (match r.m_monthdaySelector with
   | some m => [m.serialize]
   | none => []) ++
  (match r.m_weekSelector with
   | some w => [['w','e','e','k',' '] ++ w.serialize]
   | none => []) ++
  (match r.m_weekdaySelector with
   | some w => [w.serialize]
   | none => []) ++
  (match r.m_timeSelector with
   | some t => [t.serialize]
   | none => [])

/-- Open is the default state and prints as nothing; Invalid is never
produced by the parser. -/
def stateChars : State → List Char
  | .Open => []
  | .Closed => [' ','c','l','o','s','e','d']
  | .Unknown => [' ','u','n','k','n','o','w','n']
  | .Invalid => []

/-- The optional trailing comment's characters (same shape as the comment
part of `Rule.serialize`). -/
def commentChars : Option String → List Char
  | some c => ' ' :: '"' :: (c.data ++ ['"'])
  | none => []

/-- A rule with no selectors prints as `24/7` (the grammar stores `24/7` as
the empty selector tuple). -/
def Rule.serialize (r : Rule) : List Char :=
  (match r.selectorParts with
   | [] => ['2','4','/','7']
   | ps => joinParts ps) ++
  stateChars r.m_state ++
  (match r.m_comment with
   | some c => ' ' :: '"' :: (c.data ++ ['"'])
   | none => [])

def serializeRules : List Rule → List Char
  | [] => []
  | [r] => r.serialize
  | r :: rest => r.serialize ++ ';' :: ' ' :: serializeRules rest

def OpeningHours.normalizedExpression (oh : OpeningHours) : String :=
  String.mk (serializeRules oh.m_rules)

/-- normalize(s) = the canonical text of the parsed expression. -/
def normalize (s : String) : String :=
  (parse s).normalizedExpression

/-! ## Evaluator

Modelled from the spec: the evaluator (spec section 4.6) beyond the
temporary Rule::nextInterval is absent from the snapshot.  Calendar facts
and collaborator answers (spec section 4.7) are supplied as context
functions over abstract day numbers.  An instant matches a rule iff it
matches every present selector; a selector matches iff the instant lies in
any range of its chain.  The per-day combination seeds the state with
Closed and applies matching rules in source order (the stub grammar stores
no rule kind, so every rule combines as a Normal rule: the last matching
rule's state wins); instants matched by no rule stay Closed. -/

structure EvalContext where
  isPublicHoliday : Int → Bool
  dayOfWeek : Int → Nat
  isoWeek : Int → Nat
  monthOf : Int → Nat
  dayOfMonth : Int → Nat
  yearOf : Int → Nat
  easterMonth : Nat → Nat
  easterDay : Nat → Nat
  eventTime : TimeEvent → Int → Nat

/-- Minutes-of-day denoted by a Time on a given date (sun events are
resolved through the context). -/
def timeVal (ctx : EvalContext) (date : Int) (t : Time) : Nat :=
  match t.event with
  | .NoEvent => t.hour * 60 + t.minute
  | e => ctx.eventTime e date

/-- One timespan: half-open range, wrapping into the following day when
end ≤ begin; a timespan with an unset end is open-ended; a zero-length
range is a single-point match. -/
def spanMatches (ctx : EvalContext) (t : DateTime) (b : Time) (e : Option Time) : Bool :=
  let tm := t.hour * 60 + t.minute
  let bv := timeVal ctx t.date b
  match e with
  | none => bv ≤ tm
  | some e2 =>
    let ev := timeVal ctx t.date e2
    if bv < ev then bv ≤ tm && tm < ev
    else if ev < bv then bv ≤ tm || tm < ev
    else tm = bv

def timeChainMatches (ctx : EvalContext) (t : DateTime) : Timespan → Bool
  | .mk b e none => spanMatches ctx t b e
  | .mk b e (some n) => spanMatches ctx t b e || timeChainMatches ctx t n

/-- One weekday-selector element: a weekday range (wrapping through Sunday
when end < begin), or a holiday tag shifted by its day offset; school
holidays never match (the provider is absent). -/
def wdNodeMatches (ctx : EvalContext) (date : Int) (b : Nat) (e : Option Nat)
    (o : Int) (h : Holiday) : Bool :=
  match h with
  | .NoHoliday =>
    let d := ctx.dayOfWeek date
    (match e with
     | none => d = b
     | some e2 => if b ≤ e2 then b ≤ d && d ≤ e2 else b ≤ d || d ≤ e2)
  | .PublicHoliday => ctx.isPublicHoliday (date - o)
  | .SchoolHoliday => false

def wdChainMatches (ctx : EvalContext) (date : Int) : WeekdayRange → Bool
  | .mk b e _ o h none none => wdNodeMatches ctx date b e o h
  | .mk b e _ o h (some n) none =>
      wdNodeMatches ctx date b e o h || wdChainMatches ctx date n
  | .mk b e _ o h none (some n2) =>
      wdNodeMatches ctx date b e o h || wdChainMatches ctx date n2
  | .mk b e _ o h (some n) (some n2) =>
      wdNodeMatches ctx date b e o h || wdChainMatches ctx date n ||
      wdChainMatches ctx date n2

def weekNodeMatches (ctx : EvalContext) (date : Int) (b : Nat) (e : Option Nat)
    (i : Option Nat) : Bool :=
  let wk := ctx.isoWeek date
  match e with
  | none => wk = b
  | some e2 =>
    b ≤ wk && wk ≤ e2 &&
    (match i with
     | some i2 => (wk - b) % i2 = 0
     | none => true)

def weekChainMatches (ctx : EvalContext) (date : Int) : Week → Bool
  | .mk b e i none => weekNodeMatches ctx date b e i
  | .mk b e i (some n) => weekNodeMatches ctx date b e i || weekChainMatches ctx date n

/-- Resolve a Date of the AST to a (month, day) key for the given calendar
year (Easter through the context). -/
def resolveMd (ctx : EvalContext) (y : Nat) (d : Date) : Nat × Nat :=
  match d.variableDate with
  | .Easter => (ctx.easterMonth y, ctx.easterDay y)
  | .FixedDate => (d.month, d.day)

def mdKey (p : Nat × Nat) : Nat := p.1 * 100 + p.2

/-- One monthday range: a whole month, a single day, or a day range on
(month, day) keys, wrapping across New Year when the end key precedes the
begin key; a day-0 end bound covers its whole end month; year qualifiers
restrict when set. -/
def mdNodeMatches (ctx : EvalContext) (date : Int) (b : Date) (e : Option Date) : Bool :=
  let m := ctx.monthOf date
  let dm := ctx.dayOfMonth date
  let y := ctx.yearOf date
  let k := mdKey (m, dm)
  match e with
  | none =>
    (decide (b.year = 0) || decide (y = b.year)) &&
    (if b.variableDate = .FixedDate ∧ b.day = 0 then decide (m = b.month)
     else decide (resolveMd ctx y b = (m, dm)))
  | some e2 =>
    let kb := mdKey (resolveMd ctx y b)
    let ke0 := resolveMd ctx y e2
    let ke := mdKey (if ke0.2 = 0 then (ke0.1, 99) else ke0)
    (decide (b.year = 0) || decide (y = b.year)) &&
    (if kb ≤ ke then kb ≤ k && k ≤ ke else kb ≤ k || k ≤ ke)

def mdChainMatches (ctx : EvalContext) (date : Int) : MonthdayRange → Bool
  | .mk b e none => mdNodeMatches ctx date b e
  | .mk b e (some n) => mdNodeMatches ctx date b e || mdChainMatches ctx date n

/-- An instant matches a rule iff it matches every present selector
(absence means "universe"). -/
def matchesRule (ctx : EvalContext) (r : Rule) (t : DateTime) : Bool :=
  (match r.m_monthdaySelector with
   | some m => mdChainMatches ctx t.date m
   | none => true) &&
  (match r.m_weekSelector with
   | some w => weekChainMatches ctx t.date w
   | none => true) &&
  (match r.m_weekdaySelector with
   | some w => wdChainMatches ctx t.date w
   | none => true) &&
  (match r.m_timeSelector with
   | some ts => timeChainMatches ctx t ts
   | none => true)

/-- The state of the expression at an instant: seed Closed, then let each
matching rule, in source order, overwrite the state. -/
def stateAt (ctx : EvalContext) (rules : List Rule) (t : DateTime) : State :=
  rules.foldl (fun st r => if matchesRule ctx r t then r.m_state else st) State.Closed

/-! ## Observations used to state the capability claims -/

/-- Whether some timespan of the chain uses a sun event (in begin or end,
an unset end counting as NoEvent). -/
def Timespan.usesEvent : Timespan → Bool
  | .mk b e none => b.event != .NoEvent || optEvent e != .NoEvent
  | .mk b e (some n) =>
      b.event != .NoEvent || optEvent e != .NoEvent || n.usesEvent

/-- Whether some element of the weekday-selector chain (following both next
and next2) references SH. -/
def WeekdayRange.mentionsSH : WeekdayRange → Bool
  | .mk _ _ _ _ h none none => h = Holiday.SchoolHoliday
  | .mk _ _ _ _ h (some n) none => h = Holiday.SchoolHoliday || n.mentionsSH
  | .mk _ _ _ _ h none (some n2) => h = Holiday.SchoolHoliday || n2.mentionsSH
  | .mk _ _ _ _ h (some n) (some n2) =>
      h = Holiday.SchoolHoliday || n.mentionsSH || n2.mentionsSH

/-- The capability bit a single element's holiday tag asks for. -/
def holidayCap : Holiday → Nat
  | .NoHoliday => capNone
  | .PublicHoliday => capPublicHoliday
  | .SchoolHoliday => capSchoolHoliday

/-- The holiday tags of the elements the capability fold actually visits: a
NoHoliday element recurses into next and next2, a holiday element ends the
traversal (its tail is never visited). -/
def WeekdayRange.visited : WeekdayRange → List Holiday
  | .mk _ _ _ _ .NoHoliday none none => [.NoHoliday]
  | .mk _ _ _ _ .NoHoliday (some n) none => .NoHoliday :: n.visited
  | .mk _ _ _ _ .NoHoliday none (some n2) => .NoHoliday :: n2.visited
  | .mk _ _ _ _ .NoHoliday (some n) (some n2) =>
      .NoHoliday :: (n.visited ++ n2.visited)
  | .mk _ _ _ _ h _ _ => [h]

/-! ## Canonical-reparse infrastructure

Token-level mirrors of the serializer, well-formedness predicates
characterising the parser's reachable ASTs (selector chains are bounded
because the grammar's append actions overwrite the head's next pointer),
and the boundary predicates under which one serialised construct re-lexes
and re-parses in isolation. -/

/-- tokenize, phrased over character lists. -/
def tokChars (cs : List Char) : List Tok := tokenizeAux (cs.length + 1) cs

/-- The token a well-formed Time re-lexes to. -/
def timeTok (t : Time) : Tok :=
  match t.event with
  | .NoEvent => .thm t.hour t.minute
  | e => .ev e

def tsNodeToks (b : Time) (e : Option Time) : List Tok :=
  timeTok b :: (match e with
    | some t2 => [.minus, timeTok t2]
    | none => [.plus])

def Timespan.toks : Timespan → List Tok
  | .mk b e none => tsNodeToks b e
  | .mk b e (some n) => tsNodeToks b e ++ .comma :: n.toks

def offsetToks (o : Int) : List Tok :=
  if o = 0 then []
  else if 0 < o then [.plus, .num o.toNat, .kwDay]
  else [.minus, .num (-o).toNat, .kwDay]

def wdNodeToks (b : Nat) (e : Option Nat) (o : Int) (h : Holiday) : List Tok :=
  match h with
  | .NoHoliday =>
      .weekday b :: (match e with
        | some e2 => [.minus, .weekday e2]
        | none => [])
  | .PublicHoliday => .ph :: offsetToks o
  | .SchoolHoliday => .sh :: offsetToks o

def WeekdayRange.toks : WeekdayRange → List Tok
  | .mk b e _ o h none _ => wdNodeToks b e o h
  | .mk b e _ o h (some n) _ => wdNodeToks b e o h ++ .comma :: n.toks

def weekNodeToks (b : Nat) (e : Option Nat) (i : Option Nat) : List Tok :=
  .num b :: ((match e with
    | some e2 => [.minus, .num e2]
    | none => []) ++
  (match i with
   | some i2 => [.slash, .num i2]
   | none => []))

def Week.toks : Week → List Tok
  | .mk b e i none => weekNodeToks b e i
  | .mk b e i (some n) => weekNodeToks b e i ++ .comma :: n.toks

def Date.toks (d : Date) : List Tok :=
  (if d.year ≠ 0 then [.num d.year] else []) ++
  (match d.variableDate with
   | .Easter => [.easter]
   | .FixedDate =>
     if d.month ≠ 0 then [.month d.month, .num d.day]
     else [.num d.day])

def MonthdayRange.toks : MonthdayRange → List Tok
  | .mk b e none =>
      b.toks ++ (match e with
        | some d2 => .minus :: d2.toks
        | none => [])
  | .mk b e (some n) =>
      (b.toks ++ (match e with
        | some d2 => .minus :: d2.toks
        | none => [])) ++ .comma :: n.toks

/-- One monthday node's tokens (same shape as both arms of
`MonthdayRange.toks`). -/
def mdNodeToks (b : Date) (e : Option Date) : List Tok :=
  b.toks ++ (match e with
    | some d2 => .minus :: d2.toks
    | none => [])

/-- The optional trailing comment's token (same shape as the comment part
of `Rule.toks`). -/
def commentToks : Option String → List Tok
  | some c => [Tok.comment c.data]
  | none => []

def stateToks : State → List Tok
  | .Open => []
  | .Closed => [.state .Closed]
  | .Unknown => [.state .Unknown]
  | .Invalid => []

def Rule.selTokParts (r : Rule) : List (List Tok) :=
  (match r.m_monthdaySelector with
   | some m => [m.toks]
   | none => []) ++
  (match r.m_weekSelector with
   | some w => [.kwWeek :: w.toks]
   | none => []) ++
  (match r.m_weekdaySelector with
   | some w => [w.toks]
   | none => []) ++
  (match r.m_timeSelector with
   | some t => [t.toks]
   | none => [])

/-- The selector parts paired with their token mirrors, in the same
canonical order as `Rule.selectorParts` / `Rule.selTokParts`. -/
def Rule.selParts (r : Rule) : List (List Char × List Tok) :=
  (match r.m_monthdaySelector with
   | some m => [(m.serialize, m.toks)]
   | none => []) ++
  (match r.m_weekSelector with
   | some w => [(['w','e','e','k',' '] ++ w.serialize, .kwWeek :: w.toks)]
   | none => []) ++
  (match r.m_weekdaySelector with
   | some w => [(w.serialize, w.toks)]
   | none => []) ++
  (match r.m_timeSelector with
   | some t => [(t.serialize, t.toks)]
   | none => [])

def Rule.toks (r : Rule) : List Tok :=
  (match r.selTokParts with
   | [] => [.t247]
   | ps => ps.flatten) ++
  stateToks r.m_state ++
  (match r.m_comment with
   | some c => [.comment c.data]
   | none => [])

/-- The tokens of a rule's tail (state and comment parts). -/
def tailToks (st : State) (cm : Option String) (rest : List Tok) : List Tok :=
  stateToks st ++ (commentToks cm ++ rest)

/-- Token mirrors of the four optional selector parts. -/
def mdPartToks : Option MonthdayRange → List Tok
  | some m => m.toks
  | none => []

def wkPartToks : Option Week → List Tok
  | some w => .kwWeek :: w.toks
  | none => []

def wdPartToks : Option WeekdayRange → List Tok
  | some w => w.toks
  | none => []

def tsPartToks : Option Timespan → List Tok
  | some t => t.toks
  | none => []

/-- The end part of a monthday node's tokens. -/
def mdEndToks : Option Date → List Tok
  | some d2 => .minus :: d2.toks
  | none => []

def rulesToks : List Rule → List Tok
  | [] => []
  | [r] => r.toks
  | r :: rest => r.toks ++ .normalSep :: rulesToks rest

/-- The tokens of a ruleset's remainder after its first rule: each later
rule is preceded by a normal separator. -/
def rulesTailToks : List Rule → List Tok
  | [] => []
  | r :: rest => .normalSep :: (r.toks ++ rulesTailToks rest)

/-- A wall-clock time re-lexes as one extended hour:minute token when the
bounds of the scanner hold; a sun-event Time carries zeroed fields. -/
def TimeWF (t : Time) : Prop :=
  match t.event with
  | .NoEvent => t.hour ≤ 48 ∧ t.minute ≤ 59
  | _ => t.hour = 0 ∧ t.minute = 0

def OptTimeWF : Option Time → Prop
  | none => True
  | some t => TimeWF t

/-- Reachable time-selector chains: at most two nodes (the comma production
overwrites the head's next pointer), all times well formed. -/
def TimespanWF : Timespan → Prop
  | .mk b e none => TimeWF b ∧ OptTimeWF e
  | .mk b e (some (.mk b2 e2 none)) => TimeWF b ∧ OptTimeWF e ∧ TimeWF b2 ∧ OptTimeWF e2
  | _ => False

def WdNodeWF (b : Nat) (e : Option Nat) (m : Nat) (o : Int) (h : Holiday) : Prop :=
  match h with
  | .NoHoliday =>
      b ≤ 6 ∧ (match e with
        | some e2 => e2 ≤ 6
        | none => True) ∧ m = 0 ∧ o = 0
  | .PublicHoliday => b = 0 ∧ e = none ∧ m = 0
  | .SchoolHoliday => b = 0 ∧ e = none ∧ m = 0 ∧ o = 0

/-- Whether an element is a holiday tag (the two sub-sequences of the
weekday selector). -/
def isHol : Holiday → Bool
  | .NoHoliday => false
  | _ => true

/-- Reachable weekday-selector chains: one or two nodes of any kinds, or
three nodes where the second and third form the other sub-sequence (the
only way a three-node chain arises); next2 is never set. -/
def WdChainWF : WeekdayRange → Prop
  | .mk b e m o h none none => WdNodeWF b e m o h
  | .mk b e m o h (some (.mk b2 e2 m2 o2 h2 none none)) none =>
      WdNodeWF b e m o h ∧ WdNodeWF b2 e2 m2 o2 h2
  | .mk b e m o h (some (.mk b2 e2 m2 o2 h2 (some (.mk b3 e3 m3 o3 h3 none none)) none)) none =>
      WdNodeWF b e m o h ∧ WdNodeWF b2 e2 m2 o2 h2 ∧ WdNodeWF b3 e3 m3 o3 h3 ∧
      isHol h ≠ isHol h2 ∧ isHol h2 = isHol h3
  | _ => False

/-- A weekday sub-sequence as produced by one of the two comma loops: one
or two nodes, all of the same holiday kind k, next2 never set. -/
def WdKindChain (k : Bool) : WeekdayRange → Prop
  | .mk b e m o h none none => WdNodeWF b e m o h ∧ isHol h = k
  | .mk b e m o h (some (.mk b2 e2 m2 o2 h2 none none)) none =>
      WdNodeWF b e m o h ∧ isHol h = k ∧ WdNodeWF b2 e2 m2 o2 h2 ∧ isHol h2 = k
  | _ => False

def WeekNodeWF (e : Option Nat) (i : Option Nat) : Prop :=
  match i with
  | some _ => e.isSome
  | none => True

/-- Reachable week-selector chains: at most two nodes; an interval only
ever accompanies an end week. -/
def WeekChainWF : Week → Prop
  | .mk _ e i none => WeekNodeWF e i
  | .mk _ e i (some (.mk _ e2 i2 none)) => WeekNodeWF e i ∧ WeekNodeWF e2 i2
  | _ => False

/-- Dates at the begin of a monthday range: a month 1..12 (possibly with
day 0, the bare-month form) or easter, optionally with a year. -/
def DateBeginWF (d : Date) : Prop :=
  match d.variableDate with
  | .Easter => d.month = 0 ∧ d.day = 0
  | .FixedDate => 1 ≤ d.month ∧ d.month ≤ 12

/-- Dates at the end of a monthday range: additionally the bare day-number
form (month 0, year 0). -/
def DateEndWF (d : Date) : Prop :=
  match d.variableDate with
  | .Easter => d.month = 0 ∧ d.day = 0
  | .FixedDate => (1 ≤ d.month ∧ d.month ≤ 12) ∨ (d.month = 0 ∧ d.year = 0)

def OptDateEndWF : Option Date → Prop
  | none => True
  | some d => DateEndWF d

/-- Reachable monthday-selector chains: at most two nodes. -/
def MdChainWF : MonthdayRange → Prop
  | .mk b e none => DateBeginWF b ∧ OptDateEndWF e
  | .mk b e (some (.mk b2 e2 none)) =>
      DateBeginWF b ∧ OptDateEndWF e ∧ DateBeginWF b2 ∧ OptDateEndWF e2
  | _ => False

def CommentWF (c : String) : Prop := ∀ ch ∈ c.data, ch ≠ '"'

def OptPred {α : Type} (p : α → Prop) : Option α → Prop
  | none => True
  | some x => p x

def RuleWF (r : Rule) : Prop :=
  OptPred TimespanWF r.m_timeSelector ∧
  OptPred WdChainWF r.m_weekdaySelector ∧
  OptPred WeekChainWF r.m_weekSelector ∧
  OptPred MdChainWF r.m_monthdaySelector ∧
  r.m_state ≠ .Invalid ∧
  OptPred CommentWF r.m_comment

def RulesWF (rules : List Rule) : Prop := ∀ r ∈ rules, RuleWF r

/-- Well-formedness of a selector record (the per-field conjunction of the
chain predicates). -/
def SelsWF (s : Selectors) : Prop :=
  OptPred TimespanWF s.timeSelector ∧
  OptPred WdChainWF s.weekdaySelector ∧
  OptPred WeekChainWF s.weekSelector ∧
  OptPred MdChainWF s.monthdaySelector

/-- The optional-state step of the Rule productions (proof scaffolding;
pointwise equal to the corresponding match inside parseRule). -/
def stSplit : List Tok → Option State × List Tok
  | .state s :: rs => (some s, rs)
  | rest => (none, rest)

/-- The optional-comment step of the Rule productions (proof scaffolding;
pointwise equal to the corresponding match inside parseRule). -/
def cmSplit : List Tok → Option String × List Tok
  | .comment c :: rs => (some (String.mk c), rs)
  | rest => (none, rest)

/-- Well-formedness of scanner output tokens. -/
def TokWF : Tok → Prop
  | .thm h m => h ≤ 48 ∧ m ≤ 59
  | .weekday d => d ≤ 6
  | .month m => 1 ≤ m ∧ m ≤ 12
  | .comment s => ∀ ch ∈ s, ch ≠ '"'
  | .state s => s ≠ .Invalid
  | _ => True

def ToksWF (toks : List Tok) : Prop := ∀ t ∈ toks, TokWF t

/-! Boundary predicates: what may follow a serialised construct without
extending its re-parse. -/

def headNotComma : List Tok → Prop
  | .comma :: _ => False
  | _ => True

def timeNodeFollow : List Tok → Prop
  | .minus :: _ => False
  | .plus :: _ => False
  | _ => True

def wdNodeFollow : List Tok → Prop
  | .minus :: _ => False
  | .plus :: _ => False
  | _ => True

def weekNodeFollow : List Tok → Prop
  | .minus :: _ => False
  | .slash :: _ => False
  | _ => True

/-- What may follow a complete rule's tokens: nothing, or a rule
separator. -/
def ruleFollow : List Tok → Prop
  | [] => True
  | .normalSep :: _ => True
  | _ => False

def dateNodeFollow : List Tok → Prop
  | .minus :: _ => False
  | .plus :: _ => False
  | .month _ :: _ => False
  | .easter :: _ => False
  | .kwDay :: _ => False
  | _ => True

/-! Boundary predicates at character level. -/

def headNotP (p : Char → Bool) : List Char → Prop
  | [] => True
  | c :: _ => p c = false

def headNotAlphaP (cs : List Char) : Prop := headNotP isAlphaC cs

/-- A continuation that cannot extend any number, time or `24/7` lexeme:
its head (if any) is neither a digit nor `:` nor `/`. -/
def charFollowOK : List Char → Prop
  | [] => True
  | c :: _ => isDigitC c = false ∧ c ≠ ':' ∧ c ≠ '/'

/-- What may follow a serialised number: not a digit, not a colon, and not
the two characters completing the greedy `24/7` lexeme. -/
def numBoundary (ds cs : List Char) : Prop :=
  (∀ c' cs', cs = c' :: cs' → isDigitC c' = false ∧ c' ≠ ':') ∧
  (∀ rs, cs = '/' :: '7' :: rs → ds ≠ ['2','4'] ∨ headIsDigit rs = true)

/-! ## Theorems -/

/-! ### Character and digit basics -/

theorem isAlphaC_not_digit {c : Char} (h : isAlphaC c = true) : isDigitC c = false := by
  simp [isAlphaC] at h
  simp [isDigitC]
  omega

theorem isAlphaC_ne_space {c : Char} (h : isAlphaC c = true) : c ≠ ' ' := by
  intro hc
  subst hc
  exact absurd h (by decide)

theorem isDigitC_ne_space {c : Char} (h : isDigitC c = true) : c ≠ ' ' := by
  intro hc
  subst hc
  exact absurd h (by decide)

theorem valAux_append : ∀ (l1 l2 : List Char) (acc : Nat),
    valAux acc (l1 ++ l2) = valAux (valAux acc l1) l2
  | [], _, _ => rfl
  | c :: l, l2, acc => by
    rw [show (c :: l) ++ l2 = c :: (l ++ l2) from rfl]
    rw [show valAux acc (c :: (l ++ l2))
        = valAux (acc * 10 + (c.toNat - 48)) (l ++ l2) from rfl]
    rw [valAux_append l l2 (acc * 10 + (c.toNat - 48))]
    rfl

theorem valOf_single (c : Char) : valOf [c] = c.toNat - 48 := by
  show 0 * 10 + (c.toNat - 48) = c.toNat - 48
  omega

theorem valOf_pair (c1 c2 : Char) :
    valOf [c1, c2] = (c1.toNat - 48) * 10 + (c2.toNat - 48) := by
  show (0 * 10 + (c1.toNat - 48)) * 10 + (c2.toNat - 48) = _
  omega

theorem digitChar_toNat {n : Nat} (h : n < 10) : (digitChar n).toNat = 48 + n := by
  interval_cases n <;> decide

theorem digitChar_isDigit {n : Nat} (h : n < 10) : isDigitC (digitChar n) = true := by
  interval_cases n <;> decide

theorem digitsOfNatAux_acc : ∀ (fuel n : Nat) (acc : List Char),
    digitsOfNatAux fuel n acc = digitsOfNatAux fuel n [] ++ acc := by
  intro fuel
  induction fuel with
  | zero => intro n acc; rfl
  | succ f ih =>
    intro n acc
    by_cases h : n < 10
    · simp [digitsOfNatAux, h]
    · rw [show digitsOfNatAux (f + 1) n acc
          = digitsOfNatAux f (n / 10) (digitChar (n % 10) :: acc) by simp [digitsOfNatAux, h]]
      rw [show digitsOfNatAux (f + 1) n []
          = digitsOfNatAux f (n / 10) [digitChar (n % 10)] by simp [digitsOfNatAux, h]]
      rw [ih (n / 10) (digitChar (n % 10) :: acc), ih (n / 10) [digitChar (n % 10)]]
      simp

theorem digitsAux_fuel (n : Nat) : ∀ f, n < f → digitsOfNatAux f n [] = digitsOfNat n := by
  induction n using Nat.strong_induction_on with
  | _ n ih =>
    intro f hf
    cases f with
    | zero => omega
    | succ f' =>
      by_cases h : n < 10
      · simp [digitsOfNatAux, digitsOfNat, h]
      · have hn10 : n / 10 < n := Nat.div_lt_self (by omega) (by omega)
        rw [show digitsOfNatAux (f' + 1) n []
            = digitsOfNatAux f' (n / 10) [digitChar (n % 10)] by simp [digitsOfNatAux, h]]
        rw [digitsOfNatAux_acc, ih (n / 10) hn10 f' (by omega)]
        rw [show digitsOfNat n = digitsOfNatAux n (n / 10) [digitChar (n % 10)] by
          simp [digitsOfNat, digitsOfNatAux, h]]
        rw [digitsOfNatAux_acc, ih (n / 10) hn10 n (by omega)]

theorem digitsOfNat_lt10 {n : Nat} (h : n < 10) : digitsOfNat n = [digitChar n] := by
  simp [digitsOfNat, digitsOfNatAux, h]

theorem digitsOfNat_ge10 {n : Nat} (h : ¬ n < 10) :
    digitsOfNat n = digitsOfNat (n / 10) ++ [digitChar (n % 10)] := by
  rw [show digitsOfNat n = digitsOfNatAux n (n / 10) [digitChar (n % 10)] by
    simp [digitsOfNat, digitsOfNatAux, h]]
  rw [digitsOfNatAux_acc, digitsAux_fuel (n / 10) n (by omega)]

theorem digitsOfNat_spec (n : Nat) :
    digitsOfNat n ≠ [] ∧ (∀ c ∈ digitsOfNat n, isDigitC c = true) ∧
    valOf (digitsOfNat n) = n := by
  induction n using Nat.strong_induction_on with
  | _ n ih =>
    by_cases h : n < 10
    · rw [digitsOfNat_lt10 h]
      refine ⟨by simp, ?_, ?_⟩
      · intro c hc
        simp at hc
        subst hc
        exact digitChar_isDigit h
      · rw [valOf_single, digitChar_toNat h]
        omega
    · rw [digitsOfNat_ge10 h]
      have hn10 : n / 10 < n := Nat.div_lt_self (by omega) (by omega)
      obtain ⟨h1, h2, h3⟩ := ih (n / 10) hn10
      refine ⟨by simp, ?_, ?_⟩
      · intro c hc
        simp at hc
        rcases hc with hc | hc
        · exact h2 c hc
        · subst hc
          exact digitChar_isDigit (by omega)
      · unfold valOf
        rw [valAux_append]
        show valAux (valOf (digitsOfNat (n / 10))) [digitChar (n % 10)] = n
        rw [h3]
        show n / 10 * 10 + ((digitChar (n % 10)).toNat - 48) = n
        rw [digitChar_toNat (show n % 10 < 10 by omega)]
        omega

theorem digitsOfNat_len2 {n : Nat} (h1 : 10 ≤ n) (h2 : n < 100) :
    digitsOfNat n = [digitChar (n / 10), digitChar (n % 10)] := by
  rw [digitsOfNat_ge10 (by omega), digitsOfNat_lt10 (show n / 10 < 10 by omega)]
  rfl

theorem pad2_spec {n : Nat} (h : n < 100) :
    ∃ c1 c2, pad2 n = [c1, c2] ∧ isDigitC c1 = true ∧ isDigitC c2 = true ∧
      valOf [c1, c2] = n := by
  have h0 : ('0' : Char).toNat = 48 := by decide
  by_cases hn : n < 10
  · refine ⟨'0', digitChar n, ?_, by decide, digitChar_isDigit hn, ?_⟩
    · simp [pad2, hn, digitsOfNat_lt10 hn]
    · rw [valOf_pair, h0, digitChar_toNat hn]
      omega
  · refine ⟨digitChar (n / 10), digitChar (n % 10), ?_,
      digitChar_isDigit (by omega), digitChar_isDigit (by omega), ?_⟩
    · simp [pad2, hn, digitsOfNat_len2 (by omega) h]
    · rw [valOf_pair, digitChar_toNat (show n / 10 < 10 by omega),
        digitChar_toNat (show n % 10 < 10 by omega)]
      omega

theorem isDigitC_ne_colon {c : Char} (h : isDigitC c = true) : c ≠ ':' := by
  intro hc
  subst hc
  exact absurd h (by decide)

theorem isDigitC_not_alpha {c : Char} (h : isDigitC c = true) : isAlphaC c = false := by
  simp [isDigitC] at h
  simp [isAlphaC]
  omega

/-! ### Scanning a concatenation -/

theorem takeWhile_all_append (p : Char → Bool) :
    ∀ (m cs : List Char), (∀ x ∈ m, p x = true) → headNotP p cs →
      (m ++ cs).takeWhile p = m ∧ (m ++ cs).dropWhile p = cs
  | [], cs, _, hcs => by
    cases cs with
    | nil => exact ⟨rfl, rfl⟩
    | cons c cs' =>
      unfold headNotP at hcs
      rw [List.nil_append]
      constructor
      · rw [List.takeWhile_cons, hcs]
        simp
      · rw [List.dropWhile_cons, hcs]
        simp
  | x :: m, cs, hm, hcs => by
    have hx : p x = true := hm x (by simp)
    have ih := takeWhile_all_append p m cs (fun y hy => hm y (by simp [hy])) hcs
    constructor
    · rw [List.cons_append, List.takeWhile_cons, hx]
      simp [ih.1]
    · rw [List.cons_append, List.dropWhile_cons, hx]
      simp [ih.2]

theorem length_dropWhileC (p : Char → Bool) :
    ∀ l : List Char, (l.dropWhile p).length ≤ l.length
  | [] => Nat.le_refl _
  | c :: l => by
    rw [List.dropWhile_cons]
    by_cases hp : p c = true
    · rw [if_pos hp]
      have := length_dropWhileC p l
      simp
      omega
    · rw [if_neg hp]

theorem numToken_shrink (ds rest : List Char) :
    (numToken ds rest).2.length ≤ rest.length := by
  unfold numToken
  split
  · simp [List.length_drop]
  · split
    · split
      · simp
        omega
      · simp
    · simp

theorem commentToken_shrink (cs : List Char) :
    (commentToken cs).2.length ≤ cs.length := by
  have h := length_dropWhileC (fun x => x != '"') cs
  unfold commentToken
  split
  · next rs heq =>
      rw [heq, List.length_cons] at h
      show rs.length ≤ cs.length
      omega
  · show ([] : List Char).length ≤ cs.length
    simp

theorem nextToken_shrink (c : Char) (cs : List Char) :
    (nextToken c cs).2.length ≤ cs.length := by
  have hdw : (cs.dropWhile isDigitC).length ≤ cs.length := length_dropWhileC _ cs
  have hdw2 : (cs.dropWhile isAlphaC).length ≤ cs.length := length_dropWhileC _ cs
  have h1 := numToken_shrink (c :: cs.takeWhile isDigitC) (cs.dropWhile isDigitC)
  have h2 := commentToken_shrink cs
  unfold nextToken
  by_cases hd : isDigitC c = true
  · rw [if_pos hd]
    omega
  · rw [if_neg hd]
    by_cases ha : isAlphaC c = true
    · rw [if_pos ha]
      exact hdw2
    · rw [if_neg ha]
      by_cases hq : c = '"'
      · rw [if_pos hq]
        omega
      · rw [if_neg hq]
        by_cases hcm : c = ','
        · rw [if_pos hcm]
          split
          · next rs => exact Nat.le_succ rs.length
          · exact Nat.le_refl _
        · rw [if_neg hcm]
          by_cases hsc : c = ';'
          · rw [if_pos hsc]
          · rw [if_neg hsc]
            by_cases hp : c = '|'
            · rw [if_pos hp]
              split
              · next rs => exact Nat.le_succ rs.length
              · exact Nat.le_refl _
            · rw [if_neg hp]
              by_cases h3 : c = '-'
              · rw [if_pos h3]
              · rw [if_neg h3]
                by_cases h4 : c = '+'
                · rw [if_pos h4]
                · rw [if_neg h4]
                  by_cases h5 : c = '/'
                  · rw [if_pos h5]
                  · rw [if_neg h5]
                    by_cases h6 : c = ':'
                    · rw [if_pos h6]
                    · rw [if_neg h6]
                      by_cases h7 : c = '['
                      · rw [if_pos h7]
                      · rw [if_neg h7]
                        by_cases h8 : c = ']'
                        · rw [if_pos h8]
                        · rw [if_neg h8]
                          by_cases h9 : c = '('
                          · rw [if_pos h9]
                          · rw [if_neg h9]
                            by_cases h10 : c = ')'
                            · rw [if_pos h10]
                            · rw [if_neg h10]

theorem tokenizeAux_fuel_aux : ∀ (n : Nat) (cs : List Char) (f : Nat),
    cs.length ≤ n → cs.length < f → tokenizeAux f cs = tokChars cs := by
  intro n
  induction n with
  | zero =>
    intro cs f h1 _
    have : cs = [] := by
      cases cs with
      | nil => rfl
      | cons c cs' => simp at h1
    subst this
    cases f <;> rfl
  | succ n ih =>
    intro cs f h1 h2
    cases cs with
    | nil => cases f <;> rfl
    | cons c cs' =>
      cases f with
      | zero => omega
      | succ f' =>
        simp at h1 h2
        by_cases hc : c = ' '
        · subst hc
          rw [show tokenizeAux (f' + 1) (' ' :: cs') = tokenizeAux f' cs' by
            simp [tokenizeAux]]
          rw [show tokChars (' ' :: cs') = tokenizeAux (cs'.length + 1) cs' by
            simp [tokChars, tokenizeAux]]
          rw [ih cs' f' (by omega) (by omega)]
          rfl
        · have hstep : ∀ g, tokenizeAux (g + 1) (c :: cs')
              = (nextToken c cs').1 :: tokenizeAux g (nextToken c cs').2 := by
            intro g
            simp [tokenizeAux, hc]
          have hlen := nextToken_shrink c cs'
          rw [hstep f']
          rw [show tokChars (c :: cs')
              = (nextToken c cs').1 :: tokenizeAux (cs'.length + 1) (nextToken c cs').2 by
            simp [tokChars]
            exact hstep (cs'.length + 1)]
          rw [ih _ f' (by omega) (by omega), ih _ (cs'.length + 1) (by omega) (by omega)]

theorem tokChars_space (cs : List Char) : tokChars (' ' :: cs) = tokChars cs := by
  rw [show tokChars (' ' :: cs) = tokenizeAux (cs.length + 1) cs by
    simp [tokChars, tokenizeAux]]
  rfl

theorem tokChars_step {c : Char} (cs : List Char) (hc : c ≠ ' ') :
    tokChars (c :: cs) = (nextToken c cs).1 :: tokChars (nextToken c cs).2 := by
  rw [show tokChars (c :: cs)
      = (nextToken c cs).1 :: tokenizeAux (cs.length + 1) (nextToken c cs).2 by
    simp [tokChars, tokenizeAux, hc]]
  rw [tokenizeAux_fuel_aux (cs.length) _ _ (nextToken_shrink c cs)
    (by have := nextToken_shrink c cs; omega)]

/-! ### Re-lexing serialised atoms -/

theorem t247Cond_false (ds cs : List Char)
    (hb : ∀ rs, cs = '/' :: '7' :: rs → ds ≠ ['2','4'] ∨ headIsDigit rs = true) :
    t247Cond ds cs = false := by
  unfold t247Cond
  by_cases hds : ds = ['2','4']
  · subst hds
    rw [show decide ((['2','4'] : List Char) = ['2','4']) = true from by decide,
      Bool.true_and]
    split
    · next rs =>
      rcases hb rs rfl with h | h
      · exact absurd rfl h
      · simp [h]
    · rfl
  · simp [hds]

theorem tokChars_word (w cs : List Char) (hne : w ≠ [])
    (hall : ∀ x ∈ w, isAlphaC x = true) (hcs : headNotP isAlphaC cs) :
    tokChars (w ++ cs) = wordTok w :: tokChars cs := by
  cases w with
  | nil => exact absurd rfl hne
  | cons c w' =>
    have hx : isAlphaC c = true := hall c (by simp)
    have hw := takeWhile_all_append isAlphaC w' cs (fun y hy => hall y (by simp [hy])) hcs
    rw [List.cons_append, tokChars_step _ (isAlphaC_ne_space hx)]
    have hnt : nextToken c (w' ++ cs) = (wordTok (c :: w'), cs) := by
      unfold nextToken
      rw [if_neg (show ¬ isDigitC c = true by simp [isAlphaC_not_digit hx])]
      rw [if_pos hx, hw.1, hw.2]
    rw [hnt]

theorem tokChars_num (ds cs : List Char) (hne : ds ≠ [])
    (hall : ∀ x ∈ ds, isDigitC x = true) (hb : numBoundary ds cs) :
    tokChars (ds ++ cs) = .num (valOf ds) :: tokChars cs := by
  cases ds with
  | nil => exact absurd rfl hne
  | cons c ds' =>
    have hx : isDigitC c = true := hall c (by simp)
    have hw := takeWhile_all_append isDigitC ds' cs (fun y hy => hall y (by simp [hy]))
      (by
        cases cs with
        | nil => trivial
        | cons c' cs' => exact (hb.1 c' cs' rfl).1)
    rw [List.cons_append, tokChars_step _ (isDigitC_ne_space hx)]
    have hnt : nextToken c (ds' ++ cs) = (.num (valOf (c :: ds')), cs) := by
      unfold nextToken
      rw [if_pos hx, hw.1, hw.2]
      unfold numToken
      rw [t247Cond_false (c :: ds') cs hb.2, if_neg (by simp)]
      split
      · next h1 h2 h3 =>
        exact absurd rfl ((hb.1 ':' _ rfl).2)
      · rfl
    rw [hnt]

theorem tokChars_time (h m : Nat) (cs : List Char) (hh : h ≤ 48) (hm : m ≤ 59) :
    tokChars ((pad2 h ++ ':' :: pad2 m) ++ cs) = .thm h m :: tokChars cs := by
  obtain ⟨c1, c2, hph, hd1, hd2, hv⟩ := pad2_spec (show h < 100 by omega)
  obtain ⟨d1, d2, hpm, hd3, hd4, hv2⟩ := pad2_spec (show m < 100 by omega)
  rw [hph, hpm]
  rw [show ([c1, c2] ++ ':' :: [d1, d2]) ++ cs = c1 :: c2 :: ':' :: d1 :: d2 :: cs from by
    simp]
  rw [tokChars_step _ (isDigitC_ne_space hd1)]
  have htw : (c2 :: ':' :: d1 :: d2 :: cs).takeWhile isDigitC = [c2] := by
    simp [List.takeWhile_cons, hd2, show isDigitC ':' = false from by decide]
  have hdw : (c2 :: ':' :: d1 :: d2 :: cs).dropWhile isDigitC = ':' :: d1 :: d2 :: cs := by
    simp [List.dropWhile_cons, hd2, show isDigitC ':' = false from by decide]
  have hnt : nextToken c1 (c2 :: ':' :: d1 :: d2 :: cs) = (.thm h m, cs) := by
    unfold nextToken
    rw [if_pos hd1, htw, hdw]
    unfold numToken
    rw [t247Cond_false [c1, c2] _ (by intro rs hx; simp at hx), if_neg (by simp)]
    show (if isDigitC d1 = true ∧ isDigitC d2 = true ∧ ([c1, c2] : List Char).length ≤ 2 ∧
        valOf [c1, c2] ≤ 48 ∧ valOf [d1, d2] ≤ 59 then
        ((Tok.thm (valOf [c1, c2]) (valOf [d1, d2]), cs) : Tok × List Char)
      else (Tok.num (valOf [c1, c2]), ':' :: d1 :: d2 :: cs)) = (Tok.thm h m, cs)
    rw [if_pos ⟨hd3, hd4, by simp, by rw [hv]; exact hh, by rw [hv2]; exact hm⟩]
    rw [hv, hv2]
  rw [hnt]

theorem tokChars_minus (cs : List Char) : tokChars ('-' :: cs) = .minus :: tokChars cs := by
  rw [tokChars_step cs (by decide)]
  rfl

theorem tokChars_plus (cs : List Char) : tokChars ('+' :: cs) = .plus :: tokChars cs := by
  rw [tokChars_step cs (by decide)]
  rfl

theorem tokChars_slash (cs : List Char) : tokChars ('/' :: cs) = .slash :: tokChars cs := by
  rw [tokChars_step cs (by decide)]
  rfl

theorem tokChars_semi (cs : List Char) : tokChars (';' :: cs) = .normalSep :: tokChars cs := by
  rw [tokChars_step cs (by decide)]
  rfl

theorem tokChars_comma (c : Char) (cs : List Char) (hc : c ≠ ' ') :
    tokChars (',' :: c :: cs) = .comma :: tokChars (c :: cs) := by
  rw [tokChars_step _ (by decide)]
  have hnt : nextToken ',' (c :: cs) = (.comma, c :: cs) := by
    unfold nextToken
    rw [if_neg (by decide), if_neg (by decide), if_neg (by decide), if_pos rfl]
    split
    · next rs heq =>
      injection heq with h1 _
      exact absurd h1 hc
    · rfl
  rw [hnt]

theorem tokChars_quote (content cs : List Char) (hq : ∀ x ∈ content, x ≠ '"') :
    tokChars ('"' :: (content ++ '"' :: cs)) = .comment content :: tokChars cs := by
  rw [tokChars_step _ (by decide)]
  have hw := takeWhile_all_append (fun x => x != '"') content ('"' :: cs)
    (fun y hy => by simp [hq y hy]) (by simp [headNotP])
  have hnt : nextToken '"' (content ++ '"' :: cs) = (.comment content, cs) := by
    unfold nextToken
    rw [if_neg (by decide), if_neg (by decide), if_pos rfl]
    unfold commentToken
    rw [hw.1, hw.2]
    rfl
  rw [hnt]

/-! ### Re-lexing serialised constructs -/

theorem pad2_all (n : Nat) :
    pad2 n ≠ [] ∧ (∀ c ∈ pad2 n, isDigitC c = true) ∧ valOf (pad2 n) = n := by
  obtain ⟨h1, h2, h3⟩ := digitsOfNat_spec n
  unfold pad2
  by_cases hn : n < 10
  · rw [if_pos hn]
    refine ⟨by simp, ?_, ?_⟩
    · intro c hc
      simp at hc
      rcases hc with hc | hc
      · subst hc
        decide
      · exact h2 c hc
    · show valAux 0 ('0' :: digitsOfNat n) = n
      rw [show valAux 0 ('0' :: digitsOfNat n)
          = valAux (0 * 10 + ('0'.toNat - 48)) (digitsOfNat n) from rfl]
      rw [show (0 * 10 + ('0'.toNat - 48)) = 0 from by decide]
      exact h3
  · rw [if_neg hn]
    exact ⟨h1, h2, h3⟩

theorem tokChars_pad2 (n : Nat) (cs : List Char) (hb : numBoundary (pad2 n) cs) :
    tokChars (pad2 n ++ cs) = .num n :: tokChars cs := by
  obtain ⟨h1, h2, h3⟩ := pad2_all n
  rw [tokChars_num (pad2 n) cs h1 h2 hb, h3]

theorem tokChars_digits (n : Nat) (cs : List Char) (hb : numBoundary (digitsOfNat n) cs) :
    tokChars (digitsOfNat n ++ cs) = .num n :: tokChars cs := by
  obtain ⟨h1, h2, h3⟩ := digitsOfNat_spec n
  rw [tokChars_num (digitsOfNat n) cs h1 h2 hb, h3]

/-- A boundary that suffices after any serialised number in this
development: the next character is none, a space, a minus, a slash followed
by a zero-padded number, a quote, a comma or a semicolon. -/
theorem numBoundary_of_head (ds : List Char) (cs : List Char)
    (h : cs = [] ∨ ∃ c' cs', cs = c' :: cs' ∧ isDigitC c' = false ∧ c' ≠ ':' ∧
      (c' = '/' → ∀ rs, cs' ≠ '7' :: rs)) :
    numBoundary ds cs := by
  constructor
  · intro c' cs' hcs
    rcases h with h | ⟨c2, cs2, hc2, hd, hcl, _⟩
    · rw [h] at hcs
      cases hcs
    · rw [hc2] at hcs
      injection hcs with e1 e2
      subst e1
      exact ⟨hd, hcl⟩
  · intro rs hcs
    rcases h with h | ⟨c2, cs2, hc2, hd, hcl, hsl⟩
    · rw [h] at hcs
      cases hcs
    · rw [hc2] at hcs
      injection hcs with e1 e2
      subst e1
      exact absurd e2 (hsl rfl rs)

theorem eventChars_all (e : TimeEvent) (he : e ≠ .NoEvent) :
    eventChars e ≠ [] ∧ (∀ x ∈ eventChars e, isAlphaC x = true) ∧
      wordTok (eventChars e) = .ev e := by
  cases e with
  | NoEvent => exact absurd rfl he
  | Sunrise => exact ⟨by decide, by decide, by decide⟩
  | Sunset => exact ⟨by decide, by decide, by decide⟩
  | Dawn => exact ⟨by decide, by decide, by decide⟩
  | Dusk => exact ⟨by decide, by decide, by decide⟩

theorem tokChars_serializeTime (t : Time) (wf : TimeWF t) (cs : List Char)
    (hcs : headNotP isAlphaC cs) :
    tokChars (serializeTime t ++ cs) = timeTok t :: tokChars cs := by
  obtain ⟨ev, h, m⟩ := t
  cases ev with
  | NoEvent =>
    obtain ⟨hh, hm⟩ := wf
    show tokChars ((pad2 h ++ ':' :: pad2 m) ++ cs) = Tok.thm h m :: tokChars cs
    exact tokChars_time h m cs hh hm
  | Sunrise =>
    obtain ⟨h1, h2, h3⟩ := eventChars_all .Sunrise (by decide)
    show tokChars (eventChars .Sunrise ++ cs) = Tok.ev .Sunrise :: tokChars cs
    rw [tokChars_word _ cs h1 h2 hcs, h3]
  | Sunset =>
    obtain ⟨h1, h2, h3⟩ := eventChars_all .Sunset (by decide)
    show tokChars (eventChars .Sunset ++ cs) = Tok.ev .Sunset :: tokChars cs
    rw [tokChars_word _ cs h1 h2 hcs, h3]
  | Dawn =>
    obtain ⟨h1, h2, h3⟩ := eventChars_all .Dawn (by decide)
    show tokChars (eventChars .Dawn ++ cs) = Tok.ev .Dawn :: tokChars cs
    rw [tokChars_word _ cs h1 h2 hcs, h3]
  | Dusk =>
    obtain ⟨h1, h2, h3⟩ := eventChars_all .Dusk (by decide)
    show tokChars (eventChars .Dusk ++ cs) = Tok.ev .Dusk :: tokChars cs
    rw [tokChars_word _ cs h1 h2 hcs, h3]

theorem serializeTime_head (t : Time) (wf : TimeWF t) (cs : List Char) :
    ∃ c rest, serializeTime t ++ cs = c :: rest ∧ c ≠ ' ' := by
  obtain ⟨ev, h, m⟩ := t
  cases ev with
  | NoEvent =>
    have hh : h ≤ 48 := wf.1
    obtain ⟨c1, c2, hp, hd1, _, _⟩ := pad2_spec (show h < 100 by omega)
    refine ⟨c1, c2 :: ':' :: pad2 m ++ cs, ?_, isDigitC_ne_space hd1⟩
    show (pad2 h ++ ':' :: pad2 m) ++ cs = _
    rw [hp]
    simp
  | Sunrise => exact ⟨'s', _, rfl, by decide⟩
  | Sunset => exact ⟨'s', _, rfl, by decide⟩
  | Dawn => exact ⟨'d', _, rfl, by decide⟩
  | Dusk => exact ⟨'d', _, rfl, by decide⟩

theorem tsNodeChars_none (b : Time) :
    tsNodeChars b none = serializeTime b ++ ['+'] := rfl

theorem tsNodeChars_some (b t2 : Time) :
    tsNodeChars b (some t2) = serializeTime b ++ '-' :: serializeTime t2 := rfl

theorem serialize_ts_nil (b : Time) (e : Option Time) :
    Timespan.serialize (.mk b e none) = tsNodeChars b e := by
  cases e <;> rfl

theorem serialize_ts_cons (b : Time) (e : Option Time) (n : Timespan) :
    Timespan.serialize (.mk b e (some n)) = tsNodeChars b e ++ ',' :: n.serialize := by
  cases e <;> rfl

theorem toks_ts_nil (b : Time) (e : Option Time) :
    Timespan.toks (.mk b e none) = tsNodeToks b e := rfl

theorem toks_ts_cons (b : Time) (e : Option Time) (n : Timespan) :
    Timespan.toks (.mk b e (some n)) = tsNodeToks b e ++ .comma :: n.toks := rfl

theorem tokChars_tsNode (b : Time) (e : Option Time) (wfb : TimeWF b)
    (wfe : OptTimeWF e) (cs : List Char) (hcs : headNotP isAlphaC cs) :
    tokChars (tsNodeChars b e ++ cs) = tsNodeToks b e ++ tokChars cs := by
  cases e with
  | none =>
    rw [tsNodeChars_none, List.append_assoc]
    rw [show ((['+'] : List Char) ++ cs) = '+' :: cs from rfl]
    rw [tokChars_serializeTime b wfb ('+' :: cs) rfl]
    rw [tokChars_plus]
    rfl
  | some t2 =>
    rw [tsNodeChars_some, List.append_assoc]
    rw [show (('-' :: serializeTime t2) ++ cs) = '-' :: (serializeTime t2 ++ cs) from rfl]
    rw [tokChars_serializeTime b wfb ('-' :: (serializeTime t2 ++ cs)) rfl]
    rw [tokChars_minus]
    rw [tokChars_serializeTime t2 wfe cs hcs]
    rfl

theorem tsNodeChars_head (b : Time) (e : Option Time) (wfb : TimeWF b)
    (cs : List Char) :
    ∃ c rest, tsNodeChars b e ++ cs = c :: rest ∧ c ≠ ' ' := by
  unfold tsNodeChars
  rw [List.append_assoc]
  exact serializeTime_head b wfb _

theorem tokChars_tsChain : ∀ (ts : Timespan), TimespanWF ts → ∀ (cs : List Char),
    headNotP isAlphaC cs →
    tokChars (ts.serialize ++ cs) = ts.toks ++ tokChars cs := by
  intro ts wf cs hcs
  match ts, wf with
  | .mk b e none, wf =>
    obtain ⟨wfb, wfe⟩ := wf
    rw [serialize_ts_nil, toks_ts_nil]
    exact tokChars_tsNode b e wfb wfe cs hcs
  | .mk b e (some (.mk b2 e2 none)), wf =>
    obtain ⟨wfb, wfe, wfb2, wfe2⟩ := wf
    rw [serialize_ts_cons, toks_ts_cons, serialize_ts_nil, toks_ts_nil]
    rw [List.append_assoc]
    rw [show ((',' :: (tsNodeChars b2 e2)) ++ cs)
        = ',' :: (tsNodeChars b2 e2 ++ cs) from rfl]
    rw [tokChars_tsNode b e wfb wfe (',' :: (tsNodeChars b2 e2 ++ cs)) rfl]
    obtain ⟨c0, rest0, heq0, hc0⟩ := tsNodeChars_head b2 e2 wfb2 cs
    rw [heq0, tokChars_comma c0 rest0 hc0, ← heq0]
    rw [tokChars_tsNode b2 e2 wfb2 wfe2 cs hcs]
    simp

theorem weekdayChars_all (d : Nat) (hd : d ≤ 6) :
    weekdayChars d ≠ [] ∧ (∀ x ∈ weekdayChars d, isAlphaC x = true) ∧
      wordTok (weekdayChars d) = .weekday d := by
  interval_cases d <;> exact ⟨by decide, by decide, by decide⟩

theorem tokChars_weekday (d : Nat) (hd : d ≤ 6) (cs : List Char)
    (hcs : headNotP isAlphaC cs) :
    tokChars (weekdayChars d ++ cs) = .weekday d :: tokChars cs := by
  obtain ⟨h1, h2, h3⟩ := weekdayChars_all d hd
  rw [tokChars_word _ cs h1 h2 hcs, h3]

theorem tokChars_kwday (cs : List Char) (hcs : headNotP isAlphaC cs) :
    tokChars (['d','a','y'] ++ cs) = .kwDay :: tokChars cs := by
  rw [tokChars_word _ cs (by decide) (by decide) hcs]
  rfl

theorem tokChars_offsetChars (o : Int) (cs : List Char) (hcs : headNotP isAlphaC cs) :
    tokChars (offsetChars o ++ cs) = offsetToks o ++ tokChars cs := by
  unfold offsetChars offsetToks
  by_cases h0 : o = 0
  · rw [if_pos h0, if_pos h0]
    rfl
  · rw [if_neg h0, if_neg h0]
    by_cases hp : 0 < o
    · rw [if_pos hp, if_pos hp]
      rw [show ((' ' :: '+' :: (digitsOfNat o.toNat ++ ' ' :: ['d','a','y'])) ++ cs)
          = ' ' :: '+' :: (digitsOfNat o.toNat ++ (' ' :: ['d','a','y'] ++ cs))
          from by simp]
      rw [tokChars_space, tokChars_plus]
      rw [tokChars_digits o.toNat ([' ','d','a','y'] ++ cs) (numBoundary_of_head _ _
        (Or.inr ⟨' ', ['d','a','y'] ++ cs, rfl, by decide, by decide,
          fun hx => absurd hx (by decide)⟩))]
      rw [show (([' ','d','a','y'] ++ cs) : List Char)
          = ' ' :: (['d','a','y'] ++ cs) from rfl]
      rw [tokChars_space, tokChars_kwday cs hcs]
      rfl
    · rw [if_neg hp, if_neg hp]
      rw [show ((' ' :: '-' :: (digitsOfNat (-o).toNat ++ ' ' :: ['d','a','y'])) ++ cs)
          = ' ' :: '-' :: (digitsOfNat (-o).toNat ++ (' ' :: ['d','a','y'] ++ cs))
          from by simp]
      rw [tokChars_space, tokChars_minus]
      rw [tokChars_digits (-o).toNat ([' ','d','a','y'] ++ cs) (numBoundary_of_head _ _
        (Or.inr ⟨' ', ['d','a','y'] ++ cs, rfl, by decide, by decide,
          fun hx => absurd hx (by decide)⟩))]
      rw [show (([' ','d','a','y'] ++ cs) : List Char)
          = ' ' :: (['d','a','y'] ++ cs) from rfl]
      rw [tokChars_space, tokChars_kwday cs hcs]
      rfl

theorem offsetChars_headNotAlpha (o : Int) (cs : List Char)
    (hcs : headNotP isAlphaC cs) : headNotP isAlphaC (offsetChars o ++ cs) := by
  unfold offsetChars
  by_cases h0 : o = 0
  · rw [if_pos h0]
    exact hcs
  · rw [if_neg h0]
    by_cases hp : 0 < o
    · rw [if_pos hp]
      exact rfl
    · rw [if_neg hp]
      exact rfl

theorem wdNodeChars_nh_none (b : Nat) (o : Int) :
    wdNodeChars b none o .NoHoliday = weekdayChars b := by
  show weekdayChars b ++ [] = weekdayChars b
  exact List.append_nil _

theorem wdNodeChars_nh_some (b e2 : Nat) (o : Int) :
    wdNodeChars b (some e2) o .NoHoliday
      = weekdayChars b ++ '-' :: weekdayChars e2 := rfl

theorem tokChars_wdNode (b : Nat) (e : Option Nat) (m : Nat) (o : Int) (h : Holiday)
    (wf : WdNodeWF b e m o h) (cs : List Char) (hcs : headNotP isAlphaC cs) :
    tokChars (wdNodeChars b e o h ++ cs) = wdNodeToks b e o h ++ tokChars cs := by
  cases h with
  | NoHoliday =>
    obtain ⟨hb, he, _, _⟩ := wf
    cases e with
    | none =>
      rw [wdNodeChars_nh_none, tokChars_weekday b hb cs hcs]
      rfl
    | some e2 =>
      rw [wdNodeChars_nh_some, List.append_assoc]
      rw [show (('-' :: weekdayChars e2) ++ cs)
          = '-' :: (weekdayChars e2 ++ cs) from rfl]
      rw [tokChars_weekday b hb ('-' :: (weekdayChars e2 ++ cs)) rfl, tokChars_minus]
      rw [tokChars_weekday e2 he cs hcs]
      rfl
  | PublicHoliday =>
    rw [show wdNodeChars b e o .PublicHoliday
        = ['P','H'] ++ offsetChars o from rfl]
    rw [List.append_assoc]
    rw [tokChars_word ['P','H'] _ (by decide) (by decide)
      (offsetChars_headNotAlpha o cs hcs)]
    rw [tokChars_offsetChars o cs hcs]
    rfl
  | SchoolHoliday =>
    rw [show wdNodeChars b e o .SchoolHoliday
        = ['S','H'] ++ offsetChars o from rfl]
    rw [List.append_assoc]
    rw [tokChars_word ['S','H'] _ (by decide) (by decide)
      (offsetChars_headNotAlpha o cs hcs)]
    rw [tokChars_offsetChars o cs hcs]
    rfl

theorem wdNodeChars_head (b : Nat) (e : Option Nat) (m : Nat) (o : Int) (h : Holiday)
    (wf : WdNodeWF b e m o h) (cs : List Char) :
    ∃ c rest, wdNodeChars b e o h ++ cs = c :: rest ∧ c ≠ ' ' := by
  cases h with
  | NoHoliday =>
    have hb : b ≤ 6 := wf.1
    interval_cases b <;>
      cases e <;>
      exact ⟨_, _, rfl, by decide⟩
  | PublicHoliday => exact ⟨'P', _, rfl, by decide⟩
  | SchoolHoliday => exact ⟨'S', _, rfl, by decide⟩

theorem serialize_wd_nil (b : Nat) (e : Option Nat) (m : Nat) (o : Int) (h : Holiday)
    (n2 : Option WeekdayRange) :
    WeekdayRange.serialize (.mk b e m o h none n2) = wdNodeChars b e o h := rfl

theorem serialize_wd_cons (b : Nat) (e : Option Nat) (m : Nat) (o : Int) (h : Holiday)
    (n : WeekdayRange) (n2 : Option WeekdayRange) :
    WeekdayRange.serialize (.mk b e m o h (some n) n2)
      = wdNodeChars b e o h ++ ',' :: n.serialize := rfl

theorem toks_wd_nil (b : Nat) (e : Option Nat) (m : Nat) (o : Int) (h : Holiday)
    (n2 : Option WeekdayRange) :
    WeekdayRange.toks (.mk b e m o h none n2) = wdNodeToks b e o h := rfl

theorem toks_wd_cons (b : Nat) (e : Option Nat) (m : Nat) (o : Int) (h : Holiday)
    (n : WeekdayRange) (n2 : Option WeekdayRange) :
    WeekdayRange.toks (.mk b e m o h (some n) n2)
      = wdNodeToks b e o h ++ .comma :: n.toks := rfl

theorem tokChars_wdChain : ∀ (w : WeekdayRange), WdChainWF w → ∀ (cs : List Char),
    headNotP isAlphaC cs →
    tokChars (w.serialize ++ cs) = w.toks ++ tokChars cs := by
  intro w wf cs hcs
  match w, wf with
  | .mk b e m o h none none, wf =>
    rw [serialize_wd_nil, toks_wd_nil]
    exact tokChars_wdNode b e m o h wf cs hcs
  | .mk b e m o h (some (.mk b2 e2 m2 o2 h2 none none)) none, wf =>
    obtain ⟨wf1, wf2⟩ := wf
    rw [serialize_wd_cons, toks_wd_cons, serialize_wd_nil, toks_wd_nil]
    rw [List.append_assoc]
    rw [show ((',' :: wdNodeChars b2 e2 o2 h2) ++ cs)
        = ',' :: (wdNodeChars b2 e2 o2 h2 ++ cs) from rfl]
    rw [tokChars_wdNode b e m o h wf1 (',' :: (wdNodeChars b2 e2 o2 h2 ++ cs)) rfl]
    obtain ⟨c0, rest0, heq0, hc0⟩ := wdNodeChars_head b2 e2 m2 o2 h2 wf2 cs
    rw [heq0, tokChars_comma c0 rest0 hc0, ← heq0]
    rw [tokChars_wdNode b2 e2 m2 o2 h2 wf2 cs hcs]
    simp
  | .mk b e m o h (some (.mk b2 e2 m2 o2 h2
      (some (.mk b3 e3 m3 o3 h3 none none)) none)) none, wf =>
    obtain ⟨wf1, wf2, wf3, _, _⟩ := wf
    rw [serialize_wd_cons, toks_wd_cons, serialize_wd_cons, toks_wd_cons,
      serialize_wd_nil, toks_wd_nil]
    rw [List.append_assoc]
    rw [show ((',' :: (wdNodeChars b2 e2 o2 h2 ++ ',' :: wdNodeChars b3 e3 o3 h3)) ++ cs)
        = ',' :: ((wdNodeChars b2 e2 o2 h2 ++ ',' :: wdNodeChars b3 e3 o3 h3) ++ cs)
        from rfl]
    rw [show ((wdNodeChars b2 e2 o2 h2 ++ ',' :: wdNodeChars b3 e3 o3 h3) ++ cs)
        = wdNodeChars b2 e2 o2 h2 ++ (',' :: (wdNodeChars b3 e3 o3 h3 ++ cs))
        from by simp]
    rw [tokChars_wdNode b e m o h wf1
      (',' :: (wdNodeChars b2 e2 o2 h2 ++ (',' :: (wdNodeChars b3 e3 o3 h3 ++ cs)))) rfl]
    obtain ⟨c0, rest0, heq0, hc0⟩ := wdNodeChars_head b2 e2 m2 o2 h2 wf2
      (',' :: (wdNodeChars b3 e3 o3 h3 ++ cs))
    rw [heq0, tokChars_comma c0 rest0 hc0, ← heq0]
    rw [tokChars_wdNode b2 e2 m2 o2 h2 wf2
      (',' :: (wdNodeChars b3 e3 o3 h3 ++ cs)) rfl]
    obtain ⟨c1, rest1, heq1, hc1⟩ := wdNodeChars_head b3 e3 m3 o3 h3 wf3 cs
    rw [heq1, tokChars_comma c1 rest1 hc1, ← heq1]
    rw [tokChars_wdNode b3 e3 m3 o3 h3 wf3 cs hcs]
    simp

theorem numBoundary_of_follow (ds cs : List Char) (h : charFollowOK cs) :
    numBoundary ds cs := by
  cases cs with
  | nil => exact numBoundary_of_head ds [] (Or.inl rfl)
  | cons c cs' =>
    exact numBoundary_of_head ds (c :: cs')
      (Or.inr ⟨c, cs', rfl, h.1, h.2.1, fun hx => absurd hx h.2.2⟩)

theorem headIsDigit_of_follow (cs : List Char) (h : charFollowOK cs) :
    headIsDigit cs = false := by
  cases cs with
  | nil => rfl
  | cons c cs' => exact h.1

theorem pad2_seven (n : Nat) (cs0 rs : List Char)
    (h : pad2 n ++ cs0 = '7' :: rs) : headIsDigit rs = true := by
  unfold pad2 at h
  by_cases hn : n < 10
  · rw [if_pos hn] at h
    injection h with h1 _
    exact absurd h1 (by decide)
  · rw [if_neg hn, digitsOfNat_ge10 hn] at h
    obtain ⟨hne, hall, _⟩ := digitsOfNat_spec (n / 10)
    cases hd : digitsOfNat (n / 10) with
    | nil => exact absurd hd hne
    | cons d t =>
      rw [hd, List.cons_append, List.cons_append] at h
      injection h with h1 h2
      cases t with
      | nil =>
        rw [← h2]
        show isDigitC (digitChar (n % 10)) = true
        exact digitChar_isDigit (by omega)
      | cons c t' =>
        rw [← h2]
        show isDigitC c = true
        exact hall c (by rw [hd]; simp)

theorem numBoundary_slash_pad2 (ds : List Char) (n : Nat) (cs0 : List Char) :
    numBoundary ds ('/' :: (pad2 n ++ cs0)) := by
  constructor
  · intro c' cs' h
    injection h with h1 _
    subst h1
    exact ⟨by decide, by decide⟩
  · intro rs h
    injection h with _ h2
    exact Or.inr (pad2_seven n cs0 rs h2)

theorem digits_head (n : Nat) (cs : List Char) :
    ∃ c rest, digitsOfNat n ++ cs = c :: rest ∧ isDigitC c = true := by
  obtain ⟨hne, hall, _⟩ := digitsOfNat_spec n
  cases hd : digitsOfNat n with
  | nil => exact absurd hd hne
  | cons d t =>
    exact ⟨d, t ++ cs, by rw [List.cons_append], hall d (by rw [hd]; simp)⟩

theorem pad2_head (n : Nat) (cs : List Char) :
    ∃ c rest, pad2 n ++ cs = c :: rest ∧ isDigitC c = true := by
  unfold pad2
  by_cases hn : n < 10
  · rw [if_pos hn]
    exact ⟨'0', _, rfl, by decide⟩
  · rw [if_neg hn]
    exact digits_head n cs

/-! Week selector re-lexing. -/

theorem weekNodeChars_nn (b : Nat) : weekNodeChars b none none = pad2 b := by
  show (pad2 b ++ ([] : List Char)) ++ ([] : List Char) = pad2 b
  simp

theorem weekNodeChars_sn (b e2 : Nat) :
    weekNodeChars b (some e2) none = pad2 b ++ '-' :: pad2 e2 := by
  show (pad2 b ++ ('-' :: pad2 e2)) ++ ([] : List Char) = _
  simp

theorem weekNodeChars_ss (b e2 i2 : Nat) :
    weekNodeChars b (some e2) (some i2)
      = pad2 b ++ ('-' :: (pad2 e2 ++ '/' :: pad2 i2)) := by
  show (pad2 b ++ ('-' :: pad2 e2)) ++ ('/' :: pad2 i2) = _
  simp

theorem tokChars_weekNode (b : Nat) (e i : Option Nat) (wf : WeekNodeWF e i)
    (cs : List Char) (hf : charFollowOK cs) :
    tokChars (weekNodeChars b e i ++ cs) = weekNodeToks b e i ++ tokChars cs := by
  cases i with
  | none =>
    cases e with
    | none =>
      rw [weekNodeChars_nn, tokChars_pad2 b cs (numBoundary_of_follow _ _ hf)]
      rfl
    | some e2 =>
      rw [weekNodeChars_sn, List.append_assoc]
      rw [show (('-' :: pad2 e2) ++ cs) = '-' :: (pad2 e2 ++ cs) from rfl]
      rw [tokChars_pad2 b ('-' :: (pad2 e2 ++ cs))
        (numBoundary_of_follow _ _ ⟨by decide, by decide, by decide⟩)]
      rw [tokChars_minus, tokChars_pad2 e2 cs (numBoundary_of_follow _ _ hf)]
      rfl
  | some i2 =>
    cases e with
    | none => simp [WeekNodeWF] at wf
    | some e2 =>
      rw [weekNodeChars_ss, List.append_assoc]
      rw [show (('-' :: (pad2 e2 ++ '/' :: pad2 i2)) ++ cs)
          = '-' :: (pad2 e2 ++ ('/' :: (pad2 i2 ++ cs))) from by simp]
      rw [tokChars_pad2 b ('-' :: (pad2 e2 ++ ('/' :: (pad2 i2 ++ cs))))
        (numBoundary_of_follow _ _ ⟨by decide, by decide, by decide⟩)]
      rw [tokChars_minus]
      rw [tokChars_pad2 e2 ('/' :: (pad2 i2 ++ cs)) (numBoundary_slash_pad2 _ i2 cs)]
      rw [tokChars_slash, tokChars_pad2 i2 cs (numBoundary_of_follow _ _ hf)]
      rfl

theorem weekNodeChars_head (b : Nat) (e i : Option Nat) (wf : WeekNodeWF e i)
    (cs : List Char) :
    ∃ c rest, weekNodeChars b e i ++ cs = c :: rest ∧ c ≠ ' ' := by
  cases i with
  | none =>
    cases e with
    | none =>
      rw [weekNodeChars_nn]
      obtain ⟨c, r, h, hd⟩ := pad2_head b cs
      exact ⟨c, r, h, isDigitC_ne_space hd⟩
    | some e2 =>
      rw [weekNodeChars_sn, List.append_assoc]
      obtain ⟨c, r, h, hd⟩ := pad2_head b _
      exact ⟨c, r, h, isDigitC_ne_space hd⟩
  | some i2 =>
    cases e with
    | none => simp [WeekNodeWF] at wf
    | some e2 =>
      rw [weekNodeChars_ss, List.append_assoc]
      obtain ⟨c, r, h, hd⟩ := pad2_head b _
      exact ⟨c, r, h, isDigitC_ne_space hd⟩

theorem serialize_week_nil (b : Nat) (e i : Option Nat) :
    Week.serialize (.mk b e i none) = weekNodeChars b e i := rfl

theorem serialize_week_cons (b : Nat) (e i : Option Nat) (n : Week) :
    Week.serialize (.mk b e i (some n))
      = weekNodeChars b e i ++ ',' :: n.serialize := rfl

theorem toks_week_nil (b : Nat) (e i : Option Nat) :
    Week.toks (.mk b e i none) = weekNodeToks b e i := rfl

theorem toks_week_cons (b : Nat) (e i : Option Nat) (n : Week) :
    Week.toks (.mk b e i (some n)) = weekNodeToks b e i ++ .comma :: n.toks := rfl

theorem tokChars_weekChain : ∀ (w : Week), WeekChainWF w → ∀ (cs : List Char),
    charFollowOK cs →
    tokChars (w.serialize ++ cs) = w.toks ++ tokChars cs := by
  intro w wf cs hf
  match w, wf with
  | .mk b e i none, wf =>
    rw [serialize_week_nil, toks_week_nil]
    exact tokChars_weekNode b e i wf cs hf
  | .mk b e i (some (.mk b2 e2 i2 none)), wf =>
    obtain ⟨wf1, wf2⟩ := wf
    rw [serialize_week_cons, toks_week_cons, serialize_week_nil, toks_week_nil]
    rw [List.append_assoc]
    rw [show ((',' :: weekNodeChars b2 e2 i2) ++ cs)
        = ',' :: (weekNodeChars b2 e2 i2 ++ cs) from rfl]
    rw [tokChars_weekNode b e i wf1 (',' :: (weekNodeChars b2 e2 i2 ++ cs))
      ⟨by decide, by decide, by decide⟩]
    obtain ⟨c0, rest0, heq0, hc0⟩ := weekNodeChars_head b2 e2 i2 wf2 cs
    rw [heq0, tokChars_comma c0 rest0 hc0, ← heq0]
    rw [tokChars_weekNode b2 e2 i2 wf2 cs hf]
    simp

/-! Date re-lexing. -/

theorem monthChars_all (m : Nat) (h1 : 1 ≤ m) (h2 : m ≤ 12) :
    monthChars m ≠ [] ∧ (∀ x ∈ monthChars m, isAlphaC x = true) ∧
      wordTok (monthChars m) = .month m := by
  interval_cases m <;> exact ⟨by decide, by decide, by decide⟩

theorem dateSer_easter (d : Date) (h : d.variableDate = .Easter) :
    Date.serialize d = (if d.year ≠ 0 then digitsOfNat d.year ++ [' '] else []) ++
      ['e','a','s','t','e','r'] := by
  unfold Date.serialize
  rw [h]

theorem dateSer_fixed (d : Date) (h : d.variableDate = .FixedDate) :
    Date.serialize d = (if d.year ≠ 0 then digitsOfNat d.year ++ [' '] else []) ++
      (if d.month ≠ 0 then monthChars d.month ++ ' ' :: pad2 d.day
       else pad2 d.day) := by
  unfold Date.serialize
  rw [h]

theorem dateToks_easter (d : Date) (h : d.variableDate = .Easter) :
    Date.toks d = (if d.year ≠ 0 then [.num d.year] else []) ++ [.easter] := by
  unfold Date.toks
  rw [h]

theorem dateToks_fixed (d : Date) (h : d.variableDate = .FixedDate) :
    Date.toks d = (if d.year ≠ 0 then [.num d.year] else []) ++
      (if d.month ≠ 0 then [.month d.month, .num d.day] else [.num d.day]) := by
  unfold Date.toks
  rw [h]

theorem dateBeginWF_m12 (d : Date) (wf : DateBeginWF d) :
    d.month ≠ 0 → 1 ≤ d.month ∧ d.month ≤ 12 := by
  intro hm
  cases hvd : d.variableDate with
  | Easter =>
    unfold DateBeginWF at wf
    rw [hvd] at wf
    exact absurd wf.1 hm
  | FixedDate =>
    unfold DateBeginWF at wf
    rw [hvd] at wf
    exact wf

theorem dateEndWF_m12 (d : Date) (wf : DateEndWF d) :
    d.month ≠ 0 → 1 ≤ d.month ∧ d.month ≤ 12 := by
  intro hm
  cases hvd : d.variableDate with
  | Easter =>
    unfold DateEndWF at wf
    rw [hvd] at wf
    exact absurd wf.1 hm
  | FixedDate =>
    unfold DateEndWF at wf
    rw [hvd] at wf
    rcases wf with wf | wf
    · exact wf
    · exact absurd wf.1 hm

theorem tokChars_dateCore (d : Date)
    (h12 : d.month ≠ 0 → 1 ≤ d.month ∧ d.month ≤ 12) (cs : List Char)
    (hf : charFollowOK cs) (ha : headNotP isAlphaC cs) :
    tokChars ((if d.month ≠ 0 then monthChars d.month ++ ' ' :: pad2 d.day
        else pad2 d.day) ++ cs)
      = (if d.month ≠ 0 then [.month d.month, .num d.day] else [.num d.day]) ++
        tokChars cs := by
  by_cases hm : d.month = 0
  · rw [if_neg (by simp [hm]), if_neg (by simp [hm])]
    rw [tokChars_pad2 d.day cs (numBoundary_of_follow _ _ hf)]
    rfl
  · obtain ⟨hm1, hm2⟩ := h12 hm
    obtain ⟨hw1, hw2, hw3⟩ := monthChars_all d.month hm1 hm2
    rw [if_pos hm, if_pos hm, List.append_assoc]
    rw [show ((' ' :: pad2 d.day) ++ cs) = ' ' :: (pad2 d.day ++ cs) from rfl]
    rw [tokChars_word (monthChars d.month) (' ' :: (pad2 d.day ++ cs)) hw1 hw2 rfl,
      hw3, tokChars_space]
    rw [tokChars_pad2 d.day cs (numBoundary_of_follow _ _ hf)]
    rfl

theorem tokChars_date (d : Date)
    (h12 : d.month ≠ 0 → 1 ≤ d.month ∧ d.month ≤ 12) (cs : List Char)
    (hf : charFollowOK cs) (ha : headNotP isAlphaC cs) :
    tokChars (Date.serialize d ++ cs) = Date.toks d ++ tokChars cs := by
  cases hvd : d.variableDate with
  | Easter =>
    rw [dateSer_easter d hvd, dateToks_easter d hvd]
    by_cases hy : d.year = 0
    · have hyn : ¬ d.year ≠ 0 := by simp [hy]
      rw [if_neg hyn, if_neg hyn]
      rw [List.nil_append, List.nil_append]
      rw [tokChars_word _ cs (by decide) (by decide) ha]
      rfl
    · have hyp : d.year ≠ 0 := hy
      rw [if_pos hyp, if_pos hyp]
      rw [show (((digitsOfNat d.year ++ [' ']) ++ ['e','a','s','t','e','r']) ++ cs)
          = digitsOfNat d.year ++ (' ' :: (['e','a','s','t','e','r'] ++ cs))
          from by simp]
      rw [tokChars_digits d.year (' ' :: (['e','a','s','t','e','r'] ++ cs))
        (numBoundary_of_follow _ _ ⟨by decide, by decide, by decide⟩)]
      rw [tokChars_space]
      rw [tokChars_word _ cs (by decide) (by decide) ha]
      rw [show wordTok ['e','a','s','t','e','r'] = Tok.easter from rfl]
      simp
  | FixedDate =>
    rw [dateSer_fixed d hvd, dateToks_fixed d hvd]
    by_cases hy : d.year = 0
    · have hyn : ¬ d.year ≠ 0 := by simp [hy]
      rw [if_neg hyn, if_neg hyn, List.nil_append, List.nil_append]
      exact tokChars_dateCore d h12 cs hf ha
    · have hyp : d.year ≠ 0 := hy
      rw [if_pos hyp, if_pos hyp]
      rw [show (((digitsOfNat d.year ++ [' ']) ++ (if d.month ≠ 0 then
            monthChars d.month ++ ' ' :: pad2 d.day else pad2 d.day)) ++ cs)
          = digitsOfNat d.year ++ (' ' :: ((if d.month ≠ 0 then
            monthChars d.month ++ ' ' :: pad2 d.day else pad2 d.day) ++ cs))
          from by simp]
      rw [tokChars_digits d.year (' ' :: ((if d.month ≠ 0 then
            monthChars d.month ++ ' ' :: pad2 d.day else pad2 d.day) ++ cs))
        (numBoundary_of_follow _ _ ⟨by decide, by decide, by decide⟩)]
      rw [tokChars_space]
      rw [tokChars_dateCore d h12 cs hf ha]
      simp

theorem dateChars_head (d : Date)
    (h12 : d.month ≠ 0 → 1 ≤ d.month ∧ d.month ≤ 12) (cs : List Char) :
    ∃ c rest, Date.serialize d ++ cs = c :: rest ∧ c ≠ ' ' := by
  cases hvd : d.variableDate with
  | Easter =>
    rw [dateSer_easter d hvd]
    by_cases hy : d.year = 0
    · have hyn : ¬ d.year ≠ 0 := by simp [hy]
      rw [if_neg hyn]
      exact ⟨'e', _, rfl, by decide⟩
    · have hyp : d.year ≠ 0 := hy
      rw [if_pos hyp]
      rw [show (((digitsOfNat d.year ++ [' ']) ++ ['e','a','s','t','e','r']) ++ cs)
          = digitsOfNat d.year ++ ([' '] ++ (['e','a','s','t','e','r'] ++ cs))
          from by simp]
      obtain ⟨c, r, h, hd⟩ := digits_head d.year _
      exact ⟨c, r, h, isDigitC_ne_space hd⟩
  | FixedDate =>
    rw [dateSer_fixed d hvd]
    by_cases hy : d.year = 0
    · have hyn : ¬ d.year ≠ 0 := by simp [hy]
      rw [if_neg hyn, List.nil_append]
      by_cases hm : d.month = 0
      · have hmn : ¬ d.month ≠ 0 := by simp [hm]
        rw [if_neg hmn]
        obtain ⟨c, r, h, hd⟩ := pad2_head d.day cs
        exact ⟨c, r, h, isDigitC_ne_space hd⟩
      · obtain ⟨hm1, hm2⟩ := h12 hm
        obtain ⟨hw1, hw2, _⟩ := monthChars_all d.month hm1 hm2
        have hmp : d.month ≠ 0 := hm
        rw [if_pos hmp, List.append_assoc]
        cases hmc : monthChars d.month with
        | nil => exact absurd hmc hw1
        | cons c t =>
          exact ⟨c, t ++ ((' ' :: pad2 d.day) ++ cs), rfl,
            isAlphaC_ne_space (hw2 c (by rw [hmc]; simp))⟩
    · have hyp : d.year ≠ 0 := hy
      rw [if_pos hyp]
      rw [show (((digitsOfNat d.year ++ [' ']) ++ (if d.month ≠ 0 then
            monthChars d.month ++ ' ' :: pad2 d.day else pad2 d.day)) ++ cs)
          = digitsOfNat d.year ++ ([' '] ++ ((if d.month ≠ 0 then
            monthChars d.month ++ ' ' :: pad2 d.day else pad2 d.day) ++ cs))
          from by simp]
      obtain ⟨c, r, h, hd⟩ := digits_head d.year _
      exact ⟨c, r, h, isDigitC_ne_space hd⟩

/-! Monthday selector re-lexing. -/

theorem mdNodeChars_none (b : Date) : mdNodeChars b none = b.serialize := by
  show b.serialize ++ [] = b.serialize
  exact List.append_nil _

theorem mdNodeChars_some (b d2 : Date) :
    mdNodeChars b (some d2) = b.serialize ++ '-' :: d2.serialize := rfl

theorem mdNodeToks_none (b : Date) : mdNodeToks b none = b.toks := by
  show b.toks ++ [] = b.toks
  exact List.append_nil _

theorem mdNodeToks_some (b d2 : Date) :
    mdNodeToks b (some d2) = b.toks ++ .minus :: d2.toks := rfl

theorem serialize_md_nil (b : Date) (e : Option Date) :
    MonthdayRange.serialize (.mk b e none) = mdNodeChars b e := by
  cases e <;> rfl

theorem serialize_md_cons (b : Date) (e : Option Date) (n : MonthdayRange) :
    MonthdayRange.serialize (.mk b e (some n))
      = mdNodeChars b e ++ ',' :: n.serialize := by
  cases e <;> rfl

theorem toks_md_nil (b : Date) (e : Option Date) :
    MonthdayRange.toks (.mk b e none) = mdNodeToks b e := by
  cases e <;> rfl

theorem toks_md_cons (b : Date) (e : Option Date) (n : MonthdayRange) :
    MonthdayRange.toks (.mk b e (some n)) = mdNodeToks b e ++ .comma :: n.toks := by
  cases e <;> rfl

theorem tokChars_mdNode (b : Date) (e : Option Date) (wfb : DateBeginWF b)
    (wfe : OptDateEndWF e) (cs : List Char) (hf : charFollowOK cs)
    (ha : headNotP isAlphaC cs) :
    tokChars (mdNodeChars b e ++ cs) = mdNodeToks b e ++ tokChars cs := by
  cases e with
  | none =>
    rw [mdNodeChars_none, mdNodeToks_none]
    exact tokChars_date b (dateBeginWF_m12 b wfb) cs hf ha
  | some d2 =>
    rw [mdNodeChars_some, mdNodeToks_some, List.append_assoc]
    rw [show (('-' :: Date.serialize d2) ++ cs)
        = '-' :: (Date.serialize d2 ++ cs) from rfl]
    rw [tokChars_date b (dateBeginWF_m12 b wfb) ('-' :: (Date.serialize d2 ++ cs))
      ⟨by decide, by decide, by decide⟩ rfl]
    rw [tokChars_minus]
    rw [tokChars_date d2 (dateEndWF_m12 d2 wfe) cs hf ha]
    simp

theorem mdNodeChars_head (b : Date) (e : Option Date)
    (h12 : b.month ≠ 0 → 1 ≤ b.month ∧ b.month ≤ 12) (cs : List Char) :
    ∃ c rest, mdNodeChars b e ++ cs = c :: rest ∧ c ≠ ' ' := by
  cases e with
  | none =>
    rw [mdNodeChars_none]
    exact dateChars_head b h12 cs
  | some d2 =>
    rw [mdNodeChars_some, List.append_assoc]
    exact dateChars_head b h12 _

theorem tokChars_mdChain : ∀ (md : MonthdayRange), MdChainWF md →
    ∀ (cs : List Char), charFollowOK cs → headNotP isAlphaC cs →
    tokChars (md.serialize ++ cs) = md.toks ++ tokChars cs := by
  intro md wf cs hf ha
  match md, wf with
  | .mk b e none, wf =>
    obtain ⟨wfb, wfe⟩ := wf
    rw [serialize_md_nil, toks_md_nil]
    exact tokChars_mdNode b e wfb wfe cs hf ha
  | .mk b e (some (.mk b2 e2 none)), wf =>
    obtain ⟨wfb, wfe, wfb2, wfe2⟩ := wf
    rw [serialize_md_cons, toks_md_cons, serialize_md_nil, toks_md_nil]
    rw [List.append_assoc]
    rw [show ((',' :: mdNodeChars b2 e2) ++ cs)
        = ',' :: (mdNodeChars b2 e2 ++ cs) from rfl]
    rw [tokChars_mdNode b e wfb wfe (',' :: (mdNodeChars b2 e2 ++ cs))
      ⟨by decide, by decide, by decide⟩ rfl]
    obtain ⟨c0, rest0, heq0, hc0⟩ := mdNodeChars_head b2 e2
      (dateBeginWF_m12 b2 wfb2) cs
    rw [heq0, tokChars_comma c0 rest0 hc0, ← heq0]
    rw [tokChars_mdNode b2 e2 wfb2 wfe2 cs hf ha]
    simp

/-! Rule-level re-lexing. -/

theorem tokChars_t247 (cs : List Char) (hd : headIsDigit cs = false) :
    tokChars (['2','4','/','7'] ++ cs) = .t247 :: tokChars cs := by
  rw [show ((['2','4','/','7'] : List Char) ++ cs) = '2' :: '4' :: '/' :: '7' :: cs
    from rfl]
  rw [tokChars_step _ (by decide)]
  have hnt : nextToken '2' ('4' :: '/' :: '7' :: cs) = (.t247, cs) := by
    unfold nextToken
    rw [if_pos (by decide)]
    rw [show ('4' :: '/' :: '7' :: cs).takeWhile isDigitC = ['4'] from by
      simp [List.takeWhile_cons, show isDigitC '4' = true from by decide,
        show isDigitC '/' = false from by decide]]
    rw [show ('4' :: '/' :: '7' :: cs).dropWhile isDigitC = '/' :: '7' :: cs from by
      simp [List.dropWhile_cons, show isDigitC '4' = true from by decide,
        show isDigitC '/' = false from by decide]]
    unfold numToken
    rw [if_pos (show t247Cond ['2','4'] ('/' :: '7' :: cs) = true from by
      simp [t247Cond, hd])]
    rfl
  rw [hnt]

theorem tokChars_stateChars (st : State) (cs : List Char)
    (ha : headNotP isAlphaC cs) :
    tokChars (stateChars st ++ cs) = stateToks st ++ tokChars cs := by
  cases st with
  | Invalid => rfl
  | Open => rfl
  | Closed =>
    rw [show (stateChars .Closed ++ cs)
        = ' ' :: (['c','l','o','s','e','d'] ++ cs) from rfl]
    rw [tokChars_space]
    rw [tokChars_word _ cs (by decide) (by decide) ha]
    rfl
  | Unknown =>
    rw [show (stateChars .Unknown ++ cs)
        = ' ' :: (['u','n','k','n','o','w','n'] ++ cs) from rfl]
    rw [tokChars_space]
    rw [tokChars_word _ cs (by decide) (by decide) ha]
    rfl

theorem tokChars_commentPart (c : String) (wf : CommentWF c) (cs : List Char) :
    tokChars ((' ' :: '"' :: (c.data ++ ['"'])) ++ cs)
      = .comment c.data :: tokChars cs := by
  rw [show ((' ' :: '"' :: (c.data ++ ['"'])) ++ cs)
      = ' ' :: '"' :: ((c.data ++ ['"']) ++ cs) from rfl]
  rw [show ((c.data ++ ['"']) ++ cs) = c.data ++ ('"' :: cs) from by simp]
  rw [tokChars_space]
  exact tokChars_quote c.data cs wf

theorem tailChars_relex (st : State) (com : Option String)
    (wfc : OptPred CommentWF com) (cs : List Char)
    (hf : charFollowOK cs) (ha : headNotP isAlphaC cs) :
    tokChars ((stateChars st ++ commentChars com) ++ cs)
      = (stateToks st ++ commentToks com) ++ tokChars cs := by
  cases com with
  | none =>
    show tokChars ((stateChars st ++ []) ++ cs) = (stateToks st ++ []) ++ tokChars cs
    rw [List.append_nil, List.append_nil]
    exact tokChars_stateChars st cs ha
  | some c =>
    show tokChars ((stateChars st ++ (' ' :: '"' :: (c.data ++ ['"']))) ++ cs)
      = (stateToks st ++ [Tok.comment c.data]) ++ tokChars cs
    rw [List.append_assoc]
    rw [tokChars_stateChars st ((' ' :: '"' :: (c.data ++ ['"'])) ++ cs) rfl]
    rw [tokChars_commentPart c wfc cs]
    simp

theorem tailChars_follow (st : State) (com : Option String) (cs : List Char)
    (hf : charFollowOK cs) (ha : headNotP isAlphaC cs) :
    charFollowOK ((stateChars st ++ commentChars com) ++ cs) ∧
    headNotP isAlphaC ((stateChars st ++ commentChars com) ++ cs) ∧
    headIsDigit ((stateChars st ++ commentChars com) ++ cs) = false := by
  cases st <;> cases com <;>
    first
      | exact ⟨⟨by decide, by decide, by decide⟩, rfl, rfl⟩
      | exact ⟨hf, ha, headIsDigit_of_follow cs hf⟩

theorem ruleSer_nil (r : Rule) (h : r.selectorParts = []) :
    r.serialize = (['2','4','/','7'] ++ stateChars r.m_state) ++
      commentChars r.m_comment := by
  unfold Rule.serialize
  rw [h]
  cases r.m_comment <;> rfl

theorem ruleSer_cons (r : Rule) (x : List Char) (xs : List (List Char))
    (h : r.selectorParts = x :: xs) :
    r.serialize = (joinParts (x :: xs) ++ stateChars r.m_state) ++
      commentChars r.m_comment := by
  unfold Rule.serialize
  rw [h]
  cases r.m_comment <;> rfl

theorem ruleToks_nil (r : Rule) (h : r.selTokParts = []) :
    r.toks = ([Tok.t247] ++ stateToks r.m_state) ++ commentToks r.m_comment := by
  unfold Rule.toks
  rw [h]
  cases r.m_comment <;> rfl

theorem ruleToks_cons (r : Rule) (x : List Tok) (xs : List (List Tok))
    (h : r.selTokParts = x :: xs) :
    r.toks = ((x :: xs).flatten ++ stateToks r.m_state) ++
      commentToks r.m_comment := by
  unfold Rule.toks
  rw [h]
  cases r.m_comment <;> rfl

theorem selParts_fst (r : Rule) : r.selectorParts = r.selParts.map Prod.fst := by
  unfold Rule.selectorParts Rule.selParts
  cases r.m_monthdaySelector <;> cases r.m_weekSelector <;>
    cases r.m_weekdaySelector <;> cases r.m_timeSelector <;> rfl

theorem selParts_snd (r : Rule) : r.selTokParts = r.selParts.map Prod.snd := by
  unfold Rule.selTokParts Rule.selParts
  cases r.m_monthdaySelector <;> cases r.m_weekSelector <;>
    cases r.m_weekdaySelector <;> cases r.m_timeSelector <;> rfl

theorem selParts_mem (r : Rule) (wf : RuleWF r) :
    ∀ p ∈ r.selParts, ∀ cs, charFollowOK cs → headNotP isAlphaC cs →
      tokChars (p.1 ++ cs) = p.2 ++ tokChars cs := by
  obtain ⟨wfts, wfwd, wfwk, wfmd, _, _⟩ := wf
  intro p hp
  unfold Rule.selParts at hp
  rcases List.mem_append.1 hp with hp | hp
  · rcases List.mem_append.1 hp with hp | hp
    · rcases List.mem_append.1 hp with hp | hp
      · cases hmd : r.m_monthdaySelector with
        | none => rw [hmd] at hp; simp at hp
        | some md =>
          rw [hmd] at hp
          simp at hp
          subst hp
          intro cs hf ha
          exact tokChars_mdChain md (by rw [hmd] at wfmd; exact wfmd) cs hf ha
      · cases hwk : r.m_weekSelector with
        | none => rw [hwk] at hp; simp at hp
        | some w =>
          rw [hwk] at hp
          simp at hp
          subst hp
          intro cs hf ha
          show tokChars ((['w','e','e','k',' '] ++ Week.serialize w) ++ cs)
            = (Tok.kwWeek :: Week.toks w) ++ tokChars cs
          rw [show ((['w','e','e','k',' '] ++ Week.serialize w) ++ cs)
              = ['w','e','e','k'] ++ (' ' :: (Week.serialize w ++ cs)) from by simp]
          rw [tokChars_word ['w','e','e','k'] (' ' :: (Week.serialize w ++ cs))
            (by decide) (by decide) rfl]
          rw [show wordTok ['w','e','e','k'] = Tok.kwWeek from rfl, tokChars_space]
          rw [tokChars_weekChain w (by rw [hwk] at wfwk; exact wfwk) cs hf]
          rfl
    · cases hwd : r.m_weekdaySelector with
      | none => rw [hwd] at hp; simp at hp
      | some w =>
        rw [hwd] at hp
        simp at hp
        subst hp
        intro cs hf ha
        exact tokChars_wdChain w (by rw [hwd] at wfwd; exact wfwd) cs ha
  · cases hts : r.m_timeSelector with
    | none => rw [hts] at hp; simp at hp
    | some t =>
      rw [hts] at hp
      simp at hp
      subst hp
      intro cs hf ha
      exact tokChars_tsChain t (by rw [hts] at wfts; exact wfts) cs ha

theorem tokChars_joinParts : ∀ (ps : List (List Char × List Tok)),
    (∀ p ∈ ps, ∀ cs, charFollowOK cs → headNotP isAlphaC cs →
      tokChars (p.1 ++ cs) = p.2 ++ tokChars cs) →
    ∀ (cs : List Char), charFollowOK cs → headNotP isAlphaC cs →
    tokChars (joinParts (ps.map Prod.fst) ++ cs)
      = (ps.map Prod.snd).flatten ++ tokChars cs := by
  intro ps
  induction ps with
  | nil => intro _ cs _ _; rfl
  | cons p rest ih =>
    intro hps cs hf ha
    cases rest with
    | nil =>
      rw [show joinParts (([p] : List (List Char × List Tok)).map Prod.fst) = p.1
        from rfl]
      rw [hps p (by simp) cs hf ha]
      simp
    | cons q rest2 =>
      rw [List.map_cons, List.map_cons]
      rw [show joinParts (p.1 :: q.1 :: List.map Prod.fst rest2)
          = p.1 ++ ' ' :: joinParts (q.1 :: List.map Prod.fst rest2) from rfl]
      rw [List.append_assoc]
      rw [show ((' ' :: joinParts (q.1 :: List.map Prod.fst rest2)) ++ cs)
          = ' ' :: (joinParts (q.1 :: List.map Prod.fst rest2) ++ cs) from rfl]
      rw [hps p (by simp)
        (' ' :: (joinParts (q.1 :: List.map Prod.fst rest2) ++ cs))
        ⟨by decide, by decide, by decide⟩ rfl]
      rw [tokChars_space]
      have hih := ih (fun x hx => hps x (by simp [hx])) cs hf ha
      rw [List.map_cons, List.map_cons] at hih
      rw [hih]
      simp

theorem tokChars_rule (r : Rule) (wf : RuleWF r) (cs : List Char)
    (hf : charFollowOK cs) (ha : headNotP isAlphaC cs) :
    tokChars (r.serialize ++ cs) = r.toks ++ tokChars cs := by
  have hmem := selParts_mem r wf
  have hwfc : OptPred CommentWF r.m_comment := wf.2.2.2.2.2
  obtain ⟨hcf, hca, hcd⟩ := tailChars_follow r.m_state r.m_comment cs hf ha
  cases hsel : r.selParts with
  | nil =>
    have h1 : r.selectorParts = [] := by rw [selParts_fst, hsel]; rfl
    have h2 : r.selTokParts = [] := by rw [selParts_snd, hsel]; rfl
    rw [ruleSer_nil r h1, ruleToks_nil r h2]
    rw [show (((['2','4','/','7'] ++ stateChars r.m_state) ++
          commentChars r.m_comment) ++ cs)
        = ['2','4','/','7'] ++ ((stateChars r.m_state ++
          commentChars r.m_comment) ++ cs) from by simp]
    rw [tokChars_t247 _ hcd]
    rw [tailChars_relex r.m_state r.m_comment hwfc cs hf ha]
    simp
  | cons p ps' =>
    have h1 : r.selectorParts = p.1 :: ps'.map Prod.fst := by
      rw [selParts_fst, hsel]
      rfl
    have h2 : r.selTokParts = p.2 :: ps'.map Prod.snd := by
      rw [selParts_snd, hsel]
      rfl
    rw [ruleSer_cons r _ _ h1, ruleToks_cons r _ _ h2]
    rw [hsel] at hmem
    rw [show (((joinParts (p.1 :: List.map Prod.fst ps') ++ stateChars r.m_state) ++
          commentChars r.m_comment) ++ cs)
        = joinParts (p.1 :: List.map Prod.fst ps') ++
          ((stateChars r.m_state ++ commentChars r.m_comment) ++ cs) from by simp]
    have hjp := tokChars_joinParts (p :: ps') hmem
      ((stateChars r.m_state ++ commentChars r.m_comment) ++ cs) hcf hca
    rw [List.map_cons, List.map_cons] at hjp
    rw [hjp]
    rw [tailChars_relex r.m_state r.m_comment hwfc cs hf ha]
    simp

theorem tokChars_rules : ∀ (rules : List Rule), RulesWF rules →
    ∀ (cs : List Char), charFollowOK cs → headNotP isAlphaC cs →
    tokChars (serializeRules rules ++ cs) = rulesToks rules ++ tokChars cs := by
  intro rules
  induction rules with
  | nil => intro _ cs _ _; rfl
  | cons r rest ih =>
    intro wf cs hf ha
    cases rest with
    | nil =>
      rw [show serializeRules [r] = r.serialize from rfl,
        show rulesToks [r] = r.toks from rfl]
      exact tokChars_rule r (wf r (by simp)) cs hf ha
    | cons r2 rest2 =>
      rw [show serializeRules (r :: r2 :: rest2)
          = r.serialize ++ ';' :: ' ' :: serializeRules (r2 :: rest2) from rfl]
      rw [show rulesToks (r :: r2 :: rest2)
          = r.toks ++ .normalSep :: rulesToks (r2 :: rest2) from rfl]
      rw [List.append_assoc]
      rw [show ((';' :: ' ' :: serializeRules (r2 :: rest2)) ++ cs)
          = ';' :: ' ' :: (serializeRules (r2 :: rest2) ++ cs) from rfl]
      rw [tokChars_rule r (wf r (by simp))
        (';' :: ' ' :: (serializeRules (r2 :: rest2) ++ cs))
        ⟨by decide, by decide, by decide⟩ rfl]
      rw [tokChars_semi, tokChars_space]
      rw [ih (fun x hx => wf x (by simp [hx])) cs hf ha]
      simp

/-- Re-lexing the canonical text of a rule list recovers its token mirror. -/
theorem tokenize_serializeRules (rules : List Rule) (wf : RulesWF rules) :
    tokenize (String.mk (serializeRules rules)) = rulesToks rules := by
  show tokChars (serializeRules rules) = rulesToks rules
  have h := tokChars_rules rules wf [] trivial trivial
  rw [List.append_nil] at h
  rw [h]
  simp
  rfl

/-! ### Reparsing the token mirror: time selectors -/

theorem parseTime_toks (t : Time) (wf : TimeWF t) (rest : List Tok) :
    parseTime (timeTok t :: rest) = some (t, rest) := by
  obtain ⟨ev, h, m⟩ := t
  cases ev with
  | NoEvent => rfl
  | Sunrise =>
    obtain ⟨h0, m0⟩ := wf
    subst h0; subst m0
    rfl
  | Sunset =>
    obtain ⟨h0, m0⟩ := wf
    subst h0; subst m0
    rfl
  | Dawn =>
    obtain ⟨h0, m0⟩ := wf
    subst h0; subst m0
    rfl
  | Dusk =>
    obtain ⟨h0, m0⟩ := wf
    subst h0; subst m0
    rfl

theorem parseTimespan_toks (b : Time) (e : Option Time) (wfb : TimeWF b)
    (wfe : OptTimeWF e) (rest : List Tok) :
    parseTimespan (tsNodeToks b e ++ rest) = some (.mk b e none, rest) := by
  cases e with
  | none =>
    rw [show (tsNodeToks b none ++ rest : List Tok) = timeTok b :: .plus :: rest
      from rfl]
    unfold parseTimespan
    rw [parseTime_toks b wfb (.plus :: rest)]
  | some t2 =>
    rw [show (tsNodeToks b (some t2) ++ rest : List Tok)
        = timeTok b :: .minus :: timeTok t2 :: rest from rfl]
    unfold parseTimespan
    rw [parseTime_toks b wfb (.minus :: timeTok t2 :: rest)]
    show (match parseTime (timeTok t2 :: rest) with
      | some (t2', rest3) => some (Timespan.mk b (some t2') none, rest3)
      | none => none) = _
    rw [parseTime_toks t2 wfe rest]

theorem timeStartsL_timeTok (t : Time) (xs : List Tok) :
    timeStartsL (timeTok t :: xs) = true := by
  obtain ⟨ev, h, m⟩ := t
  cases ev <;> rfl

theorem timeLoop_exit (fuel : Nat) (head : Timespan) (rest : List Tok)
    (hf : 0 < fuel)
    (h : ∀ rs, rest = .comma :: rs → timeStartsL rs = false) :
    parseTimeSelectorLoop fuel head rest = some (head, rest) := by
  cases fuel with
  | zero => omega
  | succ f =>
    cases rest with
    | nil => rfl
    | cons t rs =>
      cases t <;> try rfl
      show (if timeStartsL rs then _ else _) = _
      rw [if_neg (by simp [h rs rfl])]

theorem timeStartsL_tsNode (b : Time) (e : Option Time) (xs : List Tok) :
    timeStartsL (tsNodeToks b e ++ xs) = true := by
  cases e <;> exact timeStartsL_timeTok b _

theorem timeLoop_step (fuel : Nat) (head : Timespan) (b2 : Time)
    (e2 : Option Time) (wfb2 : TimeWF b2) (wfe2 : OptTimeWF e2)
    (rest : List Tok) :
    parseTimeSelectorLoop (fuel + 1) head (.comma :: (tsNodeToks b2 e2 ++ rest))
      = parseTimeSelectorLoop fuel (head.withNext (some (.mk b2 e2 none))) rest := by
  show (if timeStartsL (tsNodeToks b2 e2 ++ rest) then _ else _) = _
  rw [if_pos (timeStartsL_tsNode b2 e2 rest)]
  rw [parseTimespan_toks b2 e2 wfb2 wfe2 rest]

theorem parseTimeSelector_toks (ts : Timespan) (wf : TimespanWF ts)
    (rest : List Tok)
    (hnc : ∀ rs, rest = .comma :: rs → timeStartsL rs = false) :
    parseTimeSelector (ts.toks ++ rest) = some (ts, rest) := by
  match ts, wf with
  | .mk b e none, wf =>
    obtain ⟨wfb, wfe⟩ := wf
    unfold parseTimeSelector
    rw [toks_ts_nil, parseTimespan_toks b e wfb wfe rest]
    exact timeLoop_exit (rest.length + 1) _ rest (by omega) hnc
  | .mk b e (some (.mk b2 e2 none)), wf =>
    obtain ⟨wfb, wfe, wfb2, wfe2⟩ := wf
    unfold parseTimeSelector
    rw [toks_ts_cons, toks_ts_nil, List.append_assoc]
    rw [show ((Tok.comma :: tsNodeToks b2 e2) ++ rest : List Tok)
        = .comma :: (tsNodeToks b2 e2 ++ rest) from rfl]
    rw [parseTimespan_toks b e wfb wfe (.comma :: (tsNodeToks b2 e2 ++ rest))]
    show parseTimeSelectorLoop (((tsNodeToks b2 e2 ++ rest).length + 1) + 1)
      (Timespan.mk b e none) (.comma :: (tsNodeToks b2 e2 ++ rest)) = _
    rw [timeLoop_step _ _ b2 e2 wfb2 wfe2 rest]
    exact timeLoop_exit _ _ rest (by omega) hnc

/-! ### Reparsing the token mirror: weekday selectors -/

theorem parseWeekdayRange_toks (b : Nat) (e : Option Nat) (o : Int)
    (rest : List Tok) (hfol : wdNodeFollow rest) :
    parseWeekdayRange (wdNodeToks b e o .NoHoliday ++ rest)
      = some (.mk b e 0 0 .NoHoliday none none, rest) := by
  cases e with
  | some e2 => rfl
  | none =>
    show parseWeekdayRange (.weekday b :: rest) = _
    cases rest with
    | nil => rfl
    | cons t rs =>
      cases t <;> first | rfl | exact hfol.elim

theorem parseHoliday_toks_ph (o : Int) (rest : List Tok)
    (hfol : wdNodeFollow rest) :
    parseHoliday (wdNodeToks 0 none o .PublicHoliday ++ rest)
      = some (.mk 0 none 0 o .PublicHoliday none none, rest) := by
  rw [show (wdNodeToks 0 none o .PublicHoliday ++ rest : List Tok)
      = .ph :: (offsetToks o ++ rest) from rfl]
  unfold offsetToks
  by_cases h0 : o = 0
  · subst h0
    rw [if_pos rfl]
    show parseHoliday (.ph :: rest) = _
    cases rest with
    | nil => rfl
    | cons t rs =>
      cases t <;> first | rfl | exact hfol.elim
  · rw [if_neg h0]
    by_cases hp : 0 < o
    · rw [if_pos hp]
      show (some (.mk 0 none 0 (Int.ofNat o.toNat) .PublicHoliday none none, rest) :
        Option (WeekdayRange × List Tok)) = _
      rw [show Int.ofNat o.toNat = o from Int.toNat_of_nonneg (by omega)]
    · rw [if_neg hp]
      show (some (.mk 0 none 0 (-(Int.ofNat (-o).toNat)) .PublicHoliday none none,
        rest) : Option (WeekdayRange × List Tok)) = _
      rw [show Int.ofNat (-o).toNat = -o from Int.toNat_of_nonneg (by omega)]
      rw [neg_neg]

theorem parseHoliday_toks_sh (rest : List Tok) :
    parseHoliday (wdNodeToks 0 none 0 .SchoolHoliday ++ rest)
      = some (.mk 0 none 0 0 .SchoolHoliday none none, rest) := by
  rw [show (wdNodeToks 0 none 0 .SchoolHoliday ++ rest : List Tok)
      = .sh :: rest from by simp [wdNodeToks, offsetToks]]
  rfl

theorem parseHoliday_toksG (o : Int) (h : Holiday) (hh : isHol h = true)
    (wfo : h = .SchoolHoliday → o = 0) (rest : List Tok)
    (hfol : wdNodeFollow rest) :
    parseHoliday (wdNodeToks 0 none o h ++ rest)
      = some (.mk 0 none 0 o h none none, rest) := by
  cases h with
  | NoHoliday => cases hh
  | PublicHoliday => exact parseHoliday_toks_ph o rest hfol
  | SchoolHoliday =>
    rw [wfo rfl]
    exact parseHoliday_toks_sh rest

theorem wdNodeWF_hol (b : Nat) (e : Option Nat) (m : Nat) (o : Int) (h : Holiday)
    (hh : isHol h = true) (wf : WdNodeWF b e m o h) :
    b = 0 ∧ e = none ∧ m = 0 ∧ (h = .SchoolHoliday → o = 0) := by
  cases h with
  | NoHoliday => cases hh
  | PublicHoliday => exact ⟨wf.1, wf.2.1, wf.2.2, fun hx => nomatch hx⟩
  | SchoolHoliday => exact ⟨wf.1, wf.2.1, wf.2.2.1, fun _ => wf.2.2.2⟩

theorem isHol_false (h : Holiday) (hh : isHol h = false) : h = .NoHoliday := by
  cases h with
  | NoHoliday => rfl
  | PublicHoliday => cases hh
  | SchoolHoliday => cases hh

theorem weekdayStartsL_wdNode (b : Nat) (e : Option Nat) (o : Int)
    (xs : List Tok) :
    weekdayStartsL (wdNodeToks b e o .NoHoliday ++ xs) = true := by
  cases e <;> rfl

theorem weekdayStartsL_hol (b : Nat) (e : Option Nat) (o : Int) (h : Holiday)
    (hh : isHol h = true) (xs : List Tok) :
    weekdayStartsL (wdNodeToks b e o h ++ xs) = false := by
  cases h with
  | NoHoliday => cases hh
  | PublicHoliday => rfl
  | SchoolHoliday => rfl

theorem holidayStartsL_hol (b : Nat) (e : Option Nat) (o : Int) (h : Holiday)
    (hh : isHol h = true) (xs : List Tok) :
    holidayStartsL (wdNodeToks b e o h ++ xs) = true := by
  cases h with
  | NoHoliday => cases hh
  | PublicHoliday => rfl
  | SchoolHoliday => rfl

theorem holidayStartsL_wdNode (b : Nat) (e : Option Nat) (o : Int)
    (xs : List Tok) :
    holidayStartsL (wdNodeToks b e o .NoHoliday ++ xs) = false := by
  cases e <;> rfl

theorem wdLoop_exit (fuel : Nat) (head : WeekdayRange) (rest : List Tok)
    (hf : 0 < fuel)
    (h : ∀ rs, rest = .comma :: rs → weekdayStartsL rs = false) :
    parseWeekdaySequenceLoop fuel head rest = some (head, rest) := by
  cases fuel with
  | zero => omega
  | succ f =>
    cases rest with
    | nil => rfl
    | cons t rs =>
      cases t <;> try rfl
      show (if weekdayStartsL rs then _ else _) = _
      rw [if_neg (by simp [h rs rfl])]

theorem wdLoop_step (fuel : Nat) (head : WeekdayRange) (b2 : Nat)
    (e2 : Option Nat) (o2 : Int) (rest : List Tok) (hfol : wdNodeFollow rest) :
    parseWeekdaySequenceLoop (fuel + 1) head
        (.comma :: (wdNodeToks b2 e2 o2 .NoHoliday ++ rest))
      = parseWeekdaySequenceLoop fuel
        (head.withNext (some (.mk b2 e2 0 0 .NoHoliday none none))) rest := by
  show (if weekdayStartsL (wdNodeToks b2 e2 o2 .NoHoliday ++ rest) then
      match parseWeekdayRange (wdNodeToks b2 e2 o2 .NoHoliday ++ rest) with
      | some (w, rest2) => parseWeekdaySequenceLoop fuel (head.withNext (some w)) rest2
      | none => none
    else some (head, .comma :: (wdNodeToks b2 e2 o2 .NoHoliday ++ rest)))
    = parseWeekdaySequenceLoop fuel
        (head.withNext (some (.mk b2 e2 0 0 .NoHoliday none none))) rest
  rw [if_pos (weekdayStartsL_wdNode b2 e2 o2 rest)]
  rw [parseWeekdayRange_toks b2 e2 o2 rest hfol]

theorem holLoop_exit (fuel : Nat) (head : WeekdayRange) (rest : List Tok)
    (hf : 0 < fuel)
    (h : ∀ rs, rest = .comma :: rs → holidayStartsL rs = false) :
    parseHolidaySequenceLoop fuel head rest = some (head, rest) := by
  cases fuel with
  | zero => omega
  | succ f =>
    cases rest with
    | nil => rfl
    | cons t rs =>
      cases t <;> try rfl
      show (if holidayStartsL rs then _ else _) = _
      rw [if_neg (by simp [h rs rfl])]

theorem holLoop_step (fuel : Nat) (head : WeekdayRange) (o2 : Int) (h2 : Holiday)
    (hh2 : isHol h2 = true) (wfo2 : h2 = .SchoolHoliday → o2 = 0)
    (rest : List Tok) (hfol : wdNodeFollow rest) :
    parseHolidaySequenceLoop (fuel + 1) head
        (.comma :: (wdNodeToks 0 none o2 h2 ++ rest))
      = parseHolidaySequenceLoop fuel
        (head.withNext (some (.mk 0 none 0 o2 h2 none none))) rest := by
  show (if holidayStartsL (wdNodeToks 0 none o2 h2 ++ rest) then
      match parseHoliday (wdNodeToks 0 none o2 h2 ++ rest) with
      | some (w, rest2) => parseHolidaySequenceLoop fuel (head.withNext (some w)) rest2
      | none => none
    else some (head, .comma :: (wdNodeToks 0 none o2 h2 ++ rest)))
    = parseHolidaySequenceLoop fuel
        (head.withNext (some (.mk 0 none 0 o2 h2 none none))) rest
  rw [if_pos (holidayStartsL_hol 0 none o2 h2 hh2 rest)]
  rw [parseHoliday_toksG o2 h2 hh2 wfo2 rest hfol]

theorem parseWeekdaySequence_single (b : Nat) (e : Option Nat) (o : Int)
    (rest : List Tok) (hfol : wdNodeFollow rest)
    (hstop : ∀ rs, rest = .comma :: rs → weekdayStartsL rs = false) :
    parseWeekdaySequence (wdNodeToks b e o .NoHoliday ++ rest)
      = some (.mk b e 0 0 .NoHoliday none none, rest) := by
  unfold parseWeekdaySequence
  rw [parseWeekdayRange_toks b e o rest hfol]
  exact wdLoop_exit _ _ _ (by omega) hstop

theorem parseWeekdaySequence_pair (b : Nat) (e : Option Nat) (o : Int)
    (b2 : Nat) (e2 : Option Nat) (o2 : Int) (rest : List Tok)
    (hfol2 : wdNodeFollow rest)
    (hstop : ∀ rs, rest = .comma :: rs → weekdayStartsL rs = false) :
    parseWeekdaySequence (wdNodeToks b e o .NoHoliday ++
        (.comma :: (wdNodeToks b2 e2 o2 .NoHoliday ++ rest)))
      = some (.mk b e 0 0 .NoHoliday
          (some (.mk b2 e2 0 0 .NoHoliday none none)) none, rest) := by
  unfold parseWeekdaySequence
  rw [parseWeekdayRange_toks b e o
    (.comma :: (wdNodeToks b2 e2 o2 .NoHoliday ++ rest)) trivial]
  show parseWeekdaySequenceLoop
    (((wdNodeToks b2 e2 o2 .NoHoliday ++ rest).length + 1) + 1) _ _ = _
  rw [wdLoop_step _ _ b2 e2 o2 rest hfol2]
  exact wdLoop_exit _ _ _ (by omega) hstop

theorem parseHolidaySequence_single (o : Int) (h : Holiday)
    (hh : isHol h = true) (wfo : h = .SchoolHoliday → o = 0)
    (rest : List Tok) (hfol : wdNodeFollow rest)
    (hstop : ∀ rs, rest = .comma :: rs → holidayStartsL rs = false) :
    parseHolidaySequence (wdNodeToks 0 none o h ++ rest)
      = some (.mk 0 none 0 o h none none, rest) := by
  unfold parseHolidaySequence
  rw [parseHoliday_toksG o h hh wfo rest hfol]
  exact holLoop_exit _ _ _ (by omega) hstop

theorem parseHolidaySequence_pair (o : Int) (h : Holiday)
    (hh : isHol h = true) (wfo : h = .SchoolHoliday → o = 0)
    (o2 : Int) (h2 : Holiday) (hh2 : isHol h2 = true)
    (wfo2 : h2 = .SchoolHoliday → o2 = 0)
    (rest : List Tok) (hfol2 : wdNodeFollow rest)
    (hstop : ∀ rs, rest = .comma :: rs → holidayStartsL rs = false) :
    parseHolidaySequence (wdNodeToks 0 none o h ++
        (.comma :: (wdNodeToks 0 none o2 h2 ++ rest)))
      = some (.mk 0 none 0 o h
          (some (.mk 0 none 0 o2 h2 none none)) none, rest) := by
  unfold parseHolidaySequence
  rw [parseHoliday_toksG o h hh wfo
    (.comma :: (wdNodeToks 0 none o2 h2 ++ rest)) trivial]
  show parseHolidaySequenceLoop
    (((wdNodeToks 0 none o2 h2 ++ rest).length + 1) + 1) _ _ = _
  rw [holLoop_step _ _ o2 h2 hh2 wfo2 rest hfol2]
  exact holLoop_exit _ _ _ (by omega) hstop

theorem parseWeekdaySelector_toks (w : WeekdayRange) (wf : WdChainWF w)
    (rest : List Tok) (hnc : headNotComma rest) (hfol : wdNodeFollow rest) :
    parseWeekdaySelector (w.toks ++ rest) = some (w, rest) := by
  match w, wf with
  | .mk b e m o h none none, wf =>
    cases h with
    | NoHoliday =>
      obtain ⟨hb, he, hm, ho⟩ := wf
      subst hm; subst ho
      unfold parseWeekdaySelector
      rw [toks_wd_nil]
      rw [if_pos (weekdayStartsL_wdNode b e 0 rest)]
      rw [parseWeekdaySequence_single b e 0 rest hfol
        (fun rs hr => (hr ▸ hnc).elim)]
      cases rest with
      | nil => rfl
      | cons t rs =>
        cases t <;> first | rfl | exact hnc.elim
    | PublicHoliday =>
      obtain ⟨hb, he, hm⟩ := wf
      subst hb; subst he; subst hm
      unfold parseWeekdaySelector
      rw [toks_wd_nil]
      rw [if_neg (by simp [weekdayStartsL_hol 0 none o .PublicHoliday rfl])]
      rw [if_pos (holidayStartsL_hol 0 none o .PublicHoliday rfl rest)]
      rw [parseHolidaySequence_single o .PublicHoliday rfl (fun hx => nomatch hx)
        rest hfol (fun rs hr => (hr ▸ hnc).elim)]
      cases rest with
      | nil => rfl
      | cons t rs =>
        cases t <;> first | rfl | exact hnc.elim
    | SchoolHoliday =>
      obtain ⟨hb, he, hm, ho⟩ := wf
      subst hb; subst he; subst hm; subst ho
      unfold parseWeekdaySelector
      rw [toks_wd_nil]
      rw [if_neg (by simp [weekdayStartsL_hol 0 none 0 .SchoolHoliday rfl])]
      rw [if_pos (holidayStartsL_hol 0 none 0 .SchoolHoliday rfl rest)]
      rw [parseHolidaySequence_single 0 .SchoolHoliday rfl (fun _ => rfl)
        rest hfol (fun rs hr => (hr ▸ hnc).elim)]
      cases rest with
      | nil => rfl
      | cons t rs =>
        cases t <;> first | rfl | exact hnc.elim
  | .mk b e m o h (some (.mk b2 e2 m2 o2 h2 none none)) none, wf =>
    obtain ⟨wf1, wf2⟩ := wf
    rw [toks_wd_cons, toks_wd_nil, List.append_assoc]
    rw [show ((Tok.comma :: wdNodeToks b2 e2 o2 h2) ++ rest : List Tok)
        = .comma :: (wdNodeToks b2 e2 o2 h2 ++ rest) from rfl]
    cases hH : isHol h with
    | false =>
      have h0 := isHol_false h hH
      subst h0
      obtain ⟨hb, he, hm, ho⟩ := wf1
      subst hm; subst ho
      cases hH2 : isHol h2 with
      | false =>
        have h20 := isHol_false h2 hH2
        subst h20
        obtain ⟨hb2, he2, hm2, ho2⟩ := wf2
        subst hm2; subst ho2
        unfold parseWeekdaySelector
        rw [if_pos (weekdayStartsL_wdNode b e 0 _)]
        rw [parseWeekdaySequence_pair b e 0 b2 e2 0 rest hfol
          (fun rs hr => (hr ▸ hnc).elim)]
        cases rest with
        | nil => rfl
        | cons t rs =>
          cases t <;> first | rfl | exact hnc.elim
      | true =>
        obtain ⟨hb2, he2, hm2, wfo2⟩ := wdNodeWF_hol b2 e2 m2 o2 h2 hH2 wf2
        subst hb2; subst he2; subst hm2
        unfold parseWeekdaySelector
        rw [if_pos (weekdayStartsL_wdNode b e 0 _)]
        rw [parseWeekdaySequence_single b e 0
          (.comma :: (wdNodeToks 0 none o2 h2 ++ rest)) trivial
          (fun rs hr => by
            injection hr with _ h1
            rw [← h1]
            exact weekdayStartsL_hol 0 none o2 h2 hH2 rest)]
        show (if holidayStartsL (wdNodeToks 0 none o2 h2 ++ rest) then
            match parseHolidaySequence (wdNodeToks 0 none o2 h2 ++ rest) with
            | some (hh', rest3) =>
              some ((WeekdayRange.mk b e 0 0 .NoHoliday none none).withNext
                (some hh'), rest3)
            | none => none
          else some (WeekdayRange.mk b e 0 0 .NoHoliday none none,
            .comma :: (wdNodeToks 0 none o2 h2 ++ rest))) = _
        rw [if_pos (holidayStartsL_hol 0 none o2 h2 hH2 rest)]
        rw [parseHolidaySequence_single o2 h2 hH2 wfo2 rest hfol
          (fun rs hr => (hr ▸ hnc).elim)]
        rfl
    | true =>
      obtain ⟨hb, he, hm, wfo1⟩ := wdNodeWF_hol b e m o h hH wf1
      subst hb; subst he; subst hm
      cases hH2 : isHol h2 with
      | true =>
        obtain ⟨hb2, he2, hm2, wfo2⟩ := wdNodeWF_hol b2 e2 m2 o2 h2 hH2 wf2
        subst hb2; subst he2; subst hm2
        unfold parseWeekdaySelector
        rw [if_neg (by simp [weekdayStartsL_hol 0 none o h hH])]
        rw [if_pos (holidayStartsL_hol 0 none o h hH _)]
        rw [parseHolidaySequence_pair o h hH wfo1 o2 h2 hH2 wfo2 rest hfol
          (fun rs hr => (hr ▸ hnc).elim)]
        cases rest with
        | nil => rfl
        | cons t rs =>
          cases t <;> first | rfl | exact hnc.elim
      | false =>
        have h20 := isHol_false h2 hH2
        subst h20
        obtain ⟨hb2, he2, hm2, ho2⟩ := wf2
        subst hm2; subst ho2
        unfold parseWeekdaySelector
        rw [if_neg (by simp [weekdayStartsL_hol 0 none o h hH])]
        rw [if_pos (holidayStartsL_hol 0 none o h hH _)]
        rw [parseHolidaySequence_single o h hH wfo1
          (.comma :: (wdNodeToks b2 e2 0 .NoHoliday ++ rest)) trivial
          (fun rs hr => by
            injection hr with _ h1
            rw [← h1]
            exact holidayStartsL_wdNode b2 e2 0 rest)]
        show (if weekdayStartsL (wdNodeToks b2 e2 0 .NoHoliday ++ rest) then
            match parseWeekdaySequence (wdNodeToks b2 e2 0 .NoHoliday ++ rest) with
            | some (w', rest3) =>
              some ((WeekdayRange.mk 0 none 0 o h none none).withNext
                (some w'), rest3)
            | none => none
          else some (WeekdayRange.mk 0 none 0 o h none none,
            .comma :: (wdNodeToks b2 e2 0 .NoHoliday ++ rest))) = _
        rw [if_pos (weekdayStartsL_wdNode b2 e2 0 rest)]
        rw [parseWeekdaySequence_single b2 e2 0 rest hfol
          (fun rs hr => (hr ▸ hnc).elim)]
        rfl
  | .mk b e m o h (some (.mk b2 e2 m2 o2 h2
      (some (.mk b3 e3 m3 o3 h3 none none)) none)) none, wf =>
    obtain ⟨wf1, wf2, wf3, hne, heq⟩ := wf
    rw [toks_wd_cons, toks_wd_cons, toks_wd_nil, List.append_assoc]
    rw [show ((Tok.comma :: (wdNodeToks b2 e2 o2 h2 ++
          Tok.comma :: wdNodeToks b3 e3 o3 h3)) ++ rest : List Tok)
        = .comma :: (wdNodeToks b2 e2 o2 h2 ++
          (.comma :: (wdNodeToks b3 e3 o3 h3 ++ rest))) from by simp]
    cases hH : isHol h with
    | false =>
      have h0 := isHol_false h hH
      subst h0
      obtain ⟨hb, he, hm, ho⟩ := wf1
      subst hm; subst ho
      have hH2 : isHol h2 = true := by
        cases hx : isHol h2 with
        | true => rfl
        | false => exact absurd (by rw [hx]; rfl) hne
      have hH3 : isHol h3 = true := heq ▸ hH2
      obtain ⟨hb2, he2, hm2, wfo2⟩ := wdNodeWF_hol b2 e2 m2 o2 h2 hH2 wf2
      subst hb2; subst he2; subst hm2
      obtain ⟨hb3, he3, hm3, wfo3⟩ := wdNodeWF_hol b3 e3 m3 o3 h3 hH3 wf3
      subst hb3; subst he3; subst hm3
      unfold parseWeekdaySelector
      rw [if_pos (weekdayStartsL_wdNode b e 0 _)]
      rw [parseWeekdaySequence_single b e 0
        (.comma :: (wdNodeToks 0 none o2 h2 ++
          (.comma :: (wdNodeToks 0 none o3 h3 ++ rest)))) trivial
        (fun rs hr => by
          injection hr with _ h1
          rw [← h1]
          exact weekdayStartsL_hol 0 none o2 h2 hH2 _)]
      show (if holidayStartsL (wdNodeToks 0 none o2 h2 ++
            (.comma :: (wdNodeToks 0 none o3 h3 ++ rest))) then
          match parseHolidaySequence (wdNodeToks 0 none o2 h2 ++
            (.comma :: (wdNodeToks 0 none o3 h3 ++ rest))) with
          | some (hh', rest3) =>
            some ((WeekdayRange.mk b e 0 0 .NoHoliday none none).withNext
              (some hh'), rest3)
          | none => none
        else some (WeekdayRange.mk b e 0 0 .NoHoliday none none,
          .comma :: (wdNodeToks 0 none o2 h2 ++
            (.comma :: (wdNodeToks 0 none o3 h3 ++ rest))))) = _
      rw [if_pos (holidayStartsL_hol 0 none o2 h2 hH2 _)]
      rw [parseHolidaySequence_pair o2 h2 hH2 wfo2 o3 h3 hH3 wfo3 rest hfol
        (fun rs hr => (hr ▸ hnc).elim)]
      rfl
    | true =>
      obtain ⟨hb, he, hm, wfo1⟩ := wdNodeWF_hol b e m o h hH wf1
      subst hb; subst he; subst hm
      have hH2 : isHol h2 = false := by
        cases hx : isHol h2 with
        | false => rfl
        | true => exact absurd (by rw [hH, hx]) hne
      have h20 := isHol_false h2 hH2
      subst h20
      have hH3 : isHol h3 = false := heq ▸ hH2
      have h30 := isHol_false h3 hH3
      subst h30
      obtain ⟨hb2, he2, hm2, ho2⟩ := wf2
      subst hm2; subst ho2
      obtain ⟨hb3, he3, hm3, ho3⟩ := wf3
      subst hm3; subst ho3
      unfold parseWeekdaySelector
      rw [if_neg (by simp [weekdayStartsL_hol 0 none o h hH])]
      rw [if_pos (holidayStartsL_hol 0 none o h hH _)]
      rw [parseHolidaySequence_single o h hH wfo1
        (.comma :: (wdNodeToks b2 e2 0 .NoHoliday ++
          (.comma :: (wdNodeToks b3 e3 0 .NoHoliday ++ rest)))) trivial
        (fun rs hr => by
          injection hr with _ h1
          rw [← h1]
          exact holidayStartsL_wdNode b2 e2 0 _)]
      show (if weekdayStartsL (wdNodeToks b2 e2 0 .NoHoliday ++
            (.comma :: (wdNodeToks b3 e3 0 .NoHoliday ++ rest))) then
          match parseWeekdaySequence (wdNodeToks b2 e2 0 .NoHoliday ++
            (.comma :: (wdNodeToks b3 e3 0 .NoHoliday ++ rest))) with
          | some (w', rest3) =>
            some ((WeekdayRange.mk 0 none 0 o h none none).withNext
              (some w'), rest3)
          | none => none
        else some (WeekdayRange.mk 0 none 0 o h none none,
          .comma :: (wdNodeToks b2 e2 0 .NoHoliday ++
            (.comma :: (wdNodeToks b3 e3 0 .NoHoliday ++ rest))))) = _
      rw [if_pos (weekdayStartsL_wdNode b2 e2 0 _)]
      rw [parseWeekdaySequence_pair b2 e2 0 b3 e3 0 rest hfol
        (fun rs hr => (hr ▸ hnc).elim)]
      rfl

/-! ### Reparsing the token mirror: week selectors -/

theorem parseWeek_toks (b : Nat) (e i : Option Nat) (wf : WeekNodeWF e i)
    (rest : List Tok) (hfol : weekNodeFollow rest) :
    parseWeek (weekNodeToks b e i ++ rest) = some (.mk b e i none, rest) := by
  cases i with
  | some i2 =>
    cases e with
    | none => simp [WeekNodeWF] at wf
    | some e2 => rfl
  | none =>
    cases e with
    | some e2 =>
      show parseWeek (.num b :: .minus :: .num e2 :: rest) = _
      cases rest with
      | nil => rfl
      | cons t rs =>
        cases t <;> first | rfl | exact hfol.elim
    | none =>
      show parseWeek (.num b :: rest) = _
      cases rest with
      | nil => rfl
      | cons t rs =>
        cases t <;> first | rfl | exact hfol.elim

theorem numStartsL_weekNode (b : Nat) (e i : Option Nat) (xs : List Tok) :
    numStartsL (weekNodeToks b e i ++ xs) = true := rfl

theorem weekLoop_exit (fuel : Nat) (head : Week) (rest : List Tok)
    (hf : 0 < fuel)
    (h : ∀ rs, rest = .comma :: rs → numStartsL rs = false) :
    parseWeekSelectorLoop fuel head rest = some (head, rest) := by
  cases fuel with
  | zero => omega
  | succ f =>
    cases rest with
    | nil => rfl
    | cons t rs =>
      cases t <;> try rfl
      show (if numStartsL rs then _ else _) = _
      rw [if_neg (by simp [h rs rfl])]

theorem weekLoop_step (fuel : Nat) (head : Week) (b2 : Nat) (e2 i2 : Option Nat)
    (wf2 : WeekNodeWF e2 i2) (rest : List Tok) (hfol : weekNodeFollow rest) :
    parseWeekSelectorLoop (fuel + 1) head (.comma :: (weekNodeToks b2 e2 i2 ++ rest))
      = parseWeekSelectorLoop fuel (head.withNext (some (.mk b2 e2 i2 none))) rest := by
  show (if numStartsL (weekNodeToks b2 e2 i2 ++ rest) then
      match parseWeek (weekNodeToks b2 e2 i2 ++ rest) with
      | some (w, rest2) => parseWeekSelectorLoop fuel (head.withNext (some w)) rest2
      | none => none
    else some (head, .comma :: (weekNodeToks b2 e2 i2 ++ rest))) = _
  rw [if_pos (numStartsL_weekNode b2 e2 i2 rest)]
  rw [parseWeek_toks b2 e2 i2 wf2 rest hfol]

theorem parseWeekSelector_toks (w : Week) (wf : WeekChainWF w) (rest : List Tok)
    (hnc : headNotComma rest) (hfol : weekNodeFollow rest) :
    parseWeekSelector (.kwWeek :: (w.toks ++ rest)) = some (w, rest) := by
  match w, wf with
  | .mk b e i none, wf =>
    show (match parseWeek (Week.toks (.mk b e i none) ++ rest) with
      | some (w2, rest2) => parseWeekSelectorLoop (rest2.length + 1) w2 rest2
      | none => none) = _
    rw [toks_week_nil, parseWeek_toks b e i wf rest hfol]
    exact weekLoop_exit _ _ _ (by omega) (fun rs hr => (hr ▸ hnc).elim)
  | .mk b e i (some (.mk b2 e2 i2 none)), wf =>
    obtain ⟨wf1, wf2⟩ := wf
    show (match parseWeek (Week.toks (.mk b e i (some (.mk b2 e2 i2 none))) ++ rest) with
      | some (w2, rest2) => parseWeekSelectorLoop (rest2.length + 1) w2 rest2
      | none => none) = _
    rw [toks_week_cons, toks_week_nil, List.append_assoc]
    rw [show ((Tok.comma :: weekNodeToks b2 e2 i2) ++ rest : List Tok)
        = .comma :: (weekNodeToks b2 e2 i2 ++ rest) from rfl]
    rw [parseWeek_toks b e i wf1
      (.comma :: (weekNodeToks b2 e2 i2 ++ rest)) trivial]
    show parseWeekSelectorLoop (((weekNodeToks b2 e2 i2 ++ rest).length + 1) + 1)
      (Week.mk b e i none) (.comma :: (weekNodeToks b2 e2 i2 ++ rest)) = _
    rw [weekLoop_step _ _ b2 e2 i2 wf2 rest hfol]
    exact weekLoop_exit _ _ _ (by omega) (fun rs hr => (hr ▸ hnc).elim)

/-! ### Reparsing the token mirror: monthday selectors -/

theorem parseDateFrom_toks (d : Date) (wf : DateBeginWF d) (rest : List Tok) :
    parseDateFrom (Date.toks d ++ rest) = some (d, rest) := by
  obtain ⟨y, mo, da, vd⟩ := d
  cases vd with
  | Easter =>
    obtain ⟨hm, hd⟩ := wf
    subst hm; subst hd
    rw [dateToks_easter _ rfl]
    by_cases hy : y = 0
    · subst hy
      rw [if_neg (by simp)]
      rfl
    · rw [if_pos hy]
      rfl
  | FixedDate =>
    have h12 : 1 ≤ mo ∧ mo ≤ 12 := wf
    have hmne : mo ≠ 0 := by omega
    rw [dateToks_fixed _ rfl, if_pos hmne]
    by_cases hy : y = 0
    · subst hy
      rw [if_neg (by simp)]
      rfl
    · rw [if_pos hy]
      rfl

theorem parseDateFrom_num_none (n : Nat) (rest : List Tok)
    (hfol : dateNodeFollow rest) :
    parseDateFrom (.num n :: rest) = none := by
  cases rest with
  | nil => rfl
  | cons t rs =>
    cases t <;> first | rfl | exact hfol.elim

theorem parseDateTo_toks (d : Date) (wf : DateEndWF d) (rest : List Tok)
    (hfol : dateNodeFollow rest) :
    parseDateTo (Date.toks d ++ rest) = some (d, rest) := by
  obtain ⟨y, mo, da, vd⟩ := d
  cases vd with
  | Easter =>
    unfold parseDateTo
    rw [parseDateFrom_toks ⟨y, mo, da, .Easter⟩ wf rest]
  | FixedDate =>
    rcases wf with h12 | ⟨hm0, hy0⟩
    · unfold parseDateTo
      rw [parseDateFrom_toks ⟨y, mo, da, .FixedDate⟩ h12 rest]
    · subst hm0; subst hy0
      unfold parseDateTo
      rw [dateToks_fixed _ rfl, if_neg (by simp), if_neg (by simp)]
      rw [show ((([] : List Tok) ++ [Tok.num da]) ++ rest) = .num da :: rest from rfl]
      rw [parseDateFrom_num_none da rest hfol]

theorem parseDateOffset_none (rest : List Tok) (hfol : dateNodeFollow rest) :
    parseDateOffset rest = none := by
  cases rest with
  | nil => rfl
  | cons t rs =>
    cases t <;> first | rfl | exact hfol.elim

theorem parseDateOffset_minus (d2 : Date) (wf : DateEndWF d2) (rest : List Tok)
    (hfol : dateNodeFollow rest) :
    parseDateOffset (.minus :: (Date.toks d2 ++ rest)) = none := by
  obtain ⟨y, mo, da, vd⟩ := d2
  cases vd with
  | Easter =>
    obtain ⟨hm, hd⟩ := wf
    subst hm; subst hd
    rw [dateToks_easter _ rfl]
    by_cases hy : y = 0
    · subst hy
      rw [if_neg (by simp)]
      rfl
    · rw [if_pos hy]
      rfl
  | FixedDate =>
    rcases wf with h12 | ⟨hm0, hy0⟩
    · have h12b : 1 ≤ mo ∧ mo ≤ 12 := h12
      have hmne : mo ≠ 0 := by omega
      rw [dateToks_fixed _ rfl, if_pos hmne]
      by_cases hy : y = 0
      · subst hy
        rw [if_neg (by simp)]
        rfl
      · rw [if_pos hy]
        rfl
    · subst hm0; subst hy0
      rw [dateToks_fixed _ rfl, if_neg (by simp), if_neg (by simp)]
      rw [show ((([] : List Tok) ++ [Tok.num da]) ++ rest) = .num da :: rest from rfl]
      cases rest with
      | nil => rfl
      | cons t rs =>
        cases t <;> first | rfl | exact hfol.elim

theorem parseMonthdayRange_toks (b : Date) (e : Option Date) (wfb : DateBeginWF b)
    (wfe : OptDateEndWF e) (rest : List Tok) (hfol : dateNodeFollow rest) :
    parseMonthdayRange (mdNodeToks b e ++ rest) = some (.mk b e none, rest) := by
  cases e with
  | none =>
    rw [mdNodeToks_none]
    unfold parseMonthdayRange
    rw [parseDateFrom_toks b wfb rest]
    dsimp only
    rw [parseDateOffset_none rest hfol]
    dsimp only
    cases rest with
    | nil => rfl
    | cons t rs =>
      cases t <;> first | rfl | exact hfol.elim
  | some d2 =>
    rw [mdNodeToks_some, List.append_assoc]
    rw [show ((Tok.minus :: Date.toks d2) ++ rest : List Tok)
        = .minus :: (Date.toks d2 ++ rest) from rfl]
    unfold parseMonthdayRange
    rw [parseDateFrom_toks b wfb (.minus :: (Date.toks d2 ++ rest))]
    dsimp only
    rw [parseDateOffset_minus d2 wfe rest hfol]
    dsimp only
    rw [parseDateTo_toks d2 wfe rest hfol]

theorem mdStartsL_toks (b : Date) (e : Option Date) (wfb : DateBeginWF b)
    (xs : List Tok) :
    mdStartsL (mdNodeToks b e ++ xs) = true := by
  obtain ⟨y, mo, da, vd⟩ := b
  rw [show (mdNodeToks ⟨y, mo, da, vd⟩ e ++ xs)
      = Date.toks ⟨y, mo, da, vd⟩ ++ ((match e with
        | some d2 => Tok.minus :: d2.toks
        | none => []) ++ xs) from by simp [mdNodeToks]]
  cases vd with
  | Easter =>
    obtain ⟨hm, hd⟩ := wfb
    subst hm; subst hd
    rw [dateToks_easter _ rfl]
    by_cases hy : y = 0
    · subst hy
      rw [if_neg (by simp)]
      rfl
    · rw [if_pos hy]
      rfl
  | FixedDate =>
    have h12 : 1 ≤ mo ∧ mo ≤ 12 := wfb
    have hmne : mo ≠ 0 := by omega
    rw [dateToks_fixed _ rfl, if_pos hmne]
    by_cases hy : y = 0
    · subst hy
      rw [if_neg (by simp)]
      rfl
    · rw [if_pos hy]
      rfl

theorem mdLoop_exit (fuel : Nat) (head : MonthdayRange) (rest : List Tok)
    (hf : 0 < fuel)
    (h : ∀ rs, rest = .comma :: rs → mdStartsL rs = false) :
    parseMonthdaySelectorLoop fuel head rest = some (head, rest) := by
  cases fuel with
  | zero => omega
  | succ f =>
    cases rest with
    | nil => rfl
    | cons t rs =>
      cases t <;> try rfl
      show (if mdStartsL rs then _ else _) = _
      rw [if_neg (by simp [h rs rfl])]

theorem mdLoop_step (fuel : Nat) (head : MonthdayRange) (b2 : Date)
    (e2 : Option Date) (wfb2 : DateBeginWF b2) (wfe2 : OptDateEndWF e2)
    (rest : List Tok) (hfol : dateNodeFollow rest) :
    parseMonthdaySelectorLoop (fuel + 1) head (.comma :: (mdNodeToks b2 e2 ++ rest))
      = parseMonthdaySelectorLoop fuel (head.withNext (some (.mk b2 e2 none))) rest := by
  show (if mdStartsL (mdNodeToks b2 e2 ++ rest) then
      match parseMonthdayRange (mdNodeToks b2 e2 ++ rest) with
      | some (m, rest2) => parseMonthdaySelectorLoop fuel (head.withNext (some m)) rest2
      | none => none
    else some (head, .comma :: (mdNodeToks b2 e2 ++ rest))) = _
  rw [if_pos (mdStartsL_toks b2 e2 wfb2 rest)]
  rw [parseMonthdayRange_toks b2 e2 wfb2 wfe2 rest hfol]

theorem parseMonthdaySelector_toks (md : MonthdayRange) (wf : MdChainWF md)
    (rest : List Tok) (hnc : headNotComma rest) (hfol : dateNodeFollow rest) :
    parseMonthdaySelector (md.toks ++ rest) = some (md, rest) := by
  match md, wf with
  | .mk b e none, wf =>
    obtain ⟨wfb, wfe⟩ := wf
    unfold parseMonthdaySelector
    rw [toks_md_nil, parseMonthdayRange_toks b e wfb wfe rest hfol]
    exact mdLoop_exit _ _ _ (by omega) (fun rs hr => (hr ▸ hnc).elim)
  | .mk b e (some (.mk b2 e2 none)), wf =>
    obtain ⟨wfb, wfe, wfb2, wfe2⟩ := wf
    unfold parseMonthdaySelector
    rw [toks_md_cons, toks_md_nil, List.append_assoc]
    rw [show ((Tok.comma :: mdNodeToks b2 e2) ++ rest : List Tok)
        = .comma :: (mdNodeToks b2 e2 ++ rest) from rfl]
    rw [parseMonthdayRange_toks b e wfb wfe
      (.comma :: (mdNodeToks b2 e2 ++ rest)) trivial]
    show parseMonthdaySelectorLoop (((mdNodeToks b2 e2 ++ rest).length + 1) + 1)
      (MonthdayRange.mk b e none) (.comma :: (mdNodeToks b2 e2 ++ rest)) = _
    rw [mdLoop_step _ _ b2 e2 wfb2 wfe2 rest hfol]
    exact mdLoop_exit _ _ _ (by omega) (fun rs hr => (hr ▸ hnc).elim)

/-! ### Reparsing the token mirror: selector sequences -/

theorem tsChain_headFacts (t : Timespan) (xs : List Tok) :
    headNotComma (t.toks ++ xs) ∧ wdNodeFollow (t.toks ++ xs) ∧
    dateNodeFollow (t.toks ++ xs) ∧ weekNodeFollow (t.toks ++ xs) ∧
    kwWeekStartsL (t.toks ++ xs) = false ∧
    smallStartsL (t.toks ++ xs) = true ∧
    timeStartsL (t.toks ++ xs) = true ∧
    weekdayStartsL (t.toks ++ xs) = false ∧
    holidayStartsL (t.toks ++ xs) = false ∧
    (∃ hd tl, t.toks ++ xs = hd :: tl ∧ hd ≠ .t247) := by
  match t with
  | .mk b e none =>
    rw [toks_ts_nil]
    obtain ⟨ev, hh, mm⟩ := b
    cases ev <;>
      exact ⟨trivial, trivial, trivial, trivial, rfl, rfl, rfl, rfl, rfl,
        ⟨_, _, rfl, fun hx => nomatch hx⟩⟩
  | .mk b e (some n) =>
    rw [toks_ts_cons, List.append_assoc]
    obtain ⟨ev, hh, mm⟩ := b
    cases ev <;>
      exact ⟨trivial, trivial, trivial, trivial, rfl, rfl, rfl, rfl, rfl,
        ⟨_, _, rfl, fun hx => nomatch hx⟩⟩

theorem wdChain_headFacts (w : WeekdayRange) (xs : List Tok) :
    headNotComma (w.toks ++ xs) ∧ wdNodeFollow (w.toks ++ xs) ∧
    dateNodeFollow (w.toks ++ xs) ∧ weekNodeFollow (w.toks ++ xs) ∧
    kwWeekStartsL (w.toks ++ xs) = false ∧
    smallStartsL (w.toks ++ xs) = true ∧
    (weekdayStartsL (w.toks ++ xs) || holidayStartsL (w.toks ++ xs)) = true ∧
    (∃ hd tl, w.toks ++ xs = hd :: tl ∧ hd ≠ .t247) := by
  match w with
  | .mk b e m o h none n2 =>
    rw [toks_wd_nil]
    cases h <;>
      exact ⟨trivial, trivial, trivial, trivial, rfl, rfl, rfl,
        ⟨_, _, rfl, fun hx => nomatch hx⟩⟩
  | .mk b e m o h (some n) n2 =>
    rw [toks_wd_cons, List.append_assoc]
    cases h <;>
      exact ⟨trivial, trivial, trivial, trivial, rfl, rfl, rfl,
        ⟨_, _, rfl, fun hx => nomatch hx⟩⟩

theorem mdNode_headFacts (b : Date) (e : Option Date) (wfb : DateBeginWF b)
    (xs : List Tok) :
    smallStartsL (mdNodeToks b e ++ xs) = false ∧
    (∃ hd tl, mdNodeToks b e ++ xs = hd :: tl ∧ hd ≠ .t247) := by
  rw [show mdNodeToks b e = Date.toks b ++ mdEndToks e from by cases e <;> rfl,
    List.append_assoc]
  obtain ⟨y, mo, da, vd⟩ := b
  cases vd with
  | Easter =>
    obtain ⟨hm, hd⟩ := wfb
    subst hm; subst hd
    rw [dateToks_easter _ rfl]
    by_cases hy : y = 0
    · subst hy
      rw [if_neg (by simp)]
      exact ⟨rfl, ⟨_, _, rfl, fun hx => nomatch hx⟩⟩
    · rw [if_pos hy]
      exact ⟨rfl, ⟨_, _, rfl, fun hx => nomatch hx⟩⟩
  | FixedDate =>
    have h12 : 1 ≤ mo ∧ mo ≤ 12 := wfb
    have hmne : mo ≠ 0 := by omega
    rw [dateToks_fixed _ rfl, if_pos hmne]
    by_cases hy : y = 0
    · subst hy
      rw [if_neg (by simp)]
      exact ⟨rfl, ⟨_, _, rfl, fun hx => nomatch hx⟩⟩
    · rw [if_pos hy]
      exact ⟨rfl, ⟨_, _, rfl, fun hx => nomatch hx⟩⟩

theorem mdChain_headFacts (m : MonthdayRange) (wf : MdChainWF m) (xs : List Tok) :
    smallStartsL (m.toks ++ xs) = false ∧
    (∃ hd tl, m.toks ++ xs = hd :: tl ∧ hd ≠ .t247) := by
  match m, wf with
  | .mk b e none, wf =>
    rw [toks_md_nil]
    exact mdNode_headFacts b e wf.1 xs
  | .mk b e (some (.mk b2 e2 none)), wf =>
    rw [toks_md_cons, toks_md_nil, List.append_assoc]
    exact mdNode_headFacts b e wf.1 _

theorem mdStartsL_chain (m : MonthdayRange) (wf : MdChainWF m) (xs : List Tok) :
    mdStartsL (m.toks ++ xs) = true := by
  match m, wf with
  | .mk b e none, wf =>
    rw [toks_md_nil]
    exact mdStartsL_toks b e wf.1 xs
  | .mk b e (some (.mk b2 e2 none)), wf =>
    rw [toks_md_cons, toks_md_nil, List.append_assoc]
    exact mdStartsL_toks b e wf.1 _

theorem wideRange_entry (t : Tok) (ys : List Tok) (hc : ∀ c, t ≠ .comment c)
    (hn : ∀ n, t ≠ .num n) :
    parseWideRange (t :: ys) = wideBody (t :: ys) := by
  cases t <;> first
    | rfl
    | exact absurd rfl (hc _)
    | exact absurd rfl (hn _)

theorem wideRange_entry_ym (y mo da : Nat) (ys : List Tok) :
    parseWideRange (.num y :: .month mo :: .num da :: ys)
      = wideBody (.num y :: .month mo :: .num da :: ys) := rfl

theorem wideRange_entry_ye (y : Nat) (ys : List Tok) :
    parseWideRange (.num y :: .easter :: ys)
      = wideBody (.num y :: .easter :: ys) := rfl

theorem wideRange_entry_dateToks (b : Date) (wfb : DateBeginWF b)
    (zz : List Tok) :
    parseWideRange (Date.toks b ++ zz) = wideBody (Date.toks b ++ zz) := by
  obtain ⟨y, mo, da, vd⟩ := b
  cases vd with
  | Easter =>
    obtain ⟨hm, hd⟩ := wfb
    subst hm; subst hd
    rw [dateToks_easter _ rfl]
    by_cases hy : y = 0
    · subst hy
      rw [if_neg (by simp)]
      exact wideRange_entry .easter zz (fun c hx => nomatch hx)
        (fun n hx => nomatch hx)
    · rw [if_pos hy]
      exact wideRange_entry_ye y zz
  | FixedDate =>
    have h12 : 1 ≤ mo ∧ mo ≤ 12 := wfb
    have hmne : mo ≠ 0 := by omega
    rw [dateToks_fixed _ rfl, if_pos hmne]
    by_cases hy : y = 0
    · subst hy
      rw [if_neg (by simp)]
      exact wideRange_entry (.month mo) (.num da :: zz) (fun c hx => nomatch hx)
        (fun n hx => nomatch hx)
    · rw [if_pos hy]
      exact wideRange_entry_ym y mo da zz

theorem wideRange_entry_mdChain (m : MonthdayRange) (wf : MdChainWF m)
    (zz : List Tok) :
    parseWideRange (m.toks ++ zz) = wideBody (m.toks ++ zz) := by
  match m, wf with
  | .mk b e none, wf =>
    rw [toks_md_nil,
      show mdNodeToks b e = Date.toks b ++ mdEndToks e from by cases e <;> rfl,
      List.append_assoc]
    exact wideRange_entry_dateToks b wf.1 _
  | .mk b e (some (.mk b2 e2 none)), wf =>
    rw [toks_md_cons, toks_md_nil,
      show mdNodeToks b e = Date.toks b ++ mdEndToks e from by cases e <;> rfl,
      List.append_assoc, List.append_assoc]
    exact wideRange_entry_dateToks b wf.1 _

theorem selSeq_entry (t : Tok) (ys : List Tok) (h : t ≠ .t247) :
    parseSelectorSequence (t :: ys) = smallWideBody (t :: ys) := by
  cases t <;> first
    | rfl
    | exact absurd rfl h

theorem parseWideRange_toksP (md : Option MonthdayRange) (wk : Option Week)
    (wfmd : OptPred MdChainWF md) (wfwk : OptPred WeekChainWF wk)
    (hne : ¬(md = none ∧ wk = none)) (rest : List Tok)
    (hnc : headNotComma rest) (hdf : dateNodeFollow rest)
    (hwf : weekNodeFollow rest) (hkw : kwWeekStartsL rest = false) :
    parseWideRange (mdPartToks md ++ (wkPartToks wk ++ rest))
      = some ({ weekSelector := wk, monthdaySelector := md }, rest) := by
  cases md with
  | some m =>
    rw [show mdPartToks (some m) = m.toks from rfl]
    rw [wideRange_entry_mdChain m wfmd _]
    unfold wideBody
    rw [if_pos (mdStartsL_chain m wfmd _)]
    cases wk with
    | some w =>
      rw [show wkPartToks (some w) ++ rest = .kwWeek :: (w.toks ++ rest) from rfl]
      rw [parseMonthdaySelector_toks m wfmd (.kwWeek :: (w.toks ++ rest))
        trivial trivial]
      dsimp only
      rw [if_pos (show kwWeekStartsL (Tok.kwWeek :: (w.toks ++ rest)) = true
        from rfl)]
      rw [parseWeekSelector_toks w wfwk rest hnc hwf]
    | none =>
      rw [show wkPartToks none ++ rest = rest from rfl]
      rw [parseMonthdaySelector_toks m wfmd rest hnc hdf]
      dsimp only
      rw [if_neg (by simp [hkw])]
  | none =>
    cases wk with
    | none => exact absurd ⟨rfl, rfl⟩ hne
    | some w =>
      rw [show mdPartToks none ++ (wkPartToks (some w) ++ rest)
          = .kwWeek :: (w.toks ++ rest) from rfl]
      rw [wideRange_entry .kwWeek (w.toks ++ rest) (fun c hx => nomatch hx)
        (fun n hx => nomatch hx)]
      unfold wideBody
      rw [if_neg (show ¬ (mdStartsL (Tok.kwWeek :: (w.toks ++ rest)) = true)
        from by simp [mdStartsL])]
      rw [if_pos (show kwWeekStartsL (Tok.kwWeek :: (w.toks ++ rest)) = true
        from rfl)]
      rw [parseWeekSelector_toks w wfwk rest hnc hwf]

theorem parseSmallRange_toksP (wd : Option WeekdayRange) (ts : Option Timespan)
    (wfwd : OptPred WdChainWF wd) (wfts : OptPred TimespanWF ts)
    (hne : ¬(wd = none ∧ ts = none)) (rest : List Tok)
    (hnc : headNotComma rest) (hT : timeStartsL rest = false)
    (hwd : wdNodeFollow rest) :
    parseSmallRange (wdPartToks wd ++ (tsPartToks ts ++ rest))
      = some ({ timeSelector := ts, weekdaySelector := wd }, rest) := by
  cases wd with
  | some w =>
    rw [show wdPartToks (some w) = w.toks from rfl]
    cases ts with
    | some t =>
      rw [show tsPartToks (some t) = t.toks from rfl]
      obtain ⟨hc1, hc2, _, _, _, _, hc7, _, _, _⟩ := tsChain_headFacts t rest
      unfold parseSmallRange
      rw [if_pos ((wdChain_headFacts w (t.toks ++ rest)).2.2.2.2.2.2.1)]
      rw [parseWeekdaySelector_toks w wfwd (t.toks ++ rest) hc1 hc2]
      dsimp only
      rw [if_pos hc7]
      rw [parseTimeSelector_toks t wfts rest (fun rs hr => (hr ▸ hnc).elim)]
    | none =>
      rw [show (w.toks ++ (tsPartToks none ++ rest)) = w.toks ++ rest
        from by simp [tsPartToks]]
      unfold parseSmallRange
      rw [if_pos ((wdChain_headFacts w rest).2.2.2.2.2.2.1)]
      rw [parseWeekdaySelector_toks w wfwd rest hnc hwd]
      dsimp only
      rw [if_neg (by simp [hT])]
  | none =>
    cases ts with
    | none => exact absurd ⟨rfl, rfl⟩ hne
    | some t =>
      rw [show (wdPartToks none ++ (tsPartToks (some t) ++ rest))
          = t.toks ++ rest from by simp [wdPartToks, tsPartToks]]
      obtain ⟨_, _, _, _, _, _, hc7, hc8, hc9, _⟩ := tsChain_headFacts t rest
      unfold parseSmallRange
      rw [if_neg (by simp [hc8, hc9])]
      rw [if_pos hc7]
      rw [parseTimeSelector_toks t wfts rest (fun rs hr => (hr ▸ hnc).elim)]

theorem smallPart_follows (wd : Option WeekdayRange) (ts : Option Timespan)
    (rest : List Tok) (hnc : headNotComma rest) (hdf : dateNodeFollow rest)
    (hwkf : weekNodeFollow rest) (hkw : kwWeekStartsL rest = false) :
    headNotComma (wdPartToks wd ++ (tsPartToks ts ++ rest)) ∧
    dateNodeFollow (wdPartToks wd ++ (tsPartToks ts ++ rest)) ∧
    weekNodeFollow (wdPartToks wd ++ (tsPartToks ts ++ rest)) ∧
    kwWeekStartsL (wdPartToks wd ++ (tsPartToks ts ++ rest)) = false := by
  cases wd with
  | some w =>
    obtain ⟨c1, _, c3, c4, c5, _, _, _⟩ := wdChain_headFacts w (tsPartToks ts ++ rest)
    exact ⟨c1, c3, c4, c5⟩
  | none =>
    cases ts with
    | some t =>
      obtain ⟨c1, _, c3, c4, c5, _, _, _, _, _⟩ := tsChain_headFacts t rest
      exact ⟨c1, c3, c4, c5⟩
    | none => exact ⟨hnc, hdf, hwkf, hkw⟩

theorem smallPart_starts_pos (wd : Option WeekdayRange) (ts : Option Timespan)
    (hne : ¬(wd = none ∧ ts = none)) (rest : List Tok) :
    smallStartsL (wdPartToks wd ++ (tsPartToks ts ++ rest)) = true := by
  cases wd with
  | some w => exact (wdChain_headFacts w (tsPartToks ts ++ rest)).2.2.2.2.2.1
  | none =>
    cases ts with
    | none => exact absurd ⟨rfl, rfl⟩ hne
    | some t => exact (tsChain_headFacts t rest).2.2.2.2.2.1

theorem parseSelectorSequence_toks
    (md : Option MonthdayRange) (wk : Option Week) (wd : Option WeekdayRange)
    (ts : Option Timespan)
    (wfmd : OptPred MdChainWF md) (wfwk : OptPred WeekChainWF wk)
    (wfwd : OptPred WdChainWF wd) (wfts : OptPred TimespanWF ts)
    (hne : ¬(md = none ∧ wk = none ∧ wd = none ∧ ts = none))
    (rest : List Tok)
    (hnc : headNotComma rest) (hwdf : wdNodeFollow rest)
    (hdf : dateNodeFollow rest) (hwkf : weekNodeFollow rest)
    (hT : timeStartsL rest = false) (hkw : kwWeekStartsL rest = false)
    (hS : smallStartsL rest = false) :
    parseSelectorSequence
        (mdPartToks md ++ (wkPartToks wk ++ (wdPartToks wd ++ (tsPartToks ts ++ rest))))
      = some ({ timeSelector := ts, weekdaySelector := wd,
                weekSelector := wk, monthdaySelector := md }, rest) := by
  by_cases hwide : md = none ∧ wk = none
  · obtain ⟨hmd, hwk⟩ := hwide
    subst hmd; subst hwk
    have hsne : ¬(wd = none ∧ ts = none) := fun ⟨h1, h2⟩ => hne ⟨rfl, rfl, h1, h2⟩
    cases wd with
    | some w =>
      obtain ⟨_, _, _, _, _, hc6, _, hc8⟩ :=
        wdChain_headFacts w (tsPartToks ts ++ rest)
      obtain ⟨hd, tl, heq, h247⟩ := hc8
      rw [show (mdPartToks none ++ (wkPartToks none ++
            (wdPartToks (some w) ++ (tsPartToks ts ++ rest))))
          = w.toks ++ (tsPartToks ts ++ rest) from rfl]
      rw [heq, selSeq_entry hd tl h247, ← heq]
      unfold smallWideBody
      rw [if_pos hc6]
      exact parseSmallRange_toksP (some w) ts wfwd wfts hsne rest hnc hT hwdf
    | none =>
      cases ts with
      | none => exact absurd ⟨rfl, rfl⟩ hsne
      | some t =>
        obtain ⟨_, _, _, _, _, hc6, _, _, _, hc10⟩ := tsChain_headFacts t rest
        obtain ⟨hd, tl, heq, h247⟩ := hc10
        rw [show (mdPartToks none ++ (wkPartToks none ++
              (wdPartToks none ++ (tsPartToks (some t) ++ rest))))
            = t.toks ++ rest from by simp [mdPartToks, wkPartToks, wdPartToks,
              tsPartToks]]
        rw [heq, selSeq_entry hd tl h247, ← heq]
        unfold smallWideBody
        rw [if_pos hc6]
        exact parseSmallRange_toksP none (some t) wfwd wfts hsne rest hnc hT hwdf
  · obtain ⟨hf1, hf2, hf3, hf4⟩ := smallPart_follows wd ts rest hnc hdf hwkf hkw
    have hww := parseWideRange_toksP md wk wfmd wfwk hwide
      (wdPartToks wd ++ (tsPartToks ts ++ rest)) hf1 hf2 hf3 hf4
    cases md with
    | some m =>
      obtain ⟨hsm, hd, tl, heq, h247⟩ := mdChain_headFacts m wfmd
        (wkPartToks wk ++ (wdPartToks wd ++ (tsPartToks ts ++ rest)))
      rw [show (mdPartToks (some m) ++ (wkPartToks wk ++
            (wdPartToks wd ++ (tsPartToks ts ++ rest))))
          = m.toks ++ (wkPartToks wk ++
            (wdPartToks wd ++ (tsPartToks ts ++ rest))) from rfl]
      rw [heq, selSeq_entry hd tl h247, ← heq]
      unfold smallWideBody
      rw [if_neg (by simp [hsm])]
      rw [show (m.toks ++ (wkPartToks wk ++ (wdPartToks wd ++ (tsPartToks ts ++ rest))))
          = mdPartToks (some m) ++ (wkPartToks wk ++
            (wdPartToks wd ++ (tsPartToks ts ++ rest))) from rfl]
      rw [hww]
      dsimp only
      by_cases hsm2 : wd = none ∧ ts = none
      · obtain ⟨h1, h2⟩ := hsm2
        subst h1; subst h2
        rw [if_neg (by simp [show smallStartsL (wdPartToks none ++
            (tsPartToks none ++ rest)) = false from hS])]
        rfl
      · rw [if_pos (smallPart_starts_pos wd ts hsm2 rest)]
        rw [parseSmallRange_toksP wd ts wfwd wfts hsm2 rest hnc hT hwdf]
    | none =>
      cases wk with
      | none => exact absurd ⟨rfl, rfl⟩ hwide
      | some w' =>
        rw [show (mdPartToks none ++ (wkPartToks (some w') ++
              (wdPartToks wd ++ (tsPartToks ts ++ rest))))
            = Tok.kwWeek :: (w'.toks ++
              (wdPartToks wd ++ (tsPartToks ts ++ rest))) from rfl]
        rw [selSeq_entry .kwWeek _ (fun hx => nomatch hx)]
        unfold smallWideBody
        rw [if_neg (by simp [show smallStartsL (Tok.kwWeek :: (w'.toks ++
            (wdPartToks wd ++ (tsPartToks ts ++ rest)))) = false from rfl])]
        rw [show (Tok.kwWeek :: (w'.toks ++ (wdPartToks wd ++ (tsPartToks ts ++ rest))))
            = mdPartToks none ++ (wkPartToks (some w') ++
              (wdPartToks wd ++ (tsPartToks ts ++ rest))) from rfl]
        rw [hww]
        dsimp only
        by_cases hsm2 : wd = none ∧ ts = none
        · obtain ⟨h1, h2⟩ := hsm2
          subst h1; subst h2
          rw [if_neg (by simp [show smallStartsL (wdPartToks none ++
              (tsPartToks none ++ rest)) = false from hS])]
          rfl
        · rw [if_pos (smallPart_starts_pos wd ts hsm2 rest)]
          rw [parseSmallRange_toksP wd ts wfwd wfts hsm2 rest hnc hT hwdf]

/-! ### Reparsing the token mirror: rules and rulesets -/

theorem tailToks_follows (st : State) (cm : Option String) (rest : List Tok)
    (hrf : ruleFollow rest) :
    headNotComma (stateToks st ++ (commentToks cm ++ rest)) ∧
    wdNodeFollow (stateToks st ++ (commentToks cm ++ rest)) ∧
    dateNodeFollow (stateToks st ++ (commentToks cm ++ rest)) ∧
    weekNodeFollow (stateToks st ++ (commentToks cm ++ rest)) ∧
    timeStartsL (stateToks st ++ (commentToks cm ++ rest)) = false ∧
    kwWeekStartsL (stateToks st ++ (commentToks cm ++ rest)) = false ∧
    smallStartsL (stateToks st ++ (commentToks cm ++ rest)) = false := by
  cases st with
  | Closed => exact ⟨trivial, trivial, trivial, trivial, rfl, rfl, rfl⟩
  | Unknown => exact ⟨trivial, trivial, trivial, trivial, rfl, rfl, rfl⟩
  | Invalid =>
    cases cm with
    | some c => exact ⟨trivial, trivial, trivial, trivial, rfl, rfl, rfl⟩
    | none =>
      cases rest with
      | nil => exact ⟨trivial, trivial, trivial, trivial, rfl, rfl, rfl⟩
      | cons t rs =>
        cases t <;> first
          | exact ⟨trivial, trivial, trivial, trivial, rfl, rfl, rfl⟩
          | exact hrf.elim
  | Open =>
    cases cm with
    | some c => exact ⟨trivial, trivial, trivial, trivial, rfl, rfl, rfl⟩
    | none =>
      cases rest with
      | nil => exact ⟨trivial, trivial, trivial, trivial, rfl, rfl, rfl⟩
      | cons t rs =>
        cases t <;> first
          | exact ⟨trivial, trivial, trivial, trivial, rfl, rfl, rfl⟩
          | exact hrf.elim

theorem ruleToks_split (rcm : Option String) (rst : State) (rts : Option Timespan)
    (rwd : Option WeekdayRange) (rwk : Option Week) (rmd : Option MonthdayRange)
    (hne : ¬(rmd = none ∧ rwk = none ∧ rwd = none ∧ rts = none)) (rest : List Tok) :
    Rule.toks ⟨rcm, rst, rts, rwd, rwk, rmd⟩ ++ rest
      = mdPartToks rmd ++ (wkPartToks rwk ++ (wdPartToks rwd ++ (tsPartToks rts ++
        (stateToks rst ++ (commentToks rcm ++ rest))))) := by
  cases rmd <;> cases rwk <;> cases rwd <;> cases rts
  case none.none.none.none => exact absurd ⟨rfl, rfl, rfl, rfl⟩ hne
  all_goals
    cases rcm <;> simp [Rule.toks, Rule.selTokParts, mdPartToks, wkPartToks,
      wdPartToks, tsPartToks, commentToks]

theorem parseRule_toks (r : Rule) (wf : RuleWF r) (rest : List Tok)
    (hrf : ruleFollow rest) :
    parseRule (r.toks ++ rest) = some (r, rest) := by
  obtain ⟨rcm, rst, rts, rwd, rwk, rmd⟩ := r
  obtain ⟨wfts, wfwd, wfwk, wfmd, hstate, wfc⟩ := wf
  by_cases hall : (rmd = none ∧ rwk = none ∧ rwd = none ∧ rts = none)
  · obtain ⟨h1, h2, h3, h4⟩ := hall
    subst h1; subst h2; subst h3; subst h4
    rw [ruleToks_nil ⟨rcm, rst, none, none, none, none⟩ rfl]
    rw [show ((([Tok.t247] ++ stateToks rst) ++ commentToks rcm) ++ rest)
        = Tok.t247 :: (stateToks rst ++ (commentToks rcm ++ rest)) from by simp]
    unfold parseRule
    rw [show parseSelectorSequence (Tok.t247 ::
          (stateToks rst ++ (commentToks rcm ++ rest)))
        = some (({} : Selectors), stateToks rst ++ (commentToks rcm ++ rest))
        from rfl]
    dsimp only
    cases rst with
    | Invalid => exact absurd rfl hstate
    | Open =>
      cases rcm with
      | some c => rfl
      | none =>
        cases rest with
        | nil => rfl
        | cons t rs =>
          cases t <;> first | rfl | exact hrf.elim
    | Closed =>
      cases rcm with
      | some c => rfl
      | none =>
        cases rest with
        | nil => rfl
        | cons t rs =>
          cases t <;> first | rfl | exact hrf.elim
    | Unknown =>
      cases rcm with
      | some c => rfl
      | none =>
        cases rest with
        | nil => rfl
        | cons t rs =>
          cases t <;> first | rfl | exact hrf.elim
  · rw [ruleToks_split rcm rst rts rwd rwk rmd hall rest]
    unfold parseRule
    obtain ⟨f1, f2, f3, f4, f5, f6, f7⟩ := tailToks_follows rst rcm rest hrf
    rw [parseSelectorSequence_toks rmd rwk rwd rts wfmd wfwk wfwd wfts hall
      (stateToks rst ++ (commentToks rcm ++ rest)) f1 f2 f3 f4 f5 f6 f7]
    dsimp only
    cases rst with
    | Invalid => exact absurd rfl hstate
    | Open =>
      cases rcm with
      | some c => rfl
      | none =>
        cases rest with
        | nil => rfl
        | cons t rs =>
          cases t <;> first | rfl | exact hrf.elim
    | Closed =>
      cases rcm with
      | some c => rfl
      | none =>
        cases rest with
        | nil => rfl
        | cons t rs =>
          cases t <;> first | rfl | exact hrf.elim
    | Unknown =>
      cases rcm with
      | some c => rfl
      | none =>
        cases rest with
        | nil => rfl
        | cons t rs =>
          cases t <;> first | rfl | exact hrf.elim

theorem rulesToks_eq (r : Rule) (rest : List Rule) :
    rulesToks (r :: rest) = r.toks ++ rulesTailToks rest := by
  induction rest generalizing r with
  | nil => simp [rulesToks, rulesTailToks]
  | cons r2 rr ih =>
    rw [show rulesToks (r :: r2 :: rr)
        = r.toks ++ .normalSep :: rulesToks (r2 :: rr) from rfl]
    rw [ih r2]
    rfl

theorem rulesTail_follow (rest : List Rule) : ruleFollow (rulesTailToks rest) := by
  cases rest with
  | nil => trivial
  | cons r rr => trivial

theorem rulesetLoop_toks (rules : List Rule) (wf : RulesWF rules) :
    ∀ (acc : List Rule) (fuel : Nat), (rulesTailToks rules).length < fuel →
    parseRulesetLoop fuel acc (rulesTailToks rules) = some (acc ++ rules) := by
  induction rules with
  | nil =>
    intro acc fuel hf
    cases fuel with
    | zero => omega
    | succ f => simp [rulesTailToks, parseRulesetLoop]
  | cons r rest ih =>
    intro acc fuel hf
    cases fuel with
    | zero => omega
    | succ f =>
      show (match parseRule (r.toks ++ rulesTailToks rest) with
        | some (r2, rest2) => parseRulesetLoop f (acc ++ [r2]) rest2
        | none => none) = _
      rw [parseRule_toks r (wf r (by simp)) (rulesTailToks rest)
        (rulesTail_follow rest)]
      dsimp only
      have hlen : (rulesTailToks rest).length < f := by
        rw [show rulesTailToks (r :: rest)
            = .normalSep :: (r.toks ++ rulesTailToks rest) from rfl] at hf
        simp only [List.length_cons, List.length_append] at hf
        omega
      rw [ih (fun x hx => wf x (by simp [hx])) (acc ++ [r]) f hlen]
      simp

theorem parseRuleset_toks (rules : List Rule) (wf : RulesWF rules)
    (hne : rules ≠ []) :
    parseRuleset (rulesToks rules) = some rules := by
  cases rules with
  | nil => exact absurd rfl hne
  | cons r rest =>
    rw [rulesToks_eq r rest]
    unfold parseRuleset
    rw [parseRule_toks r (wf r (by simp)) (rulesTailToks rest)
      (rulesTail_follow rest)]
    dsimp only
    rw [rulesetLoop_toks rest (fun x hx => wf x (by simp [hx])) [r]
      ((rulesTailToks rest).length + 1) (by omega)]
    rfl

/-! ### Well-formedness of scanner output -/

theorem toksWF_tail {t : Tok} {ts : List Tok} (h : ToksWF (t :: ts)) :
    ToksWF ts :=
  fun x hx => h x (List.mem_cons_of_mem _ hx)

theorem mem_takeWhileP (p : Char → Bool) :
    ∀ (l : List Char) (x : Char), x ∈ l.takeWhile p → p x = true := by
  intro l
  induction l with
  | nil => intro x hx; simp [List.takeWhile] at hx
  | cons c cs ih =>
    intro x hx
    rw [List.takeWhile_cons] at hx
    by_cases hc : p c = true
    · rw [if_pos hc] at hx
      rcases List.mem_cons.1 hx with h | h
      · rw [h]; exact hc
      · exact ih x h
    · rw [if_neg hc] at hx
      simp at hx

theorem wordTok_wf (w : List Char) : TokWF (wordTok w) := by
  unfold wordTok
  by_cases h1 : w = ['M','o']
  · rw [if_pos h1]; exact (by decide : 0 ≤ 6)
  rw [if_neg h1]
  by_cases h2 : w = ['T','u']
  · rw [if_pos h2]; exact (by decide : 1 ≤ 6)
  rw [if_neg h2]
  by_cases h3 : w = ['W','e']
  · rw [if_pos h3]; exact (by decide : 2 ≤ 6)
  rw [if_neg h3]
  by_cases h4 : w = ['T','h']
  · rw [if_pos h4]; exact (by decide : 3 ≤ 6)
  rw [if_neg h4]
  by_cases h5 : w = ['F','r']
  · rw [if_pos h5]; exact (by decide : 4 ≤ 6)
  rw [if_neg h5]
  by_cases h6 : w = ['S','a']
  · rw [if_pos h6]; exact (by decide : 5 ≤ 6)
  rw [if_neg h6]
  by_cases h7 : w = ['S','u']
  · rw [if_pos h7]; exact (by decide : 6 ≤ 6)
  rw [if_neg h7]
  by_cases h8 : w = ['J','a','n']
  · rw [if_pos h8]; first | trivial | decide
  rw [if_neg h8]
  by_cases h9 : w = ['F','e','b']
  · rw [if_pos h9]; first | trivial | decide
  rw [if_neg h9]
  by_cases h10 : w = ['M','a','r']
  · rw [if_pos h10]; first | trivial | decide
  rw [if_neg h10]
  by_cases h11 : w = ['A','p','r']
  · rw [if_pos h11]; first | trivial | decide
  rw [if_neg h11]
  by_cases h12 : w = ['M','a','y']
  · rw [if_pos h12]; first | trivial | decide
  rw [if_neg h12]
  by_cases h13 : w = ['J','u','n']
  · rw [if_pos h13]; first | trivial | decide
  rw [if_neg h13]
  by_cases h14 : w = ['J','u','l']
  · rw [if_pos h14]; first | trivial | decide
  rw [if_neg h14]
  by_cases h15 : w = ['A','u','g']
  · rw [if_pos h15]; first | trivial | decide
  rw [if_neg h15]
  by_cases h16 : w = ['S','e','p']
  · rw [if_pos h16]; first | trivial | decide
  rw [if_neg h16]
  by_cases h17 : w = ['O','c','t']
  · rw [if_pos h17]; first | trivial | decide
  rw [if_neg h17]
  by_cases h18 : w = ['N','o','v']
  · rw [if_pos h18]; first | trivial | decide
  rw [if_neg h18]
  by_cases h19 : w = ['D','e','c']
  · rw [if_pos h19]; first | trivial | decide
  rw [if_neg h19]
  by_cases h20 : w = ['P','H']
  · rw [if_pos h20]; first | trivial | decide
  rw [if_neg h20]
  by_cases h21 : w = ['S','H']
  · rw [if_pos h21]; first | trivial | decide
  rw [if_neg h21]
  by_cases h22 : w = ['o','p','e','n']
  · rw [if_pos h22]; exact fun hx => State.noConfusion hx
  rw [if_neg h22]
  by_cases h23 : w = ['c','l','o','s','e','d']
  · rw [if_pos h23]; exact fun hx => State.noConfusion hx
  rw [if_neg h23]
  by_cases h24 : w = ['o','f','f']
  · rw [if_pos h24]; exact fun hx => State.noConfusion hx
  rw [if_neg h24]
  by_cases h25 : w = ['u','n','k','n','o','w','n']
  · rw [if_pos h25]; exact fun hx => State.noConfusion hx
  rw [if_neg h25]
  by_cases h26 : w = ['w','e','e','k']
  · rw [if_pos h26]; first | trivial | decide
  rw [if_neg h26]
  by_cases h27 : w = ['d','a','y']
  · rw [if_pos h27]; first | trivial | decide
  rw [if_neg h27]
  by_cases h28 : w = ['d','a','y','s']
  · rw [if_pos h28]; first | trivial | decide
  rw [if_neg h28]
  by_cases h29 : w = ['e','a','s','t','e','r']
  · rw [if_pos h29]; first | trivial | decide
  rw [if_neg h29]
  by_cases h30 : w = ['s','u','n','r','i','s','e']
  · rw [if_pos h30]; first | trivial | decide
  rw [if_neg h30]
  by_cases h31 : w = ['s','u','n','s','e','t']
  · rw [if_pos h31]; first | trivial | decide
  rw [if_neg h31]
  by_cases h32 : w = ['d','a','w','n']
  · rw [if_pos h32]; first | trivial | decide
  rw [if_neg h32]
  by_cases h33 : w = ['d','u','s','k']
  · rw [if_pos h33]; first | trivial | decide
  rw [if_neg h33]
  trivial

theorem numToken_wf (ds rest : List Char) : TokWF (numToken ds rest).1 := by
  unfold numToken
  by_cases h : t247Cond ds rest = true
  · rw [if_pos h]
    trivial
  · rw [if_neg h]
    split
    · split
      · next hcond => exact ⟨hcond.2.2.2.1, hcond.2.2.2.2⟩
      · trivial
    · trivial

theorem nextToken_wf (c : Char) (cs : List Char) : TokWF (nextToken c cs).1 := by
  unfold nextToken
  by_cases h1 : isDigitC c = true
  · rw [if_pos h1]
    exact numToken_wf _ _
  · rw [if_neg h1]
    by_cases h2 : isAlphaC c = true
    · rw [if_pos h2]
      exact wordTok_wf _
    · rw [if_neg h2]
      by_cases h3 : c = '"'
      · rw [if_pos h3]
        unfold commentToken
        split
        · show ∀ ch ∈ cs.takeWhile (· != '"'), ch ≠ '"'
          intro ch hch
          have := mem_takeWhileP (· != '"') cs ch hch
          simpa using this
        · trivial
      · rw [if_neg h3]
        by_cases h4 : c = ','
        · rw [if_pos h4]
          split <;> trivial
        rw [if_neg h4]
        by_cases h5 : c = ';'
        · rw [if_pos h5]; trivial
        rw [if_neg h5]
        by_cases h6 : c = '|'
        · rw [if_pos h6]
          split <;> trivial
        rw [if_neg h6]
        by_cases h7 : c = '-'
        · rw [if_pos h7]; trivial
        rw [if_neg h7]
        by_cases h8 : c = '+'
        · rw [if_pos h8]; trivial
        rw [if_neg h8]
        by_cases h9 : c = '/'
        · rw [if_pos h9]; trivial
        rw [if_neg h9]
        by_cases h10 : c = ':'
        · rw [if_pos h10]; trivial
        rw [if_neg h10]
        by_cases h11 : c = '['
        · rw [if_pos h11]; trivial
        rw [if_neg h11]
        by_cases h12 : c = ']'
        · rw [if_pos h12]; trivial
        rw [if_neg h12]
        by_cases h13 : c = '('
        · rw [if_pos h13]; trivial
        rw [if_neg h13]
        by_cases h14 : c = ')'
        · rw [if_pos h14]; trivial
        rw [if_neg h14]
        trivial

theorem tokenizeAux_wf : ∀ (fuel : Nat) (cs : List Char),
    ToksWF (tokenizeAux fuel cs) := by
  intro fuel
  induction fuel with
  | zero => intro cs t ht; simp [tokenizeAux] at ht
  | succ f ih =>
    intro cs
    cases cs with
    | nil => intro t ht; simp [tokenizeAux] at ht
    | cons c cs' =>
      by_cases hc : c = ' '
      · subst hc
        rw [show tokenizeAux (f + 1) (' ' :: cs') = tokenizeAux f cs' by
          simp [tokenizeAux]]
        exact ih cs'
      · rw [show tokenizeAux (f + 1) (c :: cs')
            = (nextToken c cs').1 :: tokenizeAux f (nextToken c cs').2 by
          simp [tokenizeAux, hc]]
        intro t2 ht
        rcases List.mem_cons.1 ht with h | h
        · rw [h]
          exact nextToken_wf c cs'
        · exact ih _ t2 h

theorem tokenize_wf (s : String) : ToksWF (tokenize s) := tokenizeAux_wf _ _

/-! ### Well-formedness of parser output: time selectors -/

theorem parseTime_wf (toks : List Tok) (hw : ToksWF toks) (t : Time)
    (rest : List Tok) (h : parseTime toks = some (t, rest)) :
    TimeWF t ∧ ToksWF rest := by
  unfold parseTime at h
  split at h
  · next h1 m1 rs =>
    cases h
    exact ⟨hw _ (List.mem_cons_self _ _), toksWF_tail hw⟩
  · next e rs =>
    cases h
    refine ⟨?_, toksWF_tail hw⟩
    cases e <;> exact ⟨by decide, by decide⟩
  · cases h
    refine ⟨⟨by decide, by decide⟩, ?_⟩
    exact fun x hx => hw x (by simp [hx])
  · cases h
    refine ⟨⟨by decide, by decide⟩, ?_⟩
    exact fun x hx => hw x (by simp [hx])
  · exact Option.noConfusion h

theorem parseTimespan_wf (toks : List Tok) (hw : ToksWF toks) (ts : Timespan)
    (rest : List Tok) (h : parseTimespan toks = some (ts, rest)) :
    (∃ b e, ts = .mk b e none ∧ TimeWF b ∧ OptTimeWF e) ∧ ToksWF rest := by
  unfold parseTimespan at h
  split at h
  · exact Option.noConfusion h
  · next t rest1 heq =>
    obtain ⟨hwt, hw1⟩ := parseTime_wf toks hw t rest1 heq
    split at h
    · next rest2 =>
      split at h
      · next t2 rest3 heq2 =>
        obtain ⟨hwt2, hw3⟩ := parseTime_wf rest2 (toksWF_tail hw1) t2 rest3 heq2
        cases h
        exact ⟨⟨t, some t2, rfl, hwt, hwt2⟩, hw3⟩
      · exact Option.noConfusion h
    · next rest2 =>
      cases h
      exact ⟨⟨t, none, rfl, hwt, trivial⟩, toksWF_tail hw1⟩
    · cases h
      exact ⟨⟨t, some t, rfl, hwt, hwt⟩, hw1⟩

theorem tsWF_withNext (head : Timespan) (wf : TimespanWF head) (b2 : Time)
    (e2 : Option Time) (h2 : TimeWF b2) (h3 : OptTimeWF e2) :
    TimespanWF (head.withNext (some (.mk b2 e2 none))) := by
  match head, wf with
  | .mk b e none, wf => exact ⟨wf.1, wf.2, h2, h3⟩
  | .mk b e (some (.mk b' e' none)), wf => exact ⟨wf.1, wf.2.1, h2, h3⟩

theorem timeLoop_wf : ∀ (fuel : Nat) (head : Timespan) (toks : List Tok),
    ToksWF toks → TimespanWF head →
    ∀ res rest, parseTimeSelectorLoop fuel head toks = some (res, rest) →
    TimespanWF res ∧ ToksWF rest := by
  intro fuel
  induction fuel with
  | zero =>
    intro head toks _ _ res rest h
    simp [parseTimeSelectorLoop] at h
  | succ f ih =>
    intro head toks hw hwf res rest h
    unfold parseTimeSelectorLoop at h
    split at h
    · next rest2 =>
      split at h
      · split at h
        · next t2 rest3 heq =>
          obtain ⟨⟨b2, e2, hshape, hb2, he2⟩, hw3⟩ :=
            parseTimespan_wf rest2 (toksWF_tail hw) t2 rest3 heq
          subst hshape
          exact ih _ rest3 hw3 (tsWF_withNext head hwf b2 e2 hb2 he2) res rest h
        · exact Option.noConfusion h
      · cases h
        exact ⟨hwf, hw⟩
    · cases h
      exact ⟨hwf, hw⟩

theorem parseTimeSelector_wf (toks : List Tok) (hw : ToksWF toks)
    (ts : Timespan) (rest : List Tok)
    (h : parseTimeSelector toks = some (ts, rest)) :
    TimespanWF ts ∧ ToksWF rest := by
  unfold parseTimeSelector at h
  split at h
  · next t rest1 heq =>
    obtain ⟨⟨b, e, hshape, hb, he⟩, hw1⟩ := parseTimespan_wf toks hw t rest1 heq
    subst hshape
    exact timeLoop_wf (rest1.length + 1) (Timespan.mk b e none) rest1 hw1 ⟨hb, he⟩ ts rest h
  · exact Option.noConfusion h

/-! ### Well-formedness of parser output: weekday selectors -/

theorem wdKind_withNext (k : Bool) (head : WeekdayRange)
    (hk : WdKindChain k head) (b2 : Nat) (e2 : Option Nat) (m2 : Nat)
    (o2 : Int) (h2 : Holiday) (hn : WdNodeWF b2 e2 m2 o2 h2)
    (hh : isHol h2 = k) :
    WdKindChain k (head.withNext (some (.mk b2 e2 m2 o2 h2 none none))) := by
  match head, hk with
  | .mk b e m o h none none, hk => exact ⟨hk.1, hk.2, hn, hh⟩
  | .mk b e m o h (some (.mk b' e' m' o' h' none none)) none, hk =>
    exact ⟨hk.1, hk.2.1, hn, hh⟩

theorem wdChainWF_of_kind (k : Bool) (w : WeekdayRange)
    (h : WdKindChain k w) : WdChainWF w := by
  match w, h with
  | .mk b e m o hh none none, h => exact h.1
  | .mk b e m o hh (some (.mk b2 e2 m2 o2 h2 none none)) none, h =>
    exact ⟨h.1, h.2.2.1⟩

theorem wdChainWF_combine (k : Bool) (w : WeekdayRange)
    (hw : WdKindChain k w) (v : WeekdayRange) (hv : WdKindChain (!k) v) :
    WdChainWF (w.withNext (some v)) := by
  match w, hw with
  | .mk b e m o h none none, hw =>
    match v, hv with
    | .mk b2 e2 m2 o2 h2 none none, hv => exact ⟨hw.1, hv.1⟩
    | .mk b2 e2 m2 o2 h2 (some (.mk b3 e3 m3 o3 h3 none none)) none, hv =>
      refine ⟨hw.1, hv.1, hv.2.2.1, ?_, ?_⟩
      · rw [hw.2, hv.2.1]
        cases k <;> decide
      · rw [hv.2.1, hv.2.2.2]
  | .mk b e m o h (some (.mk b' e' m' o' h' none none)) none, hw =>
    match v, hv with
    | .mk b2 e2 m2 o2 h2 none none, hv => exact ⟨hw.1, hv.1⟩
    | .mk b2 e2 m2 o2 h2 (some (.mk b3 e3 m3 o3 h3 none none)) none, hv =>
      refine ⟨hw.1, hv.1, hv.2.2.1, ?_, ?_⟩
      · rw [hw.2.1, hv.2.1]
        cases k <;> decide
      · rw [hv.2.1, hv.2.2.2]

theorem parseWeekdayRange_wf (toks : List Tok) (hw : ToksWF toks)
    (w : WeekdayRange) (rest : List Tok)
    (h : parseWeekdayRange toks = some (w, rest)) :
    (∃ b e2, w = .mk b e2 0 0 .NoHoliday none none) ∧
    WdKindChain false w ∧ ToksWF rest := by
  unfold parseWeekdayRange at h
  split at h
  · next d d2 rs =>
    cases h
    have h1 : TokWF (.weekday d) := hw _ (by simp)
    have h2 : TokWF (.weekday d2) := hw _ (by simp)
    refine ⟨⟨d, some d2, rfl⟩, ⟨⟨h1, h2, rfl, rfl⟩, rfl⟩, ?_⟩
    exact fun x hx => hw x (by simp [hx])
  · cases h
    exact ⟨⟨_, none, rfl⟩,
      ⟨⟨hw _ (List.mem_cons_self _ _), trivial, rfl, rfl⟩, rfl⟩,
      toksWF_tail hw⟩
  · exact Option.noConfusion h

theorem parseHoliday_wf (toks : List Tok) (hw : ToksWF toks)
    (w : WeekdayRange) (rest : List Tok)
    (h : parseHoliday toks = some (w, rest)) :
    (∃ o hh, w = .mk 0 none 0 o hh none none) ∧
    WdKindChain true w ∧ ToksWF rest := by
  unfold parseHoliday at h
  split at h
  · next n rs =>
    cases h
    refine ⟨⟨_, _, rfl⟩, ⟨⟨rfl, rfl, rfl⟩, rfl⟩, ?_⟩
    exact fun x hx => hw x (by simp [hx])
  · next n rs =>
    cases h
    refine ⟨⟨_, _, rfl⟩, ⟨⟨rfl, rfl, rfl⟩, rfl⟩, ?_⟩
    exact fun x hx => hw x (by simp [hx])
  · cases h
    exact ⟨⟨_, _, rfl⟩, ⟨⟨rfl, rfl, rfl⟩, rfl⟩, toksWF_tail hw⟩
  · cases h
    exact ⟨⟨_, _, rfl⟩, ⟨⟨rfl, rfl, rfl, rfl⟩, rfl⟩, toksWF_tail hw⟩
  · exact Option.noConfusion h

theorem wdLoop_wf : ∀ (fuel : Nat) (head : WeekdayRange) (toks : List Tok),
    ToksWF toks → WdKindChain false head →
    ∀ res rest, parseWeekdaySequenceLoop fuel head toks = some (res, rest) →
    WdKindChain false res ∧ ToksWF rest := by
  intro fuel
  induction fuel with
  | zero =>
    intro head toks _ _ res rest h
    simp [parseWeekdaySequenceLoop] at h
  | succ f ih =>
    intro head toks hw hk res rest h
    unfold parseWeekdaySequenceLoop at h
    split at h
    · split at h
      · split at h
        · next w2 rest2 heq =>
          obtain ⟨⟨b2, e2, hsh⟩, hk2, hw2⟩ :=
            parseWeekdayRange_wf _ (toksWF_tail hw) w2 rest2 heq
          subst hsh
          exact ih _ rest2 hw2
            (wdKind_withNext false head hk b2 e2 0 0 .NoHoliday hk2.1 hk2.2) res rest h
        · exact Option.noConfusion h
      · cases h
        exact ⟨hk, hw⟩
    · cases h
      exact ⟨hk, hw⟩

theorem holLoop_wf : ∀ (fuel : Nat) (head : WeekdayRange) (toks : List Tok),
    ToksWF toks → WdKindChain true head →
    ∀ res rest, parseHolidaySequenceLoop fuel head toks = some (res, rest) →
    WdKindChain true res ∧ ToksWF rest := by
  intro fuel
  induction fuel with
  | zero =>
    intro head toks _ _ res rest h
    simp [parseHolidaySequenceLoop] at h
  | succ f ih =>
    intro head toks hw hk res rest h
    unfold parseHolidaySequenceLoop at h
    split at h
    · split at h
      · split at h
        · next w2 rest2 heq =>
          obtain ⟨⟨o2, hh2, hsh⟩, hk2, hw2⟩ :=
            parseHoliday_wf _ (toksWF_tail hw) w2 rest2 heq
          subst hsh
          exact ih _ rest2 hw2
            (wdKind_withNext true head hk 0 none 0 o2 hh2 hk2.1 hk2.2) res rest h
        · exact Option.noConfusion h
      · cases h
        exact ⟨hk, hw⟩
    · cases h
      exact ⟨hk, hw⟩

theorem parseWeekdaySequence_wf (toks : List Tok) (hw : ToksWF toks)
    (w : WeekdayRange) (rest : List Tok)
    (h : parseWeekdaySequence toks = some (w, rest)) :
    WdKindChain false w ∧ ToksWF rest := by
  unfold parseWeekdaySequence at h
  split at h
  · next w0 rest0 heq =>
    obtain ⟨hsh0, hk0, hw0⟩ := parseWeekdayRange_wf toks hw w0 rest0 heq
    exact wdLoop_wf _ w0 rest0 hw0 hk0 w rest h
  · exact Option.noConfusion h

theorem parseHolidaySequence_wf (toks : List Tok) (hw : ToksWF toks)
    (w : WeekdayRange) (rest : List Tok)
    (h : parseHolidaySequence toks = some (w, rest)) :
    WdKindChain true w ∧ ToksWF rest := by
  unfold parseHolidaySequence at h
  split at h
  · next w0 rest0 heq =>
    obtain ⟨hsh0, hk0, hw0⟩ := parseHoliday_wf toks hw w0 rest0 heq
    exact holLoop_wf _ w0 rest0 hw0 hk0 w rest h
  · exact Option.noConfusion h

theorem parseWeekdaySelector_wf (toks : List Tok) (hw : ToksWF toks)
    (w : WeekdayRange) (rest : List Tok)
    (h : parseWeekdaySelector toks = some (w, rest)) :
    WdChainWF w ∧ ToksWF rest := by
  unfold parseWeekdaySelector at h
  by_cases h1 : weekdayStartsL toks = true
  · rw [if_pos h1] at h
    split at h
    · exact Option.noConfusion h
    · next w0 rest0 heq =>
      obtain ⟨hk0, hw0⟩ := parseWeekdaySequence_wf toks hw w0 rest0 heq
      split at h
      · next rest2 =>
        split at h
        · split at h
          · next hh rest3 heq2 =>
            obtain ⟨hk2, hw3⟩ := parseHolidaySequence_wf rest2 (toksWF_tail hw0) hh rest3 heq2
            cases h
            exact ⟨wdChainWF_combine false _ hk0 _ hk2, hw3⟩
          · exact Option.noConfusion h
        · cases h
          exact ⟨wdChainWF_of_kind false _ hk0, hw0⟩
      · cases h
        exact ⟨wdChainWF_of_kind false _ hk0, hw0⟩
  · rw [if_neg h1] at h
    by_cases h2 : holidayStartsL toks = true
    · rw [if_pos h2] at h
      split at h
      · exact Option.noConfusion h
      · next w0 rest0 heq =>
        obtain ⟨hk0, hw0⟩ := parseHolidaySequence_wf toks hw w0 rest0 heq
        split at h
        · next rest2 =>
          split at h
          · split at h
            · next hh rest3 heq2 =>
              obtain ⟨hk2, hw3⟩ := parseWeekdaySequence_wf rest2 (toksWF_tail hw0) hh rest3 heq2
              cases h
              exact ⟨wdChainWF_combine true _ hk0 _ hk2, hw3⟩
            · exact Option.noConfusion h
          · cases h
            exact ⟨wdChainWF_of_kind true _ hk0, hw0⟩
        · cases h
          exact ⟨wdChainWF_of_kind true _ hk0, hw0⟩
    · rw [if_neg h2] at h
      exact Option.noConfusion h

/-! ### Well-formedness of parser output: week selectors -/

theorem weekChainWF_withNext (head : Week) (wf : WeekChainWF head) (b2 : Nat)
    (e2 i2 : Option Nat) (h2 : WeekNodeWF e2 i2) :
    WeekChainWF (head.withNext (some (.mk b2 e2 i2 none))) := by
  match head, wf with
  | .mk b e i none, wf => exact ⟨wf, h2⟩
  | .mk b e i (some (.mk b' e' i' none)), wf => exact ⟨wf.1, h2⟩

theorem parseWeek_wf (toks : List Tok) (hw : ToksWF toks) (w : Week)
    (rest : List Tok) (h : parseWeek toks = some (w, rest)) :
    (∃ b e2 i2, w = .mk b e2 i2 none ∧ WeekNodeWF e2 i2) ∧ ToksWF rest := by
  unfold parseWeek at h
  split at h
  · cases h
    refine ⟨⟨_, some _, some _, rfl, rfl⟩, ?_⟩
    exact fun x hx => hw x (by simp [hx])
  · cases h
    refine ⟨⟨_, some _, none, rfl, trivial⟩, ?_⟩
    exact fun x hx => hw x (by simp [hx])
  · cases h
    exact ⟨⟨_, none, none, rfl, trivial⟩, toksWF_tail hw⟩
  · exact Option.noConfusion h

theorem weekLoop_wf : ∀ (fuel : Nat) (head : Week) (toks : List Tok),
    ToksWF toks → WeekChainWF head →
    ∀ res rest, parseWeekSelectorLoop fuel head toks = some (res, rest) →
    WeekChainWF res ∧ ToksWF rest := by
  intro fuel
  induction fuel with
  | zero =>
    intro head toks _ _ res rest h
    simp [parseWeekSelectorLoop] at h
  | succ f ih =>
    intro head toks hw hk res rest h
    unfold parseWeekSelectorLoop at h
    split at h
    · split at h
      · split at h
        · next w2 rest2 heq =>
          obtain ⟨⟨b2, e2, i2, hsh, hn⟩, hw2⟩ :=
            parseWeek_wf _ (toksWF_tail hw) w2 rest2 heq
          subst hsh
          exact ih _ rest2 hw2 (weekChainWF_withNext head hk b2 e2 i2 hn) res rest h
        · exact Option.noConfusion h
      · cases h
        exact ⟨hk, hw⟩
    · cases h
      exact ⟨hk, hw⟩

theorem parseWeekSelector_wf (toks : List Tok) (hw : ToksWF toks) (w : Week)
    (rest : List Tok) (h : parseWeekSelector toks = some (w, rest)) :
    WeekChainWF w ∧ ToksWF rest := by
  unfold parseWeekSelector at h
  split at h
  · next rest1 =>
    split at h
    · next w0 rest2 heq =>
      obtain ⟨⟨b0, e0, i0, hsh, hn⟩, hw2⟩ :=
        parseWeek_wf _ (toksWF_tail hw) w0 rest2 heq
      subst hsh
      exact weekLoop_wf _ (Week.mk b0 e0 i0 none) rest2 hw2 hn w rest h
    · exact Option.noConfusion h
  · exact Option.noConfusion h

/-! ### Well-formedness of parser output: monthday selectors -/

theorem dateEndWF_of_begin (d : Date) (h : DateBeginWF d) : DateEndWF d := by
  rcases d with ⟨y, mo, da, vd⟩
  cases vd
  · exact Or.inl h
  · exact h

theorem mdChainWF_withNext (head : MonthdayRange) (wf : MdChainWF head)
    (b2 : Date) (e2 : Option Date) (hb : DateBeginWF b2)
    (he : OptDateEndWF e2) :
    MdChainWF (head.withNext (some (.mk b2 e2 none))) := by
  match head, wf with
  | .mk b e none, wf => exact ⟨wf.1, wf.2, hb, he⟩
  | .mk b e (some (.mk b' e' none)), wf => exact ⟨wf.1, wf.2.1, hb, he⟩

theorem parseDateFrom_wf (toks : List Tok) (hw : ToksWF toks) (d : Date)
    (rest : List Tok) (h : parseDateFrom toks = some (d, rest)) :
    DateBeginWF d ∧ ToksWF rest := by
  unfold parseDateFrom at h
  split at h
  · cases h
    exact ⟨hw (Tok.month _) (by simp), fun x hx => hw x (by simp [hx])⟩
  · cases h
    exact ⟨hw (Tok.month _) (by simp), fun x hx => hw x (by simp [hx])⟩
  · cases h
    exact ⟨⟨rfl, rfl⟩, fun x hx => hw x (by simp [hx])⟩
  · cases h
    exact ⟨⟨rfl, rfl⟩, toksWF_tail hw⟩
  · exact Option.noConfusion h

theorem parseDateTo_wf (toks : List Tok) (hw : ToksWF toks) (d : Date)
    (rest : List Tok) (h : parseDateTo toks = some (d, rest)) :
    DateEndWF d ∧ ToksWF rest := by
  unfold parseDateTo at h
  split at h
  · next r heq =>
    cases h
    obtain ⟨hb, hwr⟩ := parseDateFrom_wf toks hw d rest heq
    exact ⟨dateEndWF_of_begin d hb, hwr⟩
  · split at h
    · cases h
      exact ⟨Or.inr ⟨rfl, rfl⟩, toksWF_tail hw⟩
    · exact Option.noConfusion h

theorem parseDateOffset_wf (toks : List Tok) (hw : ToksWF toks)
    (rest : List Tok) (h : parseDateOffset toks = some rest) :
    ToksWF rest := by
  unfold parseDateOffset at h
  split at h
  · cases h
    exact fun x hx => hw x (by simp [hx])
  · cases h
    exact fun x hx => hw x (by simp [hx])
  · cases h
    exact fun x hx => hw x (by simp [hx])
  · cases h
    exact fun x hx => hw x (by simp [hx])
  · exact Option.noConfusion h

theorem parseMonthdayRange_wf (toks : List Tok) (hw : ToksWF toks)
    (m : MonthdayRange) (rest : List Tok)
    (h : parseMonthdayRange toks = some (m, rest)) :
    (∃ b e2, m = .mk b e2 none ∧ DateBeginWF b ∧ OptDateEndWF e2) ∧
    ToksWF rest := by
  unfold parseMonthdayRange at h
  split at h
  · next d rest1 heq =>
    obtain ⟨hb, hw1⟩ := parseDateFrom_wf toks hw d rest1 heq
    split at h
    · next rest2 heq2 =>
      cases h
      exact ⟨⟨d, none, rfl, hb, trivial⟩, parseDateOffset_wf rest1 hw1 _ heq2⟩
    · next hoff =>
      split at h
      · next rest2 =>
        split at h
        · next d2 rest3 heq3 =>
          obtain ⟨he, hw3⟩ := parseDateTo_wf rest2 (toksWF_tail hw1) d2 rest3 heq3
          cases h
          exact ⟨⟨d, some d2, rfl, hb, he⟩, hw3⟩
        · exact Option.noConfusion h
      · cases h
        exact ⟨⟨d, none, rfl, hb, trivial⟩, hw1⟩
  · split at h
    · cases h
      refine ⟨⟨_, none, rfl, hw (Tok.month _) (by simp), trivial⟩, toksWF_tail hw⟩
    · exact Option.noConfusion h

theorem mdLoop_wf : ∀ (fuel : Nat) (head : MonthdayRange) (toks : List Tok),
    ToksWF toks → MdChainWF head →
    ∀ res rest, parseMonthdaySelectorLoop fuel head toks = some (res, rest) →
    MdChainWF res ∧ ToksWF rest := by
  intro fuel
  induction fuel with
  | zero =>
    intro head toks _ _ res rest h
    simp [parseMonthdaySelectorLoop] at h
  | succ f ih =>
    intro head toks hw hk res rest h
    unfold parseMonthdaySelectorLoop at h
    split at h
    · split at h
      · split at h
        · next m2 rest2 heq =>
          obtain ⟨⟨b2, e2, hsh, hb, he⟩, hw2⟩ :=
            parseMonthdayRange_wf _ (toksWF_tail hw) m2 rest2 heq
          subst hsh
          exact ih _ rest2 hw2 (mdChainWF_withNext head hk b2 e2 hb he) res rest h
        · exact Option.noConfusion h
      · cases h
        exact ⟨hk, hw⟩
    · cases h
      exact ⟨hk, hw⟩

theorem parseMonthdaySelector_wf (toks : List Tok) (hw : ToksWF toks)
    (m : MonthdayRange) (rest : List Tok)
    (h : parseMonthdaySelector toks = some (m, rest)) :
    MdChainWF m ∧ ToksWF rest := by
  unfold parseMonthdaySelector at h
  split at h
  · next m0 rest0 heq =>
    obtain ⟨⟨b0, e0, hsh, hb, he⟩, hw0⟩ :=
      parseMonthdayRange_wf toks hw m0 rest0 heq
    subst hsh
    exact mdLoop_wf _ (MonthdayRange.mk b0 e0 none) rest0 hw0 ⟨hb, he⟩ m rest h
  · exact Option.noConfusion h

/-! ### Well-formedness of parser output: selector sequences and rules -/

theorem parseSmallRange_wf (toks : List Tok) (hw : ToksWF toks) (s : Selectors)
    (rest : List Tok) (h : parseSmallRange toks = some (s, rest)) :
    SelsWF s ∧ ToksWF rest := by
  unfold parseSmallRange at h
  split at h
  · split at h
    · exact Option.noConfusion h
    · next w rest1 heq =>
      obtain ⟨hwd, hw1⟩ := parseWeekdaySelector_wf toks hw w rest1 heq
      split at h
      · split at h
        · exact Option.noConfusion h
        · next t rest2 heq2 =>
          obtain ⟨ht, hw2⟩ := parseTimeSelector_wf rest1 hw1 t rest2 heq2
          cases h
          exact ⟨⟨ht, hwd, trivial, trivial⟩, hw2⟩
      · cases h
        exact ⟨⟨trivial, hwd, trivial, trivial⟩, hw1⟩
  · split at h
    · split at h
      · exact Option.noConfusion h
      · next t rest1 heq =>
        obtain ⟨ht, hw1⟩ := parseTimeSelector_wf toks hw t rest1 heq
        cases h
        exact ⟨⟨ht, trivial, trivial, trivial⟩, hw1⟩
    · exact Option.noConfusion h

theorem parseWideRange_wf (toks : List Tok) (hw : ToksWF toks) (s : Selectors)
    (rest : List Tok) (h : parseWideRange toks = some (s, rest)) :
    SelsWF s ∧ ToksWF rest := by
  unfold parseWideRange at h
  split at h
  · cases h
    exact ⟨⟨trivial, trivial, trivial, trivial⟩, fun x hx => hw x (by simp [hx])⟩
  · dsimp only at h
    split at h
    · next hy =>
      have hw1 : ToksWF toks.tail := fun x hx => hw x (List.mem_of_mem_tail hx)
      split at h
      · split at h
        · exact Option.noConfusion h
        · next md t2 heq =>
          obtain ⟨hmd, hw2⟩ := parseMonthdaySelector_wf toks.tail hw1 md t2 heq
          split at h
          · split at h
            · exact Option.noConfusion h
            · next w t3 heq2 =>
              obtain ⟨hwk, hw3⟩ := parseWeekSelector_wf t2 hw2 w t3 heq2
              cases h
              exact ⟨⟨trivial, trivial, hwk, hmd⟩, hw3⟩
          · cases h
            exact ⟨⟨trivial, trivial, trivial, hmd⟩, hw2⟩
      · split at h
        · split at h
          · exact Option.noConfusion h
          · next w t2 heq =>
            obtain ⟨hwk, hw2⟩ := parseWeekSelector_wf toks.tail hw1 w t2 heq
            cases h
            exact ⟨⟨trivial, trivial, hwk, trivial⟩, hw2⟩
        · cases h
          exact ⟨⟨trivial, trivial, trivial, trivial⟩, hw1⟩
    · next hy =>
      split at h
      · split at h
        · exact Option.noConfusion h
        · next md t2 heq =>
          obtain ⟨hmd, hw2⟩ := parseMonthdaySelector_wf toks hw md t2 heq
          split at h
          · split at h
            · exact Option.noConfusion h
            · next w t3 heq2 =>
              obtain ⟨hwk, hw3⟩ := parseWeekSelector_wf t2 hw2 w t3 heq2
              cases h
              exact ⟨⟨trivial, trivial, hwk, hmd⟩, hw3⟩
          · cases h
            exact ⟨⟨trivial, trivial, trivial, hmd⟩, hw2⟩
      · split at h
        · split at h
          · exact Option.noConfusion h
          · next w t2 heq =>
            obtain ⟨hwk, hw2⟩ := parseWeekSelector_wf toks hw w t2 heq
            cases h
            exact ⟨⟨trivial, trivial, hwk, trivial⟩, hw2⟩
        · exact Option.noConfusion h

theorem parseSelectorSequence_wf (toks : List Tok) (hw : ToksWF toks)
    (s : Selectors) (rest : List Tok)
    (h : parseSelectorSequence toks = some (s, rest)) :
    SelsWF s ∧ ToksWF rest := by
  unfold parseSelectorSequence at h
  split at h
  · cases h
    exact ⟨⟨trivial, trivial, trivial, trivial⟩, toksWF_tail hw⟩
  · split at h
    · exact parseSmallRange_wf toks hw s rest h
    · split at h
      · exact Option.noConfusion h
      · next w0 rest1 heq =>
        obtain ⟨hwide, hw1⟩ := parseWideRange_wf toks hw w0 rest1 heq
        split at h
        · split at h
          · exact Option.noConfusion h
          · next s2 rest2 heq2 =>
            obtain ⟨hsm, hw2⟩ := parseSmallRange_wf rest1 hw1 s2 rest2 heq2
            cases h
            exact ⟨⟨hsm.1, hsm.2.1, hwide.2.2.1, hwide.2.2.2⟩, hw2⟩
        · cases h
          exact ⟨hwide, hw1⟩

theorem parseRule_wf (toks : List Tok) (hw : ToksWF toks) (r : Rule)
    (rest : List Tok) (h : parseRule toks = some (r, rest)) :
    RuleWF r ∧ ToksWF rest := by
  unfold parseRule at h
  split at h
  · exact Option.noConfusion h
  · next sels rest1 heq =>
    obtain ⟨hs, hw1⟩ := parseSelectorSequence_wf toks hw sels rest1 heq
    rcases rest1 with _ | ⟨t, rs⟩
    · dsimp only at h
      cases h
      exact ⟨⟨hs.1, hs.2.1, hs.2.2.1, hs.2.2.2,
        fun hx => State.noConfusion hx, trivial⟩,
        fun x hx => absurd hx (List.not_mem_nil x)⟩
    · cases t
      case state st =>
        dsimp only at h
        rcases rs with _ | ⟨t2, rs2⟩
        · dsimp only at h
          cases h
          exact ⟨⟨hs.1, hs.2.1, hs.2.2.1, hs.2.2.2,
            hw1 (Tok.state st) (List.mem_cons_self _ _), trivial⟩,
            fun x hx => absurd hx (List.not_mem_nil x)⟩
        · cases t2
          case comment c =>
            dsimp only at h
            cases h
            refine ⟨⟨hs.1, hs.2.1, hs.2.2.1, hs.2.2.2,
              hw1 (Tok.state st) (List.mem_cons_self _ _),
              hw1 (Tok.comment c) (by simp)⟩, ?_⟩
            exact fun x hx => hw1 x (by simp [hx])
          all_goals
            dsimp only at h
            cases h
            exact ⟨⟨hs.1, hs.2.1, hs.2.2.1, hs.2.2.2,
              hw1 (Tok.state st) (List.mem_cons_self _ _), trivial⟩,
              toksWF_tail hw1⟩
      case comment c =>
        dsimp only at h
        cases h
        exact ⟨⟨hs.1, hs.2.1, hs.2.2.1, hs.2.2.2,
          fun hx => State.noConfusion hx,
          hw1 (Tok.comment c) (List.mem_cons_self _ _)⟩, toksWF_tail hw1⟩
      all_goals
        dsimp only at h
        cases h
        exact ⟨⟨hs.1, hs.2.1, hs.2.2.1, hs.2.2.2,
          fun hx => State.noConfusion hx, trivial⟩, hw1⟩

theorem rulesetLoop_wf : ∀ (fuel : Nat) (acc : List Rule) (toks : List Tok),
    ToksWF toks → RulesWF acc →
    ∀ res, parseRulesetLoop fuel acc toks = some res → RulesWF res := by
  intro fuel
  induction fuel with
  | zero => intro acc toks _ _ res h; simp [parseRulesetLoop] at h
  | succ f ih =>
    intro acc toks hw hacc res h
    unfold parseRulesetLoop at h
    split at h
    · cases h
      exact hacc
    · next rest =>
      split at h
      · next r rest2 heq =>
        obtain ⟨hr, hw2⟩ := parseRule_wf rest (toksWF_tail hw) r rest2 heq
        refine ih (acc ++ [r]) rest2 hw2 ?_ res h
        intro x hx
        rcases List.mem_append.1 hx with hx | hx
        · exact hacc x hx
        · rw [List.mem_singleton.1 hx]
          exact hr
      · exact Option.noConfusion h
    · next rest =>
      split at h
      · next r rest2 heq =>
        obtain ⟨hr, hw2⟩ := parseRule_wf rest (toksWF_tail hw) r rest2 heq
        refine ih (acc ++ [r]) rest2 hw2 ?_ res h
        intro x hx
        rcases List.mem_append.1 hx with hx | hx
        · exact hacc x hx
        · rw [List.mem_singleton.1 hx]
          exact hr
      · exact Option.noConfusion h
    · next c rest2 =>
      exact ih acc rest2 (fun x hx => hw x (by simp [hx])) hacc res h
    · exact Option.noConfusion h

theorem rulesetLoop_ne : ∀ (fuel : Nat) (acc : List Rule) (toks : List Tok)
    (res : List Rule), parseRulesetLoop fuel acc toks = some res →
    acc ≠ [] → res ≠ [] := by
  intro fuel
  induction fuel with
  | zero => intro acc toks res h; simp [parseRulesetLoop] at h
  | succ f ih =>
    intro acc toks res h hne
    unfold parseRulesetLoop at h
    split at h
    · cases h
      exact hne
    · split at h
      · next r rest2 heq => exact ih _ rest2 res h (by simp)
      · exact Option.noConfusion h
    · split at h
      · next r rest2 heq => exact ih _ rest2 res h (by simp)
      · exact Option.noConfusion h
    · exact ih _ _ res h hne
    · exact Option.noConfusion h

theorem parseRuleset_wf (toks : List Tok) (hw : ToksWF toks)
    (rules : List Rule) (h : parseRuleset toks = some rules) :
    RulesWF rules ∧ rules ≠ [] := by
  unfold parseRuleset at h
  split at h
  · next r rest heq =>
    obtain ⟨hr, hw1⟩ := parseRule_wf toks hw r rest heq
    constructor
    · refine rulesetLoop_wf _ [r] rest hw1 ?_ rules h
      intro x hx
      rw [List.mem_singleton.1 hx]
      exact hr
    · exact rulesetLoop_ne _ [r] rest rules h (by simp)
  · exact Option.noConfusion h

/-! ### Normalization idempotence (claim C3) -/

/-- C3: normalization is idempotent — for every input string s whose parse
has no SyntaxError, normalizing the normalized form returns the normalized
form unchanged, normalize (normalize s) = normalize s. -/
theorem c3_normalize_idempotent (s : String)
    (h : (parse s).m_error ≠ Error.SyntaxError) :
    normalize (normalize s) = normalize s := by
  rcases hp : parseRuleset (tokenize s) with _ | rules
  · exfalso
    apply h
    have hps : parse s = { m_rules := [], m_error := .SyntaxError } := by
      unfold parse
      rw [hp]
    rw [hps]
  · obtain ⟨hwf, hne⟩ := parseRuleset_wf (tokenize s) (tokenize_wf s) rules hp
    have hps : parse s = { m_rules := rules, m_error := validate rules } := by
      unfold parse
      rw [hp]
    have hn1 : normalize s = String.mk (serializeRules rules) := by
      unfold normalize OpeningHours.normalizedExpression
      rw [hps]
    have htok : tokenize (normalize s) = rulesToks rules := by
      rw [hn1]
      exact tokenize_serializeRules rules hwf
    have hp2 : parseRuleset (tokenize (normalize s)) = some rules := by
      rw [htok]
      exact parseRuleset_toks rules hwf hne
    have hps2 : parse (normalize s) = { m_rules := rules, m_error := validate rules } := by
      unfold parse
      rw [hp2]
    have hn2 : normalize (normalize s) = String.mk (serializeRules rules) := by
      rw [show normalize (normalize s)
          = String.mk (serializeRules (parse (normalize s)).m_rules) from rfl, hps2]
    rw [hn2, hn1]

/-- Witness for C3 at the concrete accepted input `24/7`. -/
theorem c3_normalize_idempotent_witness :
    (parse "24/7").m_error ≠ Error.SyntaxError ∧
    normalize (normalize "24/7") = normalize "24/7" :=
  ⟨by decide, c3_normalize_idempotent "24/7" (by decide)⟩

/-- The validator can only report capability errors, never SyntaxError; this
is what makes the parser's SyntaxError the first and final error. -/
theorem validate_not_syntax_error (rules : List Rule) : validate rules ≠ Error.SyntaxError := by
  intro h
  unfold validate at h
  repeat' split at h
  all_goals simp at h

/-- Claim C1: parse(text) never throws for any input string (it is a total
function into Expression values); the single per-Expression error code is
assigned first-wins across stages: the grammar rejecting the input stores
SyntaxError (with an empty rule list) and no later stage can replace it,
otherwise the validator's verdict is stored and is never SyntaxError. -/
theorem c1_parse_total_first_error_wins (s : String) :
    ((parse s).m_error = Error.SyntaxError ↔ parseRuleset (tokenize s) = none) ∧
    (parseRuleset (tokenize s) = none → (parse s).m_rules = []) ∧
    (∀ rules, parseRuleset (tokenize s) = some rules →
      (parse s).m_rules = rules ∧ (parse s).m_error = validate rules ∧
      validate rules ≠ Error.SyntaxError) := by
  cases h : parseRuleset (tokenize s) with
  | none =>
    simp only [parse, h]
    refine ⟨by simp, by simp, ?_⟩
    intro rules hr
    simp at hr
  | some rules =>
    simp only [parse, h]
    refine ⟨by simp [validate_not_syntax_error rules], by simp, ?_⟩
    intro rules2 hr
    cases hr
    exact ⟨rfl, rfl, validate_not_syntax_error _⟩

/-- Witness for C1 at the concrete inputs `23/7` (grammar rejection) and
`24/7` (acceptance with the validator's verdict stored). -/
theorem c1_parse_total_first_error_wins_witness :
    (parse "23/7").m_error = Error.SyntaxError ∧ (parse "23/7").m_rules = [] ∧
    (parse "24/7").m_rules = [{}] ∧ (parse "24/7").m_error = validate [{}] ∧
    validate [{}] ≠ Error.SyntaxError :=
  have h1 := c1_parse_total_first_error_wins "23/7"
  have h2 := c1_parse_total_first_error_wins "24/7"
  ⟨h1.1.mpr rfl, h1.2.1 rfl, (h2.2.2 [{}] rfl).1, (h2.2.2 [{}] rfl).2.1,
    (h2.2.2 [{}] rfl).2.2⟩

/-- Claim C2: the negative scenarios `23/7`, `2020-2000`, `Su[0]`, `49:00`
and `Mo[6]` all surface SyntaxError; `SH off` is accepted by the grammar and
surfaces UnsupportedFeature from validation. -/
theorem c2_negative_scenarios :
    (parse "23/7").m_error = Error.SyntaxError ∧
    (parse "2020-2000").m_error = Error.SyntaxError ∧
    (parse "Su[0]").m_error = Error.SyntaxError ∧
    (parse "49:00").m_error = Error.SyntaxError ∧
    (parse "Mo[6]").m_error = Error.SyntaxError ∧
    (parseRuleset (tokenize "SH off")).isSome = true ∧
    (parse "SH off").m_error = Error.UnsupportedFeature := by
  refine ⟨rfl, rfl, rfl, rfl, rfl, rfl, rfl⟩

/-- Claim C4 (the code disagrees): after the fallback separator `||` the
grammar's stub production accepts only a comment token and appends nothing
(`/* TODO */`), so `PH off || open` is rejected with SyntaxError and an
empty rule list — not accepted with two rules — and even the accepted
`PH off || "x"` yields a single rule. -/
theorem c4_fallback_rule_not_accepted :
    (parse "PH off || open").m_error = Error.SyntaxError ∧
    (parse "PH off || open").m_rules.length = 0 ∧
    (parseRuleset (tokenize "PH off || \"x\"")).isSome = true ∧
    (parse "PH off || \"x\"").m_rules.length = 1 := by
  refine ⟨rfl, rfl, rfl, rfl⟩

/-- Claim C5 (the code disagrees): Timespan::nextInterval places both begin
and end on the interval's begin day.  For the timespan 18:00-06:00 (end may
be at most the begin, so the spec requires a wrap into the following day)
applied to day 18573, the produced end lies on day 18573 at 06:00 — before
the produced begin, not on day 18574. -/
theorem c5_no_day_wrap :
    (Timespan.nextInterval (.mk ⟨.NoEvent, 18, 0⟩ (some ⟨.NoEvent, 6, 0⟩) none)
        (Interval.setBegin {} (some ⟨18573, 0, 0⟩))).begin = some ⟨18573, 18, 0⟩ ∧
    (Timespan.nextInterval (.mk ⟨.NoEvent, 18, 0⟩ (some ⟨.NoEvent, 6, 0⟩) none)
        (Interval.setBegin {} (some ⟨18573, 0, 0⟩))).end_ = some ⟨18573, 6, 0⟩ ∧
    (Timespan.nextInterval (.mk ⟨.NoEvent, 18, 0⟩ (some ⟨.NoEvent, 6, 0⟩) none)
        (Interval.setBegin {} (some ⟨18573, 0, 0⟩))).end_ ≠ some ⟨18574, 6, 0⟩ := by
  refine ⟨rfl, rfl, by decide⟩

/-- Capability characterisation of a timespan chain: Location exactly when
some element uses a sun event, None otherwise. -/
theorem tsCaps_char : ∀ ts : Timespan,
    ts.requiredCapabilities = if ts.usesEvent then capLocation else capNone
  | .mk b e none => by
    simp only [Timespan.requiredCapabilities, Timespan.usesEvent]
    by_cases hb : b.event = .NoEvent <;> by_cases he : optEvent e = .NoEvent <;>
      simp [hb, he]
  | .mk b e (some n) => by
    simp only [Timespan.requiredCapabilities, Timespan.usesEvent]
    rw [tsCaps_char n]
    by_cases hb : b.event = .NoEvent <;> by_cases he : optEvent e = .NoEvent <;>
      simp [hb, he]

/-- The bitwise union of the holiday capabilities of a list of elements. -/
def capsOfVisited : List Holiday → Nat
  | [] => capNone
  | h :: l => holidayCap h ||| capsOfVisited l

theorem capsOfVisited_append (l1 l2 : List Holiday) :
    capsOfVisited (l1 ++ l2) = capsOfVisited l1 ||| capsOfVisited l2 := by
  induction l1 with
  | nil => simp [capsOfVisited, capNone]
  | cons h l ih => simp [capsOfVisited, ih, Nat.or_assoc]

/-- Capability characterisation of a weekday chain: the union of the
holiday capabilities of the *visited* elements only (the traversal stops at
a holiday element, so its tail contributes nothing). -/
theorem wdCaps_char : ∀ w : WeekdayRange,
    w.requiredCapabilities = capsOfVisited w.visited
  | .mk _ _ _ _ .PublicHoliday nx n2 => by
    cases nx <;> cases n2 <;>
      simp [WeekdayRange.requiredCapabilities, WeekdayRange.visited, capsOfVisited,
        holidayCap, capNone]
  | .mk _ _ _ _ .SchoolHoliday nx n2 => by
    cases nx <;> cases n2 <;>
      simp [WeekdayRange.requiredCapabilities, WeekdayRange.visited, capsOfVisited,
        holidayCap, capNone]
  | .mk _ _ _ _ .NoHoliday none none => by
    simp [WeekdayRange.requiredCapabilities, WeekdayRange.visited, capsOfVisited,
      holidayCap, capNone]
  | .mk _ _ _ _ .NoHoliday (some n) none => by
    rw [show (WeekdayRange.mk _ _ _ _ .NoHoliday (some n) none).requiredCapabilities
        = n.requiredCapabilities ||| capNone from rfl]
    rw [wdCaps_char n]
    simp [WeekdayRange.visited, capsOfVisited, holidayCap, capNone]
  | .mk _ _ _ _ .NoHoliday none (some n2) => by
    rw [show (WeekdayRange.mk _ _ _ _ .NoHoliday none (some n2)).requiredCapabilities
        = capNone ||| n2.requiredCapabilities from rfl]
    rw [wdCaps_char n2]
    simp [WeekdayRange.visited, capsOfVisited, holidayCap, capNone]
  | .mk _ _ _ _ .NoHoliday (some n) (some n2) => by
    rw [show (WeekdayRange.mk _ _ _ _ .NoHoliday (some n) (some n2)).requiredCapabilities
        = n.requiredCapabilities ||| n2.requiredCapabilities from rfl]
    rw [wdCaps_char n, wdCaps_char n2]
    rw [show (WeekdayRange.mk _ _ _ _ .NoHoliday (some n) (some n2)).visited
        = .NoHoliday :: (n.visited ++ n2.visited) from rfl]
    rw [show capsOfVisited (.NoHoliday :: (n.visited ++ n2.visited))
        = holidayCap .NoHoliday ||| capsOfVisited (n.visited ++ n2.visited) from rfl]
    rw [capsOfVisited_append]
    simp [holidayCap, capNone]

/-- Claim C6 (amended): Rule::requiredCapabilities is the union of the
time-selector and weekday-selector folds; a timespan chain contributes
Location exactly when some element uses a sun event; a weekday chain
contributes the union of the holiday capabilities of its visited elements,
where the traversal recurses only through NoHoliday elements — a holiday
element contributes its own capability and cuts off its tail. -/
theorem c6_requiredCapabilities_characterisation :
    (∀ r : Rule, r.requiredCapabilities =
      (match r.m_timeSelector with
       | some t => if t.usesEvent then capLocation else capNone
       | none => capNone) |||
      (match r.m_weekdaySelector with
       | some w => capsOfVisited w.visited
       | none => capNone)) ∧
    (∀ ts : Timespan,
      ts.requiredCapabilities = if ts.usesEvent then capLocation else capNone) ∧
    (∀ w : WeekdayRange, w.requiredCapabilities = capsOfVisited w.visited) := by
  refine ⟨?_, tsCaps_char, wdCaps_char⟩
  intro r
  obtain ⟨cm, st, tsel, wdsel, wksel, mdsel⟩ := r
  unfold Rule.requiredCapabilities
  cases tsel <;> cases wdsel <;> simp [tsCaps_char, wdCaps_char]

/-- Claim C6, counterexample to the claim as stated: the expression `PH,SH`
parses to a single rule whose weekday chain references SH, yet its
required-capability mask is exactly PublicHoliday — the SchoolHoliday bit is
missing, because the fold stops at the PH element. -/
theorem c6_ph_sh_counterexample :
    ((parse "PH,SH").m_rules.map Rule.requiredCapabilities = [capPublicHoliday]) ∧
    ((parse "PH,SH").m_rules.map
        (fun r => (r.m_weekdaySelector.map WeekdayRange.mentionsSH)) = [some true]) ∧
    capPublicHoliday &&& capSchoolHoliday = 0 := by
  refine ⟨rfl, rfl, rfl⟩

/-- Claim C7: a rule built without an explicit state token has state Open;
an explicit state token overrides it; evaluation of a matching single-rule
expression yields the rule's state (hence Open for the default), and an
instant matched by no rule evaluates to Closed. -/
theorem c7_default_state :
    (∀ sels cm, (buildRule sels none cm).m_state = State.Open) ∧
    (∀ sels st cm, (buildRule sels (some st) cm).m_state = st) ∧
    (∀ ctx rules t, (∀ r ∈ rules, matchesRule ctx r t = false) →
      stateAt ctx rules t = State.Closed) ∧
    (∀ ctx r t, matchesRule ctx r t = true → stateAt ctx [r] t = r.m_state) := by
  refine ⟨fun _ _ => rfl, fun _ _ _ => rfl, ?_, ?_⟩
  · intro ctx rules t h
    have aux : ∀ (l : List Rule) (st : State), (∀ r ∈ l, matchesRule ctx r t = false) →
        l.foldl (fun st r => if matchesRule ctx r t then r.m_state else st) st = st := by
      intro l
      induction l with
      | nil => intro st _; rfl
      | cons r l ih =>
        intro st hall
        rw [List.foldl_cons, hall r (by simp)]
        exact ih st (fun x hx => hall x (by simp [hx]))
    exact aux rules State.Closed h
  · intro ctx r t h
    simp [stateAt, h]

/-- The evaluation context used by the C7 witness: day-of-week is always
Tuesday (1), there are no holidays. -/
def witnessCtx : EvalContext :=
  ⟨fun _ => false, fun _ => 1, fun _ => 1, fun _ => 1, fun _ => 1, fun _ => 2020,
    fun _ => 4, fun _ => 12, fun _ _ => 0⟩

/-- The `Mo-Fr 10:00-20:00` rule (no explicit state) used by the C7 witness. -/
def witnessRule : Rule :=
  buildRule
    { timeSelector := some (.mk ⟨.NoEvent, 10, 0⟩ (some ⟨.NoEvent, 20, 0⟩) none)
      weekdaySelector := some (.mk 0 (some 4) 0 0 .NoHoliday none none) }
    none none

/-- Witness for C7: the selector-only rule has state Open; at Tuesday 14:00
it matches and the expression evaluates Open; at Tuesday 21:00 it does not
match and the expression evaluates Closed; with an explicit `off` the state
is Closed. -/
theorem c7_default_state_witness :
    witnessRule.m_state = State.Open ∧
    stateAt witnessCtx [witnessRule] ⟨0, 14, 0⟩ = State.Open ∧
    stateAt witnessCtx [witnessRule] ⟨0, 21, 0⟩ = State.Closed ∧
    (buildRule {} (some State.Closed) none).m_state = State.Closed := by
  have h := c7_default_state
  refine ⟨h.1 _ _, ?_, ?_, h.2.1 _ _ _⟩
  · have := h.2.2.2 witnessCtx witnessRule ⟨0, 14, 0⟩ (by decide)
    rw [this]
    exact h.1 _ _
  · exact h.2.2.1 witnessCtx [witnessRule] ⟨0, 21, 0⟩ (by decide)

/-- Claim C8: with both bounds set, containment is half-open: contains(dt)
iff begin ≤ dt < end; the begin instant is contained (when the interval is
nonempty) and the end instant never is. -/
theorem c8_contains_half_open (i : Interval) (b e dt : DateTime)
    (hb : i.begin = some b) (he : i.end_ = some e) :
    (i.contains dt = true ↔ (b.toMin ≤ dt.toMin ∧ dt.toMin < e.toMin)) ∧
    (b.toMin < e.toMin → i.contains b = true) ∧
    i.contains e = false := by
  refine ⟨?_, ?_, ?_⟩
  · unfold Interval.contains
    rw [hb, he]
    simp
  · intro hlt
    unfold Interval.contains
    rw [hb, he]
    simp [hlt]
  · unfold Interval.contains
    rw [hb, he]
    simp

/-- Witness for C8 on the concrete interval [day 0 10:00, day 0 12:00). -/
theorem c8_contains_half_open_witness :
    (Interval.contains ⟨.Open, some ⟨0, 10, 0⟩, some ⟨0, 12, 0⟩, ""⟩ ⟨0, 11, 0⟩ = true ↔
      (DateTime.toMin ⟨0, 10, 0⟩ ≤ DateTime.toMin ⟨0, 11, 0⟩ ∧
       DateTime.toMin ⟨0, 11, 0⟩ < DateTime.toMin ⟨0, 12, 0⟩)) ∧
    (DateTime.toMin ⟨0, 10, 0⟩ < DateTime.toMin ⟨0, 12, 0⟩ →
      Interval.contains ⟨.Open, some ⟨0, 10, 0⟩, some ⟨0, 12, 0⟩, ""⟩ ⟨0, 10, 0⟩ = true) ∧
    Interval.contains ⟨.Open, some ⟨0, 10, 0⟩, some ⟨0, 12, 0⟩, ""⟩ ⟨0, 12, 0⟩ = false :=
  c8_contains_half_open ⟨.Open, some ⟨0, 10, 0⟩, some ⟨0, 12, 0⟩, ""⟩
    ⟨0, 10, 0⟩ ⟨0, 12, 0⟩ ⟨0, 11, 0⟩ rfl rfl

/-- Claim C9: a default-constructed Interval (both bounds unset) contains
every instant; an interval with only a begin set contains exactly the
instants at or after that begin (unbounded toward the future), and an
interval with only an end set is unbounded toward the past. -/
theorem c9_unbounded_bounds (i : Interval) (b e dt : DateTime) :
    (Interval.contains {} dt = true) ∧
    (i.begin = some b → i.end_ = none → (i.contains dt = true ↔ b.toMin ≤ dt.toMin)) ∧
    (i.begin = none → i.end_ = some e → (i.contains dt = true ↔ dt.toMin < e.toMin)) := by
  refine ⟨rfl, ?_, ?_⟩
  · intro hb he
    unfold Interval.contains
    rw [hb, he]
    simp
  · intro hb he
    unfold Interval.contains
    rw [hb, he]
    simp

/-- Witness for C9 with begin day 0 10:00 and the instant day 1 00:00. -/
theorem c9_unbounded_bounds_witness :
    (Interval.contains {} ⟨1, 0, 0⟩ = true) ∧
    (Interval.setBegin {} (some ⟨0, 10, 0⟩) : Interval).begin = some ⟨0, 10, 0⟩ ∧
    (Interval.contains (Interval.setBegin {} (some ⟨0, 10, 0⟩)) ⟨1, 0, 0⟩ = true ↔
      DateTime.toMin ⟨0, 10, 0⟩ ≤ DateTime.toMin ⟨1, 0, 0⟩) :=
  have h := c9_unbounded_bounds (Interval.setBegin {} (some ⟨0, 10, 0⟩))
    ⟨0, 10, 0⟩ ⟨0, 10, 0⟩ ⟨1, 0, 0⟩
  ⟨h.1, rfl, h.2.1 rfl rfl⟩

/-- Claim C10: Timespan::nextInterval only rewrites begin and end; the state
and the comment of the returned interval are those of the input interval. -/
theorem c10_nextInterval_frame (ts : Timespan) (i : Interval) :
    (ts.nextInterval i).state = i.state ∧ (ts.nextInterval i).comment = i.comment :=
  ⟨rfl, rfl⟩

end KOpeningHours
